import Mathlib

/-!
Verification of the core of the aarith arbitrary-bit-width arithmetic
library (word arrays, unsigned/signed integers, normalized floats,
posits and valids).

Modelling conventions.  A `word_array<N, uint64_t>` (and every type
backed by one: `uinteger<N>`, `sinteger<N>`, …) is embedded as its bit
pattern, a natural number `p < 2^N`, together with the width `N` passed
explicitly.  The backing machine words (64-bit, the library default) are
recovered with `getWord`; loops over words are translated loop-for-loop.
C bit operations on `uint64_t` are rendered arithmetically: `x >> k` is
`x / 2^k`, `x << k` is `x * 2^k % 2^64`, `x & (2^k - 1)` is `x % 2^k`;
`x | y` is `Nat.lor`.  Fallible operations return `Except`/`Option`.
-/

namespace Aarith

/-- Number of bits in one machine word (the library's default 64-bit word). -/
def ww : Nat := 64

/-- Number of backing words of a width-`n` word array: `⌈n / 64⌉`. -/
def wordCount (n : Nat) : Nat := (n + (ww - 1)) / ww

/-- Word `i` of the bit pattern `p`: bits `[64*i, 64*i+63]`. -/
def getWord (p i : Nat) : Nat := p / 2 ^ (ww * i) % 2 ^ ww

/-- `word_mask(i)` at array width `n`: all-ones for a full word, the top
word exposes only the `n mod 64` significant bits. -/
def wordMask (n i : Nat) : Nat := 2 ^ (min ww (n - ww * i)) - 1

/-- `set_word(i, w)` on pattern `p` at width `n`: the stored word is
`w & word_mask(i)` (rendered as a remainder), keeping every bit above
position `n-1` zero. -/
def setWord (n p i w : Nat) : Nat :=
  p % 2 ^ (ww * i) + w % (wordMask n i + 1) * 2 ^ (ww * i)
    + p / 2 ^ (ww * (i + 1)) * 2 ^ (ww * (i + 1))

/-- `bit(i)` of pattern `p`. -/
def getBit (p i : Nat) : Bool := p / 2 ^ i % 2 = 1

/-- `set_bit(i)` (set bit `i` to one) on pattern `p`. -/
def setBitOne (p i : Nat) : Nat := p ||| 2 ^ i

/-- Runs `body 0`, `body 1`, …, `body (k-1)` in this order, threading a
state: an ascending `for` loop. -/
def loopUp (body : Nat → α → α) : Nat → α → α
  | 0, s => s
  | k + 1, s => body k (loopUp body k s)

/-- Runs `body (k-1)`, …, `body 1`, `body 0` in this order, threading a
state: a descending `for` loop. -/
def loopDown (body : Nat → α → α) : Nat → α → α
  | 0, s => s
  | k + 1, s => loopDown body k (body k s)

/-- `is_negative()` of a signed integer: bit `n-1` is the sign. -/
def isNeg (n p : Nat) : Bool := getBit p (n - 1)

/-- Two's-complement value of the width-`n` bit pattern `p`. -/
def toInt (n p : Nat) : Int :=
  if isNeg n p then (p : Int) - 2 ^ n else (p : Int)

/-- Bitwise NOT (`operator~` in word_array_operations.hpp): word-wise
complement, with `set_word` re-masking the top word. -/
def wnot (n p : Nat) : Nat :=
  loopUp (fun i acc => setWord n acc i (2 ^ ww - 1 - getWord p i)) (wordCount n) 0

/-- Logical left shift (`operator<<` in word_array_operations.hpp).  For
`counter` from `word_count` down to `1`, output word `counter+skip` (when
in range) is `w[counter] << s  |  w[counter-1] >> (64-s)`; finally word
`skip` is `w[0] << s`.  Shifts `≥ n` give zero. -/
def wshl (n p k : Nat) : Nat :=
  if k ≥ n then 0
  else if k = 0 then p
  else
    let skip := k / ww
    let s := k - skip * ww
    let body := fun (c : Nat) (acc : Nat) =>
      let counter := c + 1
      if counter + skip < wordCount n then
        let w := getWord p counter * 2 ^ s % 2 ^ ww
        let w := if ww - s < ww then w ||| getWord p (counter - 1) / 2 ^ (ww - s) else w
        setWord n acc (counter + skip) w
      else acc
    let shifted := loopDown body (wordCount n) 0
    setWord n shifted skip (getWord p 0 * 2 ^ s % 2 ^ ww)

/-- Logical right shift (`operator>>` in word_array_operations.hpp).  For
`counter` from `skip` to `word_count - 1`, output word `counter-skip` is
`w[counter] >> s  |  w[counter+1] << (64-s)`; the final statement
re-stores word `word_count-skip-1` from the top input word.  Shifts `≥ n`
give zero. -/
def wshr (n p k : Nat) : Nat :=
  if k ≥ n then 0
  else if k = 0 then p
  else
    let skip := k / ww
    let s := k - skip * ww
    let body := fun (c : Nat) (acc : Nat) =>
      let counter := c + skip
      if counter < wordCount n then
        let w := getWord p counter / 2 ^ s
        let w := if ww - s < ww ∧ counter + 1 < wordCount n then
            w ||| getWord p (counter + 1) * 2 ^ (ww - s) % 2 ^ ww
          else w
        setWord n acc (counter - skip) w
      else acc
    let shifted := loopUp body (wordCount n) 0
    setWord n shifted (wordCount n - skip - 1) (getWord p (wordCount n - 1) / 2 ^ s)

/-- Modelled from the spec: `width_cast<M>` on signed integers
(sinteger.hpp is not part of the sources) sign-extends on grow and
truncates on shrink (§3). -/
def swidthCast (src dst p : Nat) : Nat :=
  if dst ≤ src then p % 2 ^ dst
  else if isNeg src p then p + (2 ^ dst - 2 ^ src) else p

/-- Modelled from the spec: `width_cast<M>` on unsigned integers and word
arrays (§4.1) zero-extends on grow and truncates on shrink. -/
def uwidthCast (src dst p : Nat) : Nat :=
  if dst ≤ src then p % 2 ^ dst else p

/-- `expanding_add` for signed integers (sinteger_operations.hpp):
width-cast both summands to `max(W,V)+1`, then ripple word-wise; per word
`partial = a + b`, carry-out by the `partial < a || partial < b` test,
then `partial += carry` with the carry updated by the same test. -/
def expandingAddS (W V : Nat) (a b : Nat) (initial_carry : Bool) : Nat :=
  let res := max W V + 1
  let a_ := swidthCast W res a
  let b_ := swidthCast V res b
  (loopUp (fun i st =>
      let word_a := getWord a_ i
      let word_b := getWord b_ i
      let partial1 := (word_a + word_b) % 2 ^ ww
      let nc : Nat := if partial1 < word_a ∨ partial1 < word_b then 1 else 0
      let partial2 := (partial1 + st.2) % 2 ^ ww
      let c2 : Nat := if nc = 1 ∨ partial2 < word_a ∨ partial2 < word_b then 1
        else 0
      (setWord res st.1 i partial2, c2))
    (wordCount res) ((0 : Nat), if initial_carry then (1 : Nat) else 0)).1

/-- Modelled from the spec: `expanding_add` for unsigned integers (§4.2;
uinteger_operations.hpp is not part of the sources) is the same word-wise
ripple on the zero-extended operands. -/
def expandingAddU (W V : Nat) (a b : Nat) (initial_carry : Bool) : Nat :=
  let res := max W V + 1
  let a_ := uwidthCast W res a
  let b_ := uwidthCast V res b
  (loopUp (fun i st =>
      let word_a := getWord a_ i
      let word_b := getWord b_ i
      let partial1 := (word_a + word_b) % 2 ^ ww
      let nc : Nat := if partial1 < word_a ∨ partial1 < word_b then 1 else 0
      let partial2 := (partial1 + st.2) % 2 ^ ww
      let c2 : Nat := if nc = 1 ∨ partial2 < word_a ∨ partial2 < word_b then 1
        else 0
      (setWord res st.1 i partial2, c2))
    (wordCount res) ((0 : Nat), if initial_carry then (1 : Nat) else 0)).1

/-- `fun_add_expand` (sinteger_operations.hpp) for signed operands:
width-cast both operands to `max(W,V)+1` and `zip_with` them under a
mutable lambda whose captured carry persists across the words (the word
formula is identical to the `expanding_add` loop); the result is
width-cast to the same width again. -/
def funAddExpandS (W V : Nat) (a b : Nat) (initial_carry : Bool) : Nat :=
  let res := max W V + 1
  let a_ := swidthCast W res a
  let b_ := swidthCast V res b
  uwidthCast res res
    (loopUp (fun i st =>
      let word_a := getWord a_ i
      let word_b := getWord b_ i
      let partial1 := (word_a + word_b) % 2 ^ ww
      let nc : Nat := if partial1 < word_a ∨ partial1 < word_b then 1 else 0
      let partial2 := (partial1 + st.2) % 2 ^ ww
      let c2 : Nat := if nc = 1 ∨ partial2 < word_a ∨ partial2 < word_b then 1
        else 0
      (setWord res st.1 i partial2, c2))
    (wordCount res) ((0 : Nat), if initial_carry then (1 : Nat) else 0)).1

/-- `fun_add_expand` (sinteger_operations.hpp) for unsigned operands
(the template is generic over the aarith integer types). -/
def funAddExpandU (W V : Nat) (a b : Nat) (initial_carry : Bool) : Nat :=
  let res := max W V + 1
  let a_ := uwidthCast W res a
  let b_ := uwidthCast V res b
  uwidthCast res res
    (loopUp (fun i st =>
      let word_a := getWord a_ i
      let word_b := getWord b_ i
      let partial1 := (word_a + word_b) % 2 ^ ww
      let nc : Nat := if partial1 < word_a ∨ partial1 < word_b then 1 else 0
      let partial2 := (partial1 + st.2) % 2 ^ ww
      let c2 : Nat := if nc = 1 ∨ partial2 < word_a ∨ partial2 < word_b then 1
        else 0
      (setWord res st.1 i partial2, c2))
    (wordCount res) ((0 : Nat), if initial_carry then (1 : Nat) else 0)).1

/-- `fun_add` (sinteger_operations.hpp): `fun_add_expand` width-cast back
to the operand width, signed variant. -/
def funAddS (W : Nat) (a b : Nat) (initial_carry : Bool) : Nat :=
  swidthCast (max W W + 1) W (funAddExpandS W W a b initial_carry)

/-- `fun_add` (sinteger_operations.hpp), unsigned variant. -/
def funAddU (W : Nat) (a b : Nat) (initial_carry : Bool) : Nat :=
  uwidthCast (max W W + 1) W (funAddExpandU W W a b initial_carry)

/-- `add` for signed integers (sinteger_operations.hpp):
`width_cast<W>(expanding_add(a, b))`. -/
def addS (W : Nat) (a b : Nat) : Nat :=
  swidthCast (max W W + 1) W (expandingAddS W W a b false)

/-- `sub` for signed integers (sinteger_operations.hpp):
`add(a, add(~b, 1))`. -/
def subS (W : Nat) (a b : Nat) : Nat :=
  addS W a (addS W (wnot W b) 1)

/-- Unary `operator-` for signed integers (sinteger_operations.hpp):
`add(~n, 1)`. -/
def negS (W : Nat) (n : Nat) : Nat :=
  addS W (wnot W n) 1

/-- `abs` for signed integers (sinteger_operations.hpp):
negate when negative. -/
def absS (W : Nat) (n : Nat) : Nat :=
  if isNeg W n then negS W n else n

/-- `expanding_abs` (sinteger_operations.hpp): the absolute value viewed
as an unsigned integer of the same width (same bit pattern). -/
def expandingAbs (W : Nat) (n : Nat) : Nat :=
  if isNeg W n then negS W n else n

/-- Arithmetic right shift `operator>>` for signed integers
(sinteger_operations.hpp, lines 407-462), translated loop for loop,
including the `lhs.is_zero()` initialization to `all_ones()` and the
final sign-bit fill for negative inputs. -/
def sintShr (Width : Nat) (lp : Nat) (rhs : Nat) : Nat :=
  if rhs ≥ Width then
    (if isNeg Width lp then 2 ^ Width - 1 else 0)
  else if rhs = 0 then lp
  else
    let shifted0 : Nat := if lp = 0 then 2 ^ Width - 1 else 0
    let skip := rhs / ww
    let swr := rhs - skip * ww
    let swl := ww - swr
    let shifted1 := loopUp (fun c acc =>
        if c + skip < wordCount Width then
          setWord Width acc (c + skip - skip)
            (if swl < ww ∧ c + skip + 1 < wordCount Width then
              getWord lp (c + skip) / 2 ^ swr |||
                getWord lp (c + skip + 1) * 2 ^ swl % 2 ^ ww
             else getWord lp (c + skip) / 2 ^ swr)
        else acc) (wordCount Width) shifted0
    let shifted2 := setWord Width shifted1 (wordCount Width - skip - 1)
        (getWord lp (wordCount Width - 1) / 2 ^ swr)
    if isNeg Width lp then
      loopUp (fun j acc => setBitOne acc (Width - 1 - j)) rhs shifted2
    else shifted2

/-- `expanding_mul` for signed integers (sinteger_operations.hpp,
lines 201-235): Booth multiplication with the most-negative-value
extension, on a working width `K = W + V + 2`.  The `sinteger<K>{...}`
constructor from a narrower integer copies the backing words
(zero-extension); `width_cast<W+1>` sign-extends. -/
def expandingMulS (W V : Nat) (m r : Nat) : Nat :=
  let K := W + V + 2
  let A0 := swidthCast W (W + 1) m
  let S0 := negS K A0
  let A := wshl K A0 (V + 1)
  let S := wshl K S0 (V + 1)
  let P0 := wshl K r 1
  let P := loopUp (fun _ st =>
      let last_bit := getBit st 0
      let snd_last_bit := getBit st 1
      let st := if snd_last_bit ∧ ¬ last_bit then addS K st S else st
      let st := if ¬ snd_last_bit ∧ last_bit then addS K st A else st
      sintShr K st 1) V P0
  swidthCast K (W + V) (sintShr K P 1)

/-- The loop body of `expanding_mul` (one Booth iteration): conditional
add of `S` or `A` decided by the two low bits of the register, then an
arithmetic right shift by one (same text as the loop inside
`expandingMulS`, factored out for the iteration analysis). -/
def boothBody (W V m : Nat) : Nat → Nat → Nat :=
  fun _ st =>
    let K := W + V + 2
    let A0 := swidthCast W (W + 1) m
    let S0 := negS K A0
    let A := wshl K A0 (V + 1)
    let S := wshl K S0 (V + 1)
    let last_bit := getBit st 0
    let snd_last_bit := getBit st 1
    let st := if snd_last_bit ∧ ¬ last_bit then addS K st S else st
    let st := if ¬ snd_last_bit ∧ last_bit then addS K st A else st
    sintShr K st 1

/-- `mul` for signed integers (sinteger_operations.hpp):
`width_cast<W>(expanding_mul(a, b))`. -/
def mulS (W : Nat) (a b : Nat) : Nat :=
  swidthCast (W + W) W (expandingMulS W W a b)

/-- Conjunction of `f 0 && f 1 && ... && f (k-1)`: a scanning loop that
fails at the first mismatch. -/
def allUp (f : Nat → Bool) : Nat → Bool
  | 0 => true
  | k + 1 => allUp f k && f k

/-- Big-endian word comparison loop: compare words `i-1, i-2, ..., 0`,
returning at the first difference. -/
def cmpLoop (a b : Nat) : Nat → Ordering
  | 0 => Ordering.eq
  | i + 1 =>
    let wa := getWord a i
    let wb := getWord b i
    if wa < wb then Ordering.lt
    else if wa > wb then Ordering.gt
    else cmpLoop a b i

/-- `operator==` for unsigned integers (integer_comparisons.hpp, lines
16-58): compare the common words, then require the extra words of the
wider operand to be zero. -/
def uintEq (W V : Nat) (a b : Nat) : Bool :=
  let minc := min (wordCount W) (wordCount V)
  let maxc := max (wordCount W) (wordCount V)
  (allUp (fun i => getWord a i == getWord b i) minc) &&
    (if W > V then allUp (fun j => getWord a (minc + j) == 0) (maxc - minc)
     else allUp (fun j => getWord b (minc + j) == 0) (maxc - minc))

/-- `operator<` for unsigned integers (integer_comparisons.hpp, lines
60-114): big-endian word compare; on differing word counts both operands
are first width-cast (zero-extended) to `max(W,V)`. -/
def uintLt (W V : Nat) (a b : Nat) : Bool :=
  if wordCount W = wordCount V then
    match cmpLoop a b (wordCount W) with
    | Ordering.lt => true
    | Ordering.gt => false
    | Ordering.eq => false
  else
    let mw := max W V
    match cmpLoop (uwidthCast W mw a) (uwidthCast V mw b) (wordCount mw) with
    | Ordering.lt => true
    | Ordering.gt => false
    | Ordering.eq => false

/-- `operator==` for signed integers (integer_comparisons.hpp, lines
134-236): signs must agree; the wider operand's extra words must equal
the sign-extension mask (negative) or zero (non-negative); the common
words are compared with the narrower operand's word mask applied to the
wider operand when negative. -/
def sintEq (W V : Nat) (a b : Nat) : Bool :=
  let minc := min (wordCount W) (wordCount V)
  let maxc := max (wordCount W) (wordCount V)
  if (isNeg W a != isNeg V b) then false
  else
    let negs := isNeg W a
    let leading :=
      if W > V then
        allUp (fun j =>
          if negs then getWord a (minc + j) == wordMask W (minc + j)
          else getWord a (minc + j) == 0) (maxc - minc)
      else
        allUp (fun j =>
          if negs then getWord b (minc + j) == wordMask V (minc + j)
          else getWord b (minc + j) == 0) (maxc - minc)
    let common := allUp (fun i =>
        if negs then
          (if W > V then (getWord a i &&& wordMask V i) == getWord b i
           else getWord a i == (getWord b i &&& wordMask W i))
        else getWord a i == getWord b i) minc
    leading && common

/-- `operator<` for signed integers (integer_comparisons.hpp, lines
238-305): differing signs decide immediately; otherwise a big-endian
word compare whose two return values are `!both_positive` (first word of
`a` greater) and `both_positive` (first word of `a` smaller); operands of
differing word counts are first sign-extended to `max(W,V)`. -/
def sintLt (W V : Nat) (a b : Nat) : Bool :=
  if isNeg W a && !(isNeg V b) then true
  else if !(isNeg W a) && isNeg V b then false
  else
    let bp := !(isNeg W a)
    if wordCount W = wordCount V then
      match cmpLoop a b (wordCount W) with
      | Ordering.gt => !bp
      | Ordering.lt => bp
      | Ordering.eq => false
    else
      let mw := max W V
      match cmpLoop (swidthCast W mw a) (swidthCast V mw b) (wordCount mw) with
      | Ordering.gt => !bp
      | Ordering.lt => bp
      | Ordering.eq => false

/-- The `while (value >> first_bit) ++first_bit` loop of `first_set_bit`
(word_array_operations.hpp, lines 78-89); `operator bool` tests the
shifted array against zero. -/
def firstSetBitAux (Width p k : Nat) : Nat :=
  if h : wshr Width p k ≠ 0 then
    have hk : k < Width := by
      by_contra hge
      exact h (by unfold wshr; rw [if_pos (by omega)])
    firstSetBitAux Width p (k + 1)
  else k
termination_by Width - k

/-- `first_set_bit` (word_array_operations.hpp, lines 78-89). -/
def firstSetBit (Width p : Nat) : Nat := firstSetBitAux Width p 0

/-- Modelled from the spec: the restoring division on unsigned integers
(§4.2; uinteger_operations.hpp is not part of the sources): fast paths
for zero divisor (`DivideByZero`), zero numerator, divisor one, equal
operands and `N < D`, then the restoring loop shifting in numerator bits
MSB-first. -/
def restoringDivisionU (W : Nat) (N D : Nat) : Except String (Nat × Nat) :=
  if D = 0 then Except.error "Attempted division by zero"
  else if N = 0 then Except.ok (0, 0)
  else if D = 1 then Except.ok (N, 0)
  else if N = D then Except.ok (1, 0)
  else if N < D then Except.ok (0, N)
  else
    let st := loopUp (fun j (st : Nat × Nat) =>
        let i := W - 1 - j
        let R := 2 * st.1 + (if getBit N i then 1 else 0)
        if D ≤ R then (R - D, setBitOne st.2 i) else (R, st.2)) W (0, 0)
    Except.ok (st.2, st.1)

/-- `restoring_division` for signed integers (sinteger_operations.hpp,
lines 314-366): fast paths, then unsigned division of the absolute
values; the quotient is negated at width `W+1` when the operand signs
differ and both results are width-cast back to `W`.  The
`sinteger<W+1>{uinteger<W>}` constructor copies words (zero-extension). -/
def restoringDivisionS (W V : Nat) (numerator denominator : Nat) :
    Except String (Nat × Nat) :=
  if denominator = 0 then Except.error "Attempted division by zero"
  else if numerator = 0 then Except.ok (0, 0)
  else if sintEq V W denominator 1 then Except.ok (numerator, 0)
  else if sintEq W V numerator denominator then Except.ok (1, 0)
  else
    let negate := (isNeg W numerator) != (isNeg V denominator)
    let N := expandingAbs W numerator
    let D := expandingAbs V denominator
    if uintLt W V N D then Except.ok (0, numerator)
    else
      match restoringDivisionU W N D with
      | Except.error e => Except.error e
      | Except.ok (q0, r0) =>
        let Q := if negate then negS (W + 1) q0 else q0
        Except.ok (swidthCast (W + 1) W Q, swidthCast (W + 1) W r0)

/-- `remainder` for signed integers (sinteger_operations.hpp): second
component of `restoring_division`. -/
def remainderS (W : Nat) (numerator denominator : Nat) : Except String Nat :=
  match restoringDivisionS W W numerator denominator with
  | Except.error e => Except.error e
  | Except.ok p => Except.ok p.2

/-- `div` for signed integers (sinteger_operations.hpp): first component
of `restoring_division`. -/
def divS (W : Nat) (numerator denominator : Nat) : Except String Nat :=
  match restoringDivisionS W W numerator denominator with
  | Except.error e => Except.error e
  | Except.ok p => Except.ok p.1

/-- A posit tile (posit.hpp is not part of the sources; valid.hpp uses it
as a pair of the posit's bit pattern and an uncertainty flag).  Only its
component-wise equality matters for the `valid` comparison. -/
structure Tile where
  bits : Nat
  u : Bool
deriving DecidableEq

/-- An interval `valid`: a start tile and an end tile (the C++ field
`end` is a Lean keyword and is rendered `endt`). -/
structure Valid where
  start : Tile
  endt : Tile
deriving DecidableEq

/-- `valid::operator==` (valid.hpp, lines 81-85):
`start == other.start && end == other.start`. -/
def validEq (u v : Valid) : Bool :=
  decide (u.start = v.start) && decide (u.endt = v.start)

/-- Modelled from the spec: the `positparams` intermediate form
`(is_nar, is_zero, sign_bit, scale, fraction)` (§2); `scale` is the
signed total power of two, rendered as a mathematical integer, and
`fraction` is the fixed-point significand pattern of the `fractional`
wrapper (posit.hpp is not part of the sources), with `FS` fraction bits
below the binary point so that integer-part bit `i` is pattern bit
`FS + i`. -/
structure PositParams where
  is_nar : Bool
  is_zero : Bool
  sign_bit : Bool
  scale : Int
  fraction : Nat
deriving DecidableEq

/-- `positparams::ordered` (positparams.hpp, lines 276-288): order a pair
by scale, larger first. -/
def ppOrdered (p q : PositParams) : PositParams × PositParams :=
  if p.scale > q.scale then (p, q) else (q, p)

/-- `positparams::match_scale_of` (positparams.hpp, lines 290-299): raise
the smaller scale to the larger one, shifting that operand's fraction
right by the difference. -/
def matchScaleOf (p q : PositParams) : PositParams × PositParams :=
  if p.scale > q.scale then
    (p, { q with
          scale := p.scale
          fraction := q.fraction / 2 ^ (p.scale - q.scale).toNat })
  else
    ({ p with
       scale := q.scale
       fraction := p.fraction / 2 ^ (q.scale - p.scale).toNat }, q)

/-- The `while (dest.fraction.integer_bits().bit(1))` carry-normalization
loop of `positparams::add_fractions` (positparams.hpp, lines 386-391),
with explicit fuel (each step halves the fraction, so any fuel at least
the bit length makes the fuel irrelevant). -/
def ppNormCarry (FS : Nat) : Nat → Nat → Int → Nat × Int
  | 0, f, sc => (f, sc)
  | fuel + 1, f, sc =>
    if getBit f (FS + 1) then ppNormCarry FS fuel (f / 2) (sc + 1) else (f, sc)

/-- The `while (!dest.fraction.integer_bits().bit(0))` normalization loop
of `positparams::sub_fractions` (positparams.hpp, lines 402-409), with
explicit fuel. -/
def ppNormBorrow (FS : Nat) : Nat → Nat → Int → Nat × Int
  | 0, f, sc => (f, sc)
  | fuel + 1, f, sc =>
    if ¬ getBit f FS then ppNormBorrow FS fuel (f * 2) (sc - 1) else (f, sc)

/-- `positparams::add_fractions` (positparams.hpp, lines 377-391). -/
def ppAddFractions (FS : Nat) (dest : PositParams) (l r : Nat) : PositParams :=
  let s := ppNormCarry FS (l + r) (l + r) dest.scale
  { dest with
    fraction := s.1
    scale := s.2 }

/-- `positparams::sub_fractions` (positparams.hpp, lines 393-410). -/
def ppSubFractions (FS : Nat) (dest : PositParams) (l r : Nat) : PositParams :=
  let f0 := l - r
  if f0 % 2 ^ FS ≠ 0 then
    let s := ppNormBorrow FS (FS + 2) f0 dest.scale
    { dest with
      fraction := s.1
      scale := s.2 }
  else
    { dest with fraction := f0 }

/-- `positparams::sum_fractions` (positparams.hpp, lines 301-375): sign
dispatch over add/sub of the aligned fractions. -/
def sumFractions (FS : Nat) (lhs rhs : PositParams) : PositParams :=
  let dest : PositParams :=
    { is_nar := false
      is_zero := false
      sign_bit := false
      scale := lhs.scale
      fraction := 0 }
  if lhs.sign_bit ∧ rhs.sign_bit then
    { ppAddFractions FS dest lhs.fraction rhs.fraction with sign_bit := true }
  else if ¬ lhs.sign_bit ∧ ¬ rhs.sign_bit then
    { ppAddFractions FS dest lhs.fraction rhs.fraction with sign_bit := false }
  else if ¬ lhs.sign_bit ∧ rhs.sign_bit then
    if lhs.fraction > rhs.fraction then
      { ppSubFractions FS dest lhs.fraction rhs.fraction with sign_bit := false }
    else if lhs.fraction = rhs.fraction then
      { dest with
        fraction := 0
        is_zero := true
        sign_bit := false }
    else
      { ppSubFractions FS dest rhs.fraction lhs.fraction with sign_bit := true }
  else
    if lhs.fraction < rhs.fraction then
      { ppSubFractions FS dest rhs.fraction lhs.fraction with sign_bit := false }
    else if lhs.fraction = rhs.fraction then
      { dest with
        fraction := 0
        is_zero := true
        sign_bit := false }
    else
      { ppSubFractions FS dest lhs.fraction rhs.fraction with sign_bit := true }

/-- `positparams::operator+` (positparams.hpp, lines 218-259): the
special-value fast paths, then scale matching and fraction summation. -/
def ppAdd (FS : Nat) (x y : PositParams) : PositParams :=
  if x.is_nar ∨ y.is_nar then x
  else if x.is_zero then y
  else if y.is_zero then x
  else
    let p := matchScaleOf x y
    sumFractions FS p.1 p.2

/-- `positparams::zero` (positparams.hpp, lines 269-274). -/
def ppZero : PositParams :=
  { is_nar := false
    is_zero := true
    sign_bit := false
    scale := 0
    fraction := 0 }

/-- The NaR `positparams` as produced by decoding NaR (positparams.hpp,
lines 11-15 set `is_nar = true, is_zero = false`; the remaining fields
keep their defaults). -/
def ppNar : PositParams :=
  { is_nar := true
    is_zero := false
    sign_bit := false
    scale := 0
    fraction := 0 }

/-- Modelled from the spec: `incremented_real` (§4.4 step 6; posit.hpp is
not part of the sources): add one to the pattern but clamp at `max_pos`
instead of crossing into NaR. -/
def incrementedReal (N x : Nat) : Nat :=
  let y := (x + 1) % 2 ^ N
  if y = 2 ^ (N - 1) then 2 ^ (N - 1) - 1 else y

/-- The regime loop of `positparams::operator posit` (positparams.hpp,
lines 125-137): write `nregime` regime bits MSB-first while the write
index `i` is in range; the last regime bit is inverted.  The counter
argument is the number of regime bits still to write. -/
def encRegimeLoop (first_regime_bit : Bool) : Nat → Nat → Int → Nat × Int
  | 0, bits, i => (bits, i)
  | n + 1, bits, i =>
    if i ≥ 0 then
      let b := if n = 0 then ¬ first_regime_bit else first_regime_bit
      encRegimeLoop first_regime_bit n
        (if b then setBitOne bits i.toNat else bits) (i - 1)
    else (bits, i)

/-- The exponent loop of `positparams::operator posit` (positparams.hpp,
lines 143-148): write the `ES` exponent bits MSB-first. -/
def encExpLoop (e : Nat) : Nat → Nat → Int → Nat × Int
  | 0, bits, i => (bits, i)
  | n + 1, bits, i =>
    if i ≥ 0 then
      encExpLoop e n (if getBit e n then setBitOne bits i.toNat else bits) (i - 1)
    else (bits, i)

/-- The fraction loop of `positparams::operator posit` (positparams.hpp,
lines 154-160): write the `FS` explicit fraction bits MSB-first. -/
def encFracLoop (fb : Nat) : Nat → Nat → Int → Nat × Int
  | 0, bits, i => (bits, i)
  | n + 1, bits, i =>
    if i ≥ 0 then
      encFracLoop fb n (if getBit fb n then setBitOne bits i.toNat else bits) (i - 1)
    else (bits, i)

/-- `positparams::operator posit` (positparams.hpp, lines 58-203): build
the wide `N+ES+3`-bit string (sign placeholder, unary regime, exponent,
fraction), slice off the candidate posit and the rounding residue,
round to nearest even via `incremented_real`, and two's-complement for
negative values.  `floordiv` is floor division and `absmod` the
non-negative remainder (both spec §4.4). -/
def ppToPosit (N ES FS : Nat) (P : PositParams) : Nat :=
  if P.is_nar then 2 ^ (N - 1)
  else if P.is_zero then 0
  else
    let powes : Int := 2 ^ ES
    let regime := Int.fdiv P.scale powes
    let exponent := (P.scale % powes).toNat
    let i0 : Int := (N + ES + 3 : Nat) - 1 - 1
    let nregime : Int := if P.scale < 0 then |regime| + 1 else regime + 1 + 1
    let first_regime_bit := ¬ (P.scale < 0)
    let s1 := encRegimeLoop first_regime_bit nregime.toNat 0 i0
    let s2 := encExpLoop exponent ES s1.1 s1.2
    let s3 := encFracLoop (P.fraction % 2 ^ FS) FS s2.1 s2.2
    let bits := s3.1
    let posit_bits := bits / 2 ^ (ES + 3) % 2 ^ N
    let truncated := bits % 2 ^ (ES + 3)
    let last := getBit posit_bits 0
    let after := getBit truncated (ES + 3 - 1)
    let tail := truncated % 2 ^ (ES + 2) ≠ 0
    let x := if (last ∧ after) ∨ (after ∧ tail) then incrementedReal N posit_bits
      else posit_bits
    if P.sign_bit then (2 ^ N - x) % 2 ^ N else x

/-- The regime-run counter of the posit decode (spec §4.4 step 3): the
number of consecutive bits equal to `b` scanning down from the position
one below the fuel argument. -/
def regimeRunAux (q : Nat) (b : Bool) : Nat → Nat
  | 0 => 0
  | pos1 + 1 => if getBit q pos1 = b then 1 + regimeRunAux q b pos1 else 0

/-- Modelled from the spec: posit decode (§4.4, steps 1-6; the
`positparams(posit)` constructor in positparams.hpp delegates the field
extraction to posit.hpp, which is not part of the sources): special
values, two's complement for negative sign, regime run, exponent bits
zero-padded on the right, and the explicit fraction under a hidden one
placed at fixed-point position `FS`. -/
def positToParams (N ES FS : Nat) (p : Nat) : PositParams :=
  if p = 2 ^ (N - 1) then ppNar
  else if p = 0 then ppZero
  else
    let sign := getBit p (N - 1)
    let q := if sign then (2 ^ N - p) % 2 ^ N else p
    let b := getBit q (N - 2)
    let r := regimeRunAux q b (N - 1)
    let k : Int := if b then (r : Int) - 1 else -(r : Int)
    let nrem := N - 1 - r - 1
    let rem := q % 2 ^ nrem
    let e := if ES ≤ nrem then rem / 2 ^ (nrem - ES) else rem * 2 ^ (ES - nrem)
    let nf := nrem - ES
    let f := if ES ≤ nrem then rem % 2 ^ (nrem - ES) else 0
    { is_nar := false
      is_zero := false
      sign_bit := sign
      scale := k * 2 ^ ES + e
      fraction := 2 ^ FS + f * 2 ^ (FS - nf) }

/-- Decidable equality of `Except` results (needed to evaluate the
division theorems). -/
instance {e a : Type} [DecidableEq e] [DecidableEq a] : DecidableEq (Except e a)
  | Except.error x, Except.error y =>
    if h : x = y then Decidable.isTrue (congrArg Except.error h)
    else Decidable.isFalse (fun c => h (by injection c))
  | Except.error _, Except.ok _ => Decidable.isFalse (fun c => Except.noConfusion c)
  | Except.ok _, Except.error _ => Decidable.isFalse (fun c => Except.noConfusion c)
  | Except.ok x, Except.ok y =>
    if h : x = y then Decidable.isTrue (congrArg Except.ok h)
    else Decidable.isFalse (fun c => h (by injection c))

/-! ### Normalized floats (float_operations.hpp) -/

/-- Modelled from the spec: a normalized float `NF<E,M>` (§4.3;
normfloat.hpp is not part of the sources).  `exponent` holds the biased
`E`-bit exponent pattern and `mantissa` the `M`-bit significand pattern,
hidden bit included. -/
structure NormFloat where
  sign : Bool
  exponent : Nat
  mantissa : Nat
deriving DecidableEq

/-- Well-formed normfloat value at widths `E`, `M`: fields in range and
either the exact zero or a set hidden bit (the invariant of a
*normalized* float). -/
def nfWf (E M : Nat) (x : NormFloat) : Prop :=
  x.exponent < 2 ^ E ∧
    ((x.exponent = 0 ∧ x.mantissa = 0) ∨
      (2 ^ (M - 1) ≤ x.mantissa ∧ x.mantissa < 2 ^ M))

instance (E M : Nat) (x : NormFloat) : Decidable (nfWf E M x) :=
  inferInstanceAs (Decidable (x.exponent < 2 ^ E ∧
    ((x.exponent = 0 ∧ x.mantissa = 0) ∨
      (2 ^ (M - 1) ≤ x.mantissa ∧ x.mantissa < 2 ^ M))))

/-- The zero normfloat. -/
def nfZero : NormFloat :=
  { sign := false
    exponent := 0
    mantissa := 0 }

/-- `set_sign(~get_sign())`: flip the sign bit, keep the other fields. -/
def nfFlipSign (x : NormFloat) : NormFloat :=
  { x with sign := !x.sign }

/-- Modelled from the spec: the magnitude test `abs(lhs) < abs(rhs)` of
§4.3 step 1 (normfloat.hpp and the float comparisons are not part of the
sources).  On sign-cleared normalized operands the value order is the
lexicographic order on (biased exponent, mantissa). -/
def nfAbsLt (x y : NormFloat) : Bool :=
  decide (x.exponent < y.exponent) ||
    (decide (x.exponent = y.exponent) && decide (x.mantissa < y.mantissa))

/-- Modelled from the spec: `sub` on unsigned integers at width `E`
(§4.2): wrap-around subtraction of the bit patterns. -/
def uSub (E l r : Nat) : Nat := (l + (2 ^ E - r)) % 2 ^ E

/-- Modelled from the spec: `expanding_add<M, M>` on unsigned integers
(§4.2, invariant S1): the exact sum, carried at width `M + 1`. -/
def uExpandingAdd (M l r : Nat) : Nat := (l + r) % 2 ^ (M + 1)

/-- Modelled from the spec: `expanding_sub<M, M>` on unsigned integers:
two's-complement subtraction carried out at width `M + 1`. -/
def uExpandingSub (M l r : Nat) : Nat :=
  (l + (2 ^ (M + 1) - r)) % 2 ^ (M + 1)

/-- Modelled from the spec: the position of the leading one of `m`,
scanning bit positions `k-1, …, 0` from the most significant end
(`find_leading_one`; normfloat.hpp is not part of the sources). -/
def leadOne : Nat → Nat → Option Nat
  | 0, _ => none
  | k + 1, m => if m / 2 ^ k % 2 = 1 then some k else leadOne k m

/-- Modelled from the spec: round-to-nearest-even of `m` with its low
`k` bits dropped (§4.3 step 6). -/
def nfRound (k m : Nat) : Nat :=
  if 2 ^ k < 2 * (m % 2 ^ k) ∨ (2 * (m % 2 ^ k) = 2 ^ k ∧ m / 2 ^ k % 2 = 1)
  then m / 2 ^ k + 1 else m / 2 ^ k

/-- Modelled from the spec: `normalize<E, MS, M>` (§4.3 steps 5-6;
normfloat.hpp is not part of the sources).  A zero mantissa gives the
(signed) zero with a cleared exponent; a leading one at or above the
hidden position is shifted down to it with round-to-nearest-even and the
exponent incremented accordingly (a rounding carry renormalizes once
more); a low leading one is shifted up while the exponent lasts, else
the result is flushed to zero. -/
def nfNormalize (E MS M : Nat) (s : Bool) (e m : Nat) : NormFloat :=
  match leadOne MS m with
  | none =>
    { sign := s
      exponent := 0
      mantissa := 0 }
  | some pos =>
    if M - 1 ≤ pos then
      if nfRound (pos - (M - 1)) m = 2 ^ M then
        { sign := s
          exponent := (e + (pos - (M - 1)) + 1) % 2 ^ E
          mantissa := 2 ^ (M - 1) }
      else
        { sign := s
          exponent := (e + (pos - (M - 1))) % 2 ^ E
          mantissa := nfRound (pos - (M - 1)) m }
    else
      if M - 1 - pos ≤ e then
        { sign := s
          exponent := e - (M - 1 - pos)
          mantissa := m * 2 ^ (M - 1 - pos) }
      else
        { sign := s
          exponent := 0
          mantissa := 0 }

/-- `add_` and `sub_` for normfloats (float_operations.hpp, lines 23-49
and 63-91), instantiated with `fun_add = expanding_add<M, M>` and
`fun_sub = expanding_sub<M, M>` exactly as `add` and `sub` do (lines
104-109 and 122-127).  The two C++ functions are mutually recursive
with the same body shape, differing only in which mantissa operation the
final branch applies; `isAdd` selects which of the two is running.  The
C++ recursion terminates after at most one magnitude swap followed by at
most one sign dispatch, which `fuel` counts down. -/
def nfOpAux (E M : Nat) : Nat → Bool → NormFloat → NormFloat → NormFloat
  | 0, _, lhs, _ => lhs
  | fuel + 1, isAdd, lhs, rhs =>
    if nfAbsLt lhs rhs = true then
      if isAdd = true then nfOpAux E M fuel true rhs lhs
      else nfOpAux E M fuel true (nfFlipSign rhs) lhs
    else if lhs.sign ≠ rhs.sign then
      nfOpAux E M fuel (!isAdd) lhs (nfFlipSign rhs)
    else
      nfNormalize E (M + 1) M lhs.sign lhs.exponent
        (if isAdd = true then
          uExpandingAdd M lhs.mantissa
            (rhs.mantissa / 2 ^ (uSub E lhs.exponent rhs.exponent % 2 ^ ww))
        else
          uExpandingSub M lhs.mantissa
            (rhs.mantissa / 2 ^ (uSub E lhs.exponent rhs.exponent % 2 ^ ww)))

/-- `add` for normfloats (float_operations.hpp, lines 104-109): `add_`
with the expanding add/sub as the mantissa operations. -/
def nfAdd (E M : Nat) (lhs rhs : NormFloat) : NormFloat :=
  nfOpAux E M 3 true lhs rhs

/-- Modelled from the spec: `get_bias()` of an `E`-bit exponent, the
standard bias `2^(E-1) - 1` (§4.3 re-biasing). -/
def nfBias (E : Nat) : Nat := 2 ^ (E - 1) - 1

/-- `mul` for normfloats (float_operations.hpp, lines 140-155): the
widening unsigned multiply of the mantissas (width `2M`) shifted right
by `M - 1`; exponent `lhs.e + rhs.e - bias` computed by
`expanding_add`/`sub`/`width_cast` at widths `E + 1` then `E`; the sign
is the XOR of the signs; then `normalize<E, 2M, M>`. -/
def nfMul (E M : Nat) (lhs rhs : NormFloat) : NormFloat :=
  nfNormalize E (2 * M) M (Bool.xor lhs.sign rhs.sign)
    ((lhs.exponent + rhs.exponent + (2 ^ (E + 1) - nfBias E)) % 2 ^ (E + 1) %
      2 ^ E)
    (lhs.mantissa * rhs.mantissa / 2 ^ (M - 1))

/-- The unary pattern the regime loop writes: `n` bits, the leading
`n - 1` of them `frb`, the last one inverted. -/
def regimeVal (frb : Bool) (n : Nat) : Nat :=
  if frb then 2 ^ n - 2 else if n = 0 then 0 else 1

/-! ### Basic facts about the word model -/

theorem ww_pos : 0 < ww := by decide

theorem getWord_lt (p i : Nat) : getWord p i < 2 ^ ww :=
  Nat.mod_lt _ (Nat.two_pow_pos ww)

theorem wordMask_add_one (n i : Nat) :
    wordMask n i + 1 = 2 ^ min ww (n - ww * i) := by
  have := Nat.one_le_two_pow (n := min ww (n - ww * i))
  unfold wordMask; omega

theorem wordMask_lt (n i : Nat) : wordMask n i < 2 ^ ww := by
  have h1 := wordMask_add_one n i
  have h2 : 2 ^ min ww (n - ww * i) ≤ 2 ^ ww :=
    Nat.pow_le_pow_right (by decide) (Nat.min_le_left _ _)
  omega

theorem wordMask_full (n i : Nat) (h : ww * (i + 1) ≤ n) :
    wordMask n i + 1 = 2 ^ ww := by
  rw [wordMask_add_one]
  have : min ww (n - ww * i) = ww := by
    have : ww * (i + 1) = ww * i + ww := by ring
    omega
  rw [this]

theorem le_ww_mul_wordCount (n : Nat) : n ≤ ww * wordCount n := by
  unfold wordCount
  have h1 := Nat.div_add_mod (n + (ww - 1)) ww
  have h2 : (n + (ww - 1)) % ww < ww := Nat.mod_lt _ (by decide)
  unfold ww at *; omega

theorem ww_mul_wordCount_lt (n : Nat) (_hn : 0 < n) :
    ww * wordCount n < n + ww := by
  unfold wordCount
  have h1 := Nat.div_add_mod (n + (ww - 1)) ww
  unfold ww at *; omega

theorem wordCount_pos (n : Nat) (hn : 0 < n) : 0 < wordCount n := by
  have := le_ww_mul_wordCount n
  unfold ww at *; omega

/-- Setting word `i` on a state that only holds words below `i` appends
the (masked) chunk on top. -/
theorem setWord_append (n acc i v : Nat) (h : acc < 2 ^ (ww * i)) :
    setWord n acc i v = acc + v % (wordMask n i + 1) * 2 ^ (ww * i) := by
  unfold setWord
  have h1 : acc % 2 ^ (ww * i) = acc := Nat.mod_eq_of_lt h
  have h2 : acc / 2 ^ (ww * (i + 1)) = 0 := by
    apply Nat.div_eq_of_lt
    exact lt_of_lt_of_le h (Nat.pow_le_pow_right (by decide)
      (Nat.mul_le_mul_left ww (Nat.le_succ i)))
  rw [h1, h2]; ring

/-- Setting word `i` on a state that only holds words above `i` prepends
the (masked) chunk below. -/
theorem setWord_prepend (n acc i v : Nat) (h : 2 ^ (ww * (i + 1)) ∣ acc) :
    setWord n acc i v = v % (wordMask n i + 1) * 2 ^ (ww * i) + acc := by
  unfold setWord
  have hle : 2 ^ (ww * i) ∣ 2 ^ (ww * (i + 1)) :=
    Nat.pow_dvd_pow 2 (Nat.mul_le_mul_left ww (Nat.le_succ i))
  have h1 : acc % 2 ^ (ww * i) = 0 := (Nat.mod_eq_zero_of_dvd (hle.trans h))
  have h2 : acc / 2 ^ (ww * (i + 1)) * 2 ^ (ww * (i + 1)) = acc :=
    Nat.div_mul_cancel h
  rw [h1, h2]; ring

theorem chunkSum_lt (g : Nat → Nat) (hg : ∀ i, g i < 2 ^ ww) (m : Nat) :
    ∑ i ∈ Finset.range m, g i * 2 ^ (ww * i) < 2 ^ (ww * m) := by
  induction m with
  | zero => simp
  | succ m ih =>
    rw [Finset.sum_range_succ]
    have h1 : g m * 2 ^ (ww * m) ≤ (2 ^ ww - 1) * 2 ^ (ww * m) :=
      Nat.mul_le_mul_right _ (by have := hg m; omega)
    have h2 : 2 ^ (ww * (m + 1)) = 2 ^ ww * 2 ^ (ww * m) := by
      rw [← Nat.pow_add]; ring_nf
    have h3 : 0 < 2 ^ (ww * m) := Nat.two_pow_pos _
    have h4 : 0 < 2 ^ ww := Nat.two_pow_pos _
    calc _ < 2 ^ (ww * m) + (2 ^ ww - 1) * 2 ^ (ww * m) := by omega
    _ = 2 ^ ww * 2 ^ (ww * m) := by
        have : 2 ^ ww - 1 + 1 = 2 ^ ww := by omega
        calc 2 ^ (ww * m) + (2 ^ ww - 1) * 2 ^ (ww * m)
            = ((2 ^ ww - 1) + 1) * 2 ^ (ww * m) := by ring
        _ = 2 ^ ww * 2 ^ (ww * m) := by rw [this]
    _ = 2 ^ (ww * (m + 1)) := h2.symm

/-- Word `i` of a pattern that fits in width `n` is unchanged by the
`word_mask(i)` masking. -/
theorem getWord_mask_eq (n p i : Nat) (hp : p < 2 ^ n) :
    getWord p i % (wordMask n i + 1) = getWord p i := by
  rw [wordMask_add_one]
  rcases le_or_lt (2 ^ (ww * i)) p with hge | hlt
  · have hin : ww * i < n :=
      (Nat.pow_lt_pow_iff_right (by norm_num)).mp (lt_of_le_of_lt hge hp)
    rcases le_or_lt ww (n - ww * i) with hfull | htop
    · rw [min_eq_left hfull]
      exact Nat.mod_eq_of_lt (getWord_lt p i)
    · rw [min_eq_right (le_of_lt htop)]
      apply Nat.mod_eq_of_lt
      have h1 : getWord p i ≤ p / 2 ^ (ww * i) := Nat.mod_le _ _
      have h2 : p / 2 ^ (ww * i) < 2 ^ (n - ww * i) := by
        rw [Nat.div_lt_iff_lt_mul (Nat.two_pow_pos _), ← Nat.pow_add]
        have : n - ww * i + ww * i = n := by omega
        rw [this]; exact hp
      omega
  · have h0 : getWord p i = 0 := by
      unfold getWord
      rw [Nat.div_eq_of_lt hlt, Nat.zero_mod]
    rw [h0]; exact Nat.zero_mod _

/-- The chunk sum of the first `m` words of `q` is `q mod 2^(64m)`. -/
theorem sum_getWord (q m : Nat) :
    ∑ i ∈ Finset.range m, getWord q i * 2 ^ (ww * i) = q % 2 ^ (ww * m) := by
  induction m with
  | zero => simp [Nat.mod_one]
  | succ m ih =>
    rw [Finset.sum_range_succ, ih]
    have hsplit : q % (2 ^ (ww * m) * 2 ^ ww)
        = q % 2 ^ (ww * m) + 2 ^ (ww * m) * (q / 2 ^ (ww * m) % 2 ^ ww) :=
      Nat.mod_mul
    have hpow : 2 ^ (ww * (m + 1)) = 2 ^ (ww * m) * 2 ^ ww := by
      rw [← Nat.pow_add]; ring_nf
    rw [hpow, hsplit]
    unfold getWord; ring

/-- An ascending word-building loop guarded by `i < t` produces the chunk
sum of the stored (masked) words. -/
theorem buildUpT_eq (n t : Nat) (f : Nat → Nat) (m : Nat) :
    loopUp (fun i acc => if i < t then setWord n acc i (f i) else acc) m 0
      = ∑ i ∈ Finset.range (min m t),
          f i % (wordMask n i + 1) * 2 ^ (ww * i) := by
  induction m with
  | zero => simp [loopUp]
  | succ m ih =>
    show (fun i acc => if i < t then setWord n acc i (f i) else acc) m
        (loopUp _ m 0) = _
    simp only [ih]
    by_cases hm : m < t
    · have hmin : min (m + 1) t = min m t + 1 := by omega
      have hminm : min m t = m := by omega
      rw [if_pos hm, hmin, Finset.sum_range_succ, hminm]
      apply setWord_append
      apply lt_of_lt_of_le (chunkSum_lt _ (fun i => ?_) m)
      · exact le_refl _
      · have := wordMask_lt n i
        exact lt_of_lt_of_le (Nat.mod_lt _ (by omega)) (by omega)
    · have hmin : min (m + 1) t = min m t := by omega
      rw [if_neg hm, hmin]

/-- Storing into a word slot the value it already holds is a no-op. -/
theorem setWord_eq_self (n acc i v : Nat)
    (h : v % (wordMask n i + 1) = getWord acc i) :
    setWord n acc i v = acc := by
  unfold setWord
  rw [h]
  have h2 : 2 ^ (ww * (i + 1)) = 2 ^ (ww * i) * 2 ^ ww := by
    rw [← Nat.pow_add]; ring_nf
  have key : acc % 2 ^ (ww * (i + 1))
      = acc % 2 ^ (ww * i) + acc / 2 ^ (ww * i) % 2 ^ ww * 2 ^ (ww * i) := by
    rw [h2, Nat.mod_mul]; ring
  have h3 : acc / 2 ^ (ww * (i + 1)) * 2 ^ (ww * (i + 1)) + acc % 2 ^ (ww * (i + 1))
      = acc := Nat.div_add_mod' acc _
  unfold getWord
  omega

/-- `(2^a - 1) / 2^b = 2^(a-b) - 1` for `b ≤ a`. -/
theorem two_pow_sub_one_div (a b : Nat) (h : b ≤ a) :
    (2 ^ a - 1) / 2 ^ b = 2 ^ (a - b) - 1 := by
  have hsplit : 2 ^ a - 1 = 2 ^ b * (2 ^ (a - b) - 1) + (2 ^ b - 1) := by
    have h1 : 2 ^ a = 2 ^ b * 2 ^ (a - b) := by
      rw [← Nat.pow_add]
      congr 1; omega
    have h2 := Nat.one_le_two_pow (n := b)
    have h3 := Nat.one_le_two_pow (n := a - b)
    calc 2 ^ a - 1 = 2 ^ b * 2 ^ (a - b) - 1 := by rw [h1]
    _ = 2 ^ b * (2 ^ (a - b) - 1) + (2 ^ b - 1) := by
        have hx : 2 ^ b ≤ 2 ^ b * 2 ^ (a - b) :=
          Nat.le_mul_of_pos_right _ (Nat.two_pow_pos _)
        rw [Nat.mul_sub, Nat.mul_one]
        omega
  rw [hsplit, Nat.mul_add_div (Nat.two_pow_pos b),
    Nat.div_eq_of_lt (by have := Nat.one_le_two_pow (n := b); omega), Nat.add_zero]

/-- Word `i` of the all-ones pattern of width `n` is `word_mask(i)`. -/
theorem getWord_all_ones (n i : Nat) :
    getWord (2 ^ n - 1) i = wordMask n i := by
  unfold getWord
  rcases le_or_lt (ww * i) n with hin | hout
  · rw [two_pow_sub_one_div n (ww * i) hin, wordMask]
    rcases le_or_lt ww (n - ww * i) with hfull | htop
    · rw [min_eq_left hfull]
      have h1 : (2 : Nat) ^ (n - ww * i) - 1
          = 2 ^ ww * (2 ^ (n - ww * i - ww) - 1) + (2 ^ ww - 1) := by
        have e : 2 ^ (n - ww * i) = 2 ^ ww * 2 ^ (n - ww * i - ww) := by
          rw [← Nat.pow_add]; congr 1; omega
        have hb := Nat.one_le_two_pow (n := ww)
        have hc : 2 ^ ww ≤ 2 ^ ww * 2 ^ (n - ww * i - ww) :=
          Nat.le_mul_of_pos_right _ (Nat.two_pow_pos _)
        rw [e, Nat.mul_sub, Nat.mul_one]
        omega
      rw [h1, Nat.mul_add_mod]
      exact Nat.mod_eq_of_lt (by have := Nat.one_le_two_pow (n := ww); omega)
    · rw [min_eq_right (le_of_lt htop)]
      apply Nat.mod_eq_of_lt
      have h2 : (2 : Nat) ^ (n - ww * i) ≤ 2 ^ ww :=
        Nat.pow_le_pow_right (by decide) (le_of_lt htop)
      have := Nat.one_le_two_pow (n := n - ww * i)
      omega
  · have h1 : (2 : Nat) ^ n - 1 < 2 ^ (ww * i) :=
      lt_of_lt_of_le (by have := Nat.two_pow_pos n; omega)
        (Nat.pow_le_pow_right (by decide) (le_of_lt hout))
    rw [Nat.div_eq_of_lt h1, wordMask]
    have : n - ww * i = 0 := by omega
    rw [this]
    simp

/-- Words at or above index `⌈n/64⌉` of a width-`n` pattern are zero. -/
theorem getWord_zero_of_ge (n p i : Nat) (hp : p < 2 ^ n) (h : n ≤ ww * i) :
    getWord p i = 0 := by
  unfold getWord
  rw [Nat.div_eq_of_lt (lt_of_lt_of_le hp (Nat.pow_le_pow_right (by decide) h)),
    Nat.zero_mod]

theorem loopUp_congr (f g : Nat → α → α) (h : ∀ i s, f i s = g i s) (m : Nat)
    (s : α) : loopUp f m s = loopUp g m s := by
  induction m with
  | zero => rfl
  | succ m ih => show f m _ = g m _; rw [ih, h]

/-- `(y + A*q) mod (A*B) = y + A*(q mod B)` when `y < A`. -/
theorem add_mul_mod_mul (y q A B : Nat) (hy : y < A) :
    (y + A * q) % (A * B) = y + A * (q % B) := by
  rw [Nat.mod_mul]
  have h1 : (y + A * q) % A = y := by
    rw [Nat.add_mul_mod_self_left]
    exact Nat.mod_eq_of_lt hy
  have h2 : (y + A * q) / A = q := by
    rw [Nat.add_mul_div_left _ _ (by omega), Nat.div_eq_of_lt hy, Nat.zero_add]
  rw [h1, h2]

/-- Word `c` of `p >> (64*skip + s)`: the usual two-word recombination. -/
theorem getWord_div_shift (p skip s c : Nat) (hs : s < ww) :
    getWord (p / 2 ^ (ww * skip + s)) c
      = getWord p (c + skip) / 2 ^ s
        + getWord p (c + skip + 1) % 2 ^ s * 2 ^ (ww - s) := by
  have hsww : 2 ^ (ww - s) * 2 ^ s = 2 ^ ww := by
    rw [← Nat.pow_add]; congr 1; omega
  have hdd : p / 2 ^ (ww * skip + s) / 2 ^ (ww * c) = p / 2 ^ (ww * (c + skip)) / 2 ^ s := by
    rw [Nat.div_div_eq_div_mul, Nat.div_div_eq_div_mul, ← Nat.pow_add, ← Nat.pow_add]
    congr 2; ring
  obtain ⟨q2, r, hr, hueq⟩ :
      ∃ q2 r, r < 2 ^ ww ∧ p / 2 ^ (ww * (c + skip)) = 2 ^ ww * q2 + r :=
    ⟨_ / 2 ^ ww, _ % 2 ^ ww, Nat.mod_lt _ (Nat.two_pow_pos ww),
      (Nat.div_add_mod _ _).symm⟩
  have hucur : getWord p (c + skip) = r := by
    unfold getWord; rw [hueq, Nat.mul_add_mod, Nat.mod_eq_of_lt hr]
  have hunext : getWord p (c + skip + 1) = q2 % 2 ^ ww := by
    unfold getWord
    have e : ww * (c + skip + 1) = ww * (c + skip) + ww := by ring
    rw [e, Nat.pow_add, ← Nat.div_div_eq_div_mul, hueq,
      Nat.mul_add_div (Nat.two_pow_pos ww), Nat.div_eq_of_lt hr, Nat.add_zero]
  have hstep : p / 2 ^ (ww * (c + skip)) / 2 ^ s
      = r / 2 ^ s + 2 ^ (ww - s) * q2 := by
    have e1 : 2 ^ ww * q2 + r = r + 2 ^ s * (2 ^ (ww - s) * q2) := by
      rw [show 2 ^ s * (2 ^ (ww - s) * q2) = 2 ^ (ww - s) * 2 ^ s * q2 by ring, hsww]
      ring
    rw [hueq, e1, Nat.add_mul_div_left _ _ (Nat.two_pow_pos s)]
  have hlow : r / 2 ^ s < 2 ^ (ww - s) := by
    rw [Nat.div_lt_iff_lt_mul (Nat.two_pow_pos s), ← Nat.pow_add]
    have e : ww - s + s = ww := by omega
    rw [e]; exact hr
  show p / 2 ^ (ww * skip + s) / 2 ^ (ww * c) % 2 ^ ww = _
  rw [hdd, hstep, hucur, hunext,
    Nat.mod_mod_of_dvd _ ⟨2 ^ (ww - s), hsww.symm ▸ (Nat.mul_comm _ _)⟩, ← hsww,
    add_mul_mod_mul _ _ _ _ hlow]
  ring

/-- The two shifted half-words the right-shift loop combines with `|` are
bit-disjoint, so the `|` is a sum. -/
theorem shr_or_eq_add (a b s : Nat) (hslt : s < ww) (ha : a < 2 ^ ww) :
    a / 2 ^ s ||| b * 2 ^ (ww - s) % 2 ^ ww
      = a / 2 ^ s + b % 2 ^ s * 2 ^ (ww - s) := by
  have hsww : 2 ^ ww = 2 ^ s * 2 ^ (ww - s) := by
    rw [← Nat.pow_add]; congr 1; omega
  have h1 : b * 2 ^ (ww - s) % 2 ^ ww = b % 2 ^ s * 2 ^ (ww - s) := by
    rw [hsww, Nat.mul_mod_mul_right]
  have h2 : a / 2 ^ s < 2 ^ (ww - s) := by
    rw [Nat.div_lt_iff_lt_mul (Nat.two_pow_pos s), ← Nat.pow_add]
    have e : ww - s + s = ww := by omega
    rw [e]; exact ha
  calc a / 2 ^ s ||| b * 2 ^ (ww - s) % 2 ^ ww
      = a / 2 ^ s ||| 2 ^ (ww - s) * (b % 2 ^ s) := by rw [h1, Nat.mul_comm]
    _ = 2 ^ (ww - s) * (b % 2 ^ s) ||| a / 2 ^ s := Nat.lor_comm _ _
    _ = 2 ^ (ww - s) * (b % 2 ^ s) + a / 2 ^ s := (Nat.mul_add_lt_is_or h2 _).symm
    _ = a / 2 ^ s + b % 2 ^ s * 2 ^ (ww - s) := by ring

/-- The logical right shift of word_array_operations.hpp computes
division by `2^k` (for in-range shifts). -/
theorem wshr_eq (n p k : Nat) (hp : p < 2 ^ n) (hk : k < n) :
    wshr n p k = p / 2 ^ k := by
  have hww : ww = 64 := rfl
  rcases Nat.eq_zero_or_pos k with hk0 | hk0
  · subst hk0; unfold wshr
    rw [if_neg (by omega), if_pos rfl, Nat.pow_zero, Nat.div_one]
  have hgoal : wshr n p k
      = setWord n
        (loopUp (fun c acc =>
          if c + k / ww < wordCount n then
            setWord n acc (c + k / ww - k / ww)
              (if ww - (k - k / ww * ww) < ww ∧ c + k / ww + 1 < wordCount n then
                getWord p (c + k / ww) / 2 ^ (k - k / ww * ww) |||
                  getWord p (c + k / ww + 1) * 2 ^ (ww - (k - k / ww * ww)) % 2 ^ ww
               else getWord p (c + k / ww) / 2 ^ (k - k / ww * ww))
          else acc) (wordCount n) 0)
        (wordCount n - k / ww - 1)
        (getWord p (wordCount n - 1) / 2 ^ (k - k / ww * ww)) := by
    unfold wshr
    rw [if_neg (by omega), if_neg (by omega)]
  obtain ⟨skip, hskip⟩ : ∃ v : Nat, v = k / ww := ⟨_, rfl⟩
  obtain ⟨s, hsdef⟩ : ∃ v : Nat, v = k - skip * ww := ⟨_, rfl⟩
  rw [← hskip] at hgoal
  rw [← hsdef] at hgoal
  have hs : s < ww := by rw [hsdef, hskip, hww]; omega
  have hksplit : ww * skip + s = k := by rw [hsdef, hskip, hww]; omega
  have hwc := le_ww_mul_wordCount n
  have hsk : ww * skip ≤ k := by rw [hskip, hww]; omega
  have hskiplt : skip < wordCount n :=
    Nat.lt_of_mul_lt_mul_left (a := ww) (by omega)
  obtain ⟨q, hq⟩ : ∃ v : Nat, v = p / 2 ^ k := ⟨_, rfl⟩
  have hqlt : q < 2 ^ (n - k) := by
    rw [hq, Nat.div_lt_iff_lt_mul (Nat.two_pow_pos k), ← Nat.pow_add]
    have e : n - k + k = n := by omega
    rw [e]; exact hp
  have hqn : q < 2 ^ n := by
    rw [hq]; exact lt_of_le_of_lt (Nat.div_le_self _ _) hp
  have hqwc : q < 2 ^ (ww * (wordCount n - skip)) := by
    apply lt_of_lt_of_le hqlt
    apply Nat.pow_le_pow_right (by decide)
    have e : ww * (wordCount n - skip) = ww * wordCount n - ww * skip :=
      Nat.mul_sub ww _ _
    omega
  rw [hgoal, ← hq]
  have hcong := loopUp_congr
    (fun c acc =>
      if c + skip < wordCount n then
        setWord n acc (c + skip - skip)
          (if ww - s < ww ∧ c + skip + 1 < wordCount n then
            getWord p (c + skip) / 2 ^ s |||
              getWord p (c + skip + 1) * 2 ^ (ww - s) % 2 ^ ww
           else getWord p (c + skip) / 2 ^ s)
      else acc)
    (fun c acc =>
      if c < wordCount n - skip then
        setWord n acc c
          (if ww - s < ww ∧ c + skip + 1 < wordCount n then
            getWord p (c + skip) / 2 ^ s |||
              getWord p (c + skip + 1) * 2 ^ (ww - s) % 2 ^ ww
           else getWord p (c + skip) / 2 ^ s)
      else acc)
    (by
      intro i acc
      dsimp only
      by_cases hcase : i + skip < wordCount n
      · have hcase2 : i < wordCount n - skip := by omega
        rw [if_pos hcase, if_pos hcase2]
        have e : i + skip - skip = i := by omega
        rw [e]
      · have hcase2 : ¬ i < wordCount n - skip := by omega
        rw [if_neg hcase, if_neg hcase2])
    (wordCount n) 0
  rw [hcong, buildUpT_eq]
  have hmin : min (wordCount n) (wordCount n - skip) = wordCount n - skip := by
    omega
  rw [hmin]
  have hterm : ∀ c,
      (if ww - s < ww ∧ c + skip + 1 < wordCount n then
        getWord p (c + skip) / 2 ^ s |||
          getWord p (c + skip + 1) * 2 ^ (ww - s) % 2 ^ ww
       else getWord p (c + skip) / 2 ^ s) % (wordMask n c + 1)
      = getWord q c := by
    intro c
    have hshift := getWord_div_shift p skip s c hs
    rw [hksplit, ← hq] at hshift
    by_cases hcw : ww - s < ww ∧ c + skip + 1 < wordCount n
    · rw [if_pos hcw,
        shr_or_eq_add _ _ _ hs (getWord_lt p (c + skip)), ← hshift]
      exact getWord_mask_eq n q c hqn
    · rw [if_neg hcw]
      have hval : getWord p (c + skip) / 2 ^ s = getWord q c := by
        rcases Decidable.not_and_iff_or_not.mp hcw with h0 | hnext
        · have hs0 : s = 0 := by omega
          subst hs0
          rw [hshift]
          simp [Nat.mod_one]
        · have hz : getWord p (c + skip + 1) = 0 :=
            getWord_zero_of_ge n p _ hp
              (le_trans hwc (Nat.mul_le_mul_left ww (by omega)))
          rw [hshift, hz, Nat.zero_mod, Nat.zero_mul, Nat.add_zero]
      rw [hval]
      exact getWord_mask_eq n q c hqn
  rw [Finset.sum_congr rfl (fun c _ => by rw [hterm c]), sum_getWord,
    Nat.mod_eq_of_lt hqwc]
  apply setWord_eq_self
  have hshift := getWord_div_shift p skip s (wordCount n - skip - 1) hs
  rw [hksplit, ← hq] at hshift
  have hwcpos : 0 < wordCount n := wordCount_pos n (by omega)
  have e1 : wordCount n - skip - 1 + skip = wordCount n - 1 := by omega
  have hz : getWord p (wordCount n - 1 + 1) = 0 :=
    getWord_zero_of_ge n p _ hp (le_trans hwc (Nat.mul_le_mul_left ww (by omega)))
  rw [e1] at hshift
  rw [hz, Nat.zero_mod, Nat.zero_mul, Nat.add_zero] at hshift
  rw [← hshift]
  exact getWord_mask_eq n q _ hqn

/-- `(x mod 2^n) / 2^d = (x / 2^d) mod 2^(n-d)` for `d ≤ n`. -/
theorem mod_pow_div (x n d : Nat) (h : d ≤ n) :
    x % 2 ^ n / 2 ^ d = x / 2 ^ d % 2 ^ (n - d) := by
  have hsplit : 2 ^ n = 2 ^ d * 2 ^ (n - d) := by
    rw [← Nat.pow_add]; congr 1; omega
  rw [hsplit, Nat.mod_mul, Nat.add_mul_div_left _ _ (Nat.two_pow_pos d),
    Nat.div_eq_of_lt (Nat.mod_lt _ (Nat.two_pow_pos d)), Nat.zero_add]

/-- Word `j` of `x mod 2^n` is word `j` of `x`, masked by `word_mask(j)`. -/
theorem getWord_mod_pow (x n j : Nat) :
    getWord (x % 2 ^ n) j = getWord x j % (wordMask n j + 1) := by
  rw [wordMask_add_one]
  unfold getWord
  rcases le_or_lt n (ww * j) with hout | hin
  · have h0 : x % 2 ^ n / 2 ^ (ww * j) = 0 :=
      Nat.div_eq_of_lt (lt_of_lt_of_le (Nat.mod_lt _ (Nat.two_pow_pos n))
        (Nat.pow_le_pow_right (by decide) hout))
    have hmin : min ww (n - ww * j) = 0 := by omega
    rw [h0, hmin, Nat.zero_mod, Nat.pow_zero, Nat.mod_one]
  · rw [mod_pow_div x n (ww * j) (le_of_lt hin)]
    rcases le_or_lt ww (n - ww * j) with hfull | hpart
    · rw [min_eq_left hfull,
        Nat.mod_mod_of_dvd _ (Nat.pow_dvd_pow 2 hfull),
        Nat.mod_mod_of_dvd _ (dvd_refl _)]
    · rw [min_eq_right (le_of_lt hpart),
        Nat.mod_eq_of_lt (lt_of_lt_of_le (Nat.mod_lt _ (Nat.two_pow_pos _))
          (Nat.pow_le_pow_right (by decide) (le_of_lt hpart))),
        Nat.mod_mod_of_dvd _ (Nat.pow_dvd_pow 2 (le_of_lt hpart))]

/-- Multiplying by `2^(64*skip)` shifts words up by `skip` slots. -/
theorem getWord_mul_word_pow (x skip c : Nat) :
    getWord (x * 2 ^ (ww * skip)) (c + skip) = getWord x c := by
  unfold getWord
  congr 1
  have e : 2 ^ (ww * (c + skip)) = 2 ^ (ww * skip) * 2 ^ (ww * c) := by
    rw [← Nat.pow_add]; congr 1; ring
  rw [e, ← Nat.div_div_eq_div_mul, Nat.mul_div_cancel _ (Nat.two_pow_pos _)]

/-- Word `c ≥ 1` of `p * 2^s` (sub-word left shift): top bits of word
`c-1` below the shifted low bits of word `c`. -/
theorem getWord_mul_shift (p s c : Nat) (hs : 0 < s) (hslt : s < ww) :
    getWord (p * 2 ^ s) (c + 1)
      = getWord p (c + 1) % 2 ^ (ww - s) * 2 ^ s + getWord p c / 2 ^ (ww - s) := by
  have hdiv : p * 2 ^ ww / 2 ^ (ww - s) = p * 2 ^ s := by
    have e : p * 2 ^ ww = p * 2 ^ s * 2 ^ (ww - s) := by
      rw [Nat.mul_assoc, ← Nat.pow_add]
      congr 2; omega
    rw [e, Nat.mul_div_cancel _ (Nat.two_pow_pos _)]
  have hshift := getWord_div_shift (p * 2 ^ ww) 0 (ww - s) (c + 1) (by omega)
  rw [Nat.mul_zero, Nat.zero_add, hdiv] at hshift
  have h1 : getWord (p * 2 ^ ww) (c + 1 + 0) = getWord p c := by
    have e : c + 1 + 0 = c + 1 := by omega
    rw [e]
    have := getWord_mul_word_pow p 1 c
    rw [Nat.mul_one] at this
    exact this
  have h2 : getWord (p * 2 ^ ww) (c + 1 + 0 + 1) = getWord p (c + 1) := by
    have e : c + 1 + 0 + 1 = c + 1 + 1 := by omega
    rw [e]
    have := getWord_mul_word_pow p 1 (c + 1)
    rw [Nat.mul_one] at this
    exact this
  have h3 : ww - (ww - s) = s := by omega
  rw [h1, h2, h3] at hshift
  rw [hshift]
  ring

/-- The descending word-building loop of the left shift, summed over the
slots it writes. -/
theorem loopDownSet_eq (n skip : Nat) (f : Nat → Nat) (m s0 : Nat)
    (hs0 : 2 ^ (ww * (m + skip + 1)) ∣ s0) :
    loopDown (fun c acc =>
        if c + 1 + skip < wordCount n then
          setWord n acc (c + 1 + skip) (f (c + 1))
        else acc) m s0
      = (∑ j ∈ Finset.Ico (skip + 1) (min (m + skip + 1) (wordCount n)),
          f (j - skip) % (wordMask n j + 1) * 2 ^ (ww * j)) + s0 := by
  induction m generalizing s0 with
  | zero =>
    have hm : min (0 + skip + 1) (wordCount n) ≤ skip + 1 := by
      have := Nat.min_le_left (0 + skip + 1) (wordCount n)
      omega
    have hico : Finset.Ico (skip + 1) (min (0 + skip + 1) (wordCount n)) = ∅ :=
      Finset.Ico_eq_empty (by omega)
    rw [hico, Finset.sum_empty, Nat.zero_add]
    rfl
  | succ m ih =>
    show loopDown _ m (if m + 1 + skip < wordCount n then
        setWord n s0 (m + 1 + skip) (f (m + 1)) else s0) = _
    by_cases hg : m + 1 + skip < wordCount n
    · rw [if_pos hg]
      have hset : setWord n s0 (m + 1 + skip) (f (m + 1))
          = f (m + 1) % (wordMask n (m + 1 + skip) + 1) * 2 ^ (ww * (m + 1 + skip))
            + s0 := by
        apply setWord_prepend
        exact dvd_trans (Nat.pow_dvd_pow 2 (Nat.mul_le_mul_left ww (by omega))) hs0
      have hd1 : 2 ^ (ww * (m + skip + 1)) ∣
          f (m + 1) % (wordMask n (m + 1 + skip) + 1) * 2 ^ (ww * (m + 1 + skip)) :=
        dvd_trans (Nat.pow_dvd_pow 2 (Nat.mul_le_mul_left ww (by omega)))
          (Dvd.intro_left _ rfl)
      have hd2 : 2 ^ (ww * (m + skip + 1)) ∣ s0 :=
        dvd_trans (Nat.pow_dvd_pow 2 (Nat.mul_le_mul_left ww (by omega))) hs0
      rw [hset, ih _ (hd1.add hd2)]
      have hminsucc : min (m + 1 + skip + 1) (wordCount n) = m + 1 + skip + 1 := by
        omega
      have hminm : min (m + skip + 1) (wordCount n) = m + skip + 1 := by omega
      have hle : skip + 1 ≤ m + 1 + skip := by omega
      rw [hminsucc, hminm, Finset.sum_Ico_succ_top hle]
      have e2 : m + 1 + skip - skip = m + 1 := by omega
      rw [e2]
      have e4 : m + 1 + skip = m + skip + 1 := by ring
      rw [e4]
      omega
    · rw [if_neg hg]
      rw [ih _ (dvd_trans (Nat.pow_dvd_pow 2
        (Nat.mul_le_mul_left ww (by omega))) hs0)]
      have : min (m + 1 + skip + 1) (wordCount n) = min (m + skip + 1) (wordCount n) := by
        omega
      rw [this]

/-- Words strictly below the shift offset of a pattern divisible by
`2^(64*skip)` are zero. -/
theorem getWord_zero_of_dvd (q skip j : Nat) (hd : 2 ^ (ww * skip) ∣ q)
    (hj : j < skip) : getWord q j = 0 := by
  obtain ⟨y, hy⟩ := hd
  unfold getWord
  have e : 2 ^ (ww * skip) = 2 ^ (ww * j) * 2 ^ (ww * (skip - j)) := by
    rw [← Nat.pow_add]; congr 1
    rw [← Nat.mul_add]; congr 1; omega
  have e2 : q / 2 ^ (ww * j) = 2 ^ (ww * (skip - j)) * y := by
    rw [hy, e, Nat.mul_assoc, Nat.mul_div_cancel_left _ (Nat.two_pow_pos _)]
  have e3 : 2 ^ (ww * (skip - j)) * y = 2 ^ ww * (2 ^ (ww * (skip - j) - ww) * y) := by
    rw [← Nat.mul_assoc, ← Nat.pow_add]
    congr 2
    have : 1 ≤ skip - j := by omega
    have : ww * 1 ≤ ww * (skip - j) := Nat.mul_le_mul_left ww this
    omega
  rw [e2, e3, Nat.mul_mod_right]

/-- The logical left shift of word_array_operations.hpp computes
multiplication by `2^k` truncated to the width. -/
theorem wshl_eq (n p k : Nat) (hp : p < 2 ^ n) :
    wshl n p k = p * 2 ^ k % 2 ^ n := by
  have hww : ww = 64 := rfl
  rcases le_or_lt n k with hk | hk
  · unfold wshl
    rw [if_pos (by omega)]
    have hd : (2 : Nat) ^ n ∣ p * 2 ^ k :=
      dvd_mul_of_dvd_right (Nat.pow_dvd_pow 2 hk) p
    exact (Nat.mod_eq_zero_of_dvd hd).symm
  rcases Nat.eq_zero_or_pos k with hk0 | hk0
  · subst hk0; unfold wshl
    rw [if_neg (by omega), if_pos rfl, Nat.pow_zero, Nat.mul_one,
      Nat.mod_eq_of_lt hp]
  have hgoal : wshl n p k
      = setWord n
        (loopDown (fun c acc =>
          if c + 1 + (k / ww) < wordCount n then
            setWord n acc (c + 1 + (k / ww))
              ((fun t =>
                if ww - (k - k / ww * ww) < ww then
                  getWord p t * 2 ^ (k - k / ww * ww) % 2 ^ ww |||
                    getWord p (t - 1) / 2 ^ (ww - (k - k / ww * ww))
                else getWord p t * 2 ^ (k - k / ww * ww) % 2 ^ ww) (c + 1))
          else acc) (wordCount n) 0)
        (k / ww) (getWord p 0 * 2 ^ (k - k / ww * ww) % 2 ^ ww) := by
    unfold wshl
    rw [if_neg (by omega), if_neg (by omega)]
  obtain ⟨skip, hskip⟩ : ∃ v : Nat, v = k / ww := ⟨_, rfl⟩
  obtain ⟨s, hsdef⟩ : ∃ v : Nat, v = k - skip * ww := ⟨_, rfl⟩
  rw [← hskip] at hgoal
  rw [← hsdef] at hgoal
  have hs : s < ww := by rw [hsdef, hskip, hww]; omega
  have hksplit : ww * skip + s = k := by rw [hsdef, hskip, hww]; omega
  have hwc := le_ww_mul_wordCount n
  have hsk : ww * skip ≤ k := by rw [hskip, hww]; omega
  have hskiplt : skip < wordCount n :=
    Nat.lt_of_mul_lt_mul_left (a := ww) (by omega)
  obtain ⟨q, hq⟩ : ∃ v : Nat, v = p * 2 ^ k % 2 ^ n := ⟨_, rfl⟩
  have hqn : q < 2 ^ n := by rw [hq]; exact Nat.mod_lt _ (Nat.two_pow_pos n)
  have hkfac : (2 : Nat) ^ k = 2 ^ s * 2 ^ (ww * skip) := by
    rw [← Nat.pow_add]; congr 1; omega
  have hqdvd : 2 ^ (ww * skip) ∣ q := by
    rw [hq, Nat.dvd_mod_iff (Nat.pow_dvd_pow 2 (show ww * skip ≤ n by omega))]
    exact dvd_mul_of_dvd_right (Nat.pow_dvd_pow 2 (by omega)) p
  rw [hgoal, ← hq]
  rw [loopDownSet_eq n skip
    (fun t =>
      if ww - s < ww then
        getWord p t * 2 ^ s % 2 ^ ww ||| getWord p (t - 1) / 2 ^ (ww - s)
      else getWord p t * 2 ^ s % 2 ^ ww) (wordCount n) 0 (dvd_zero _)]
  have hminwc : min (wordCount n + skip + 1) (wordCount n) = wordCount n := by
    omega
  rw [hminwc, Nat.add_zero]
  have hterm : ∀ j, skip + 1 ≤ j → j < wordCount n →
      (if ww - s < ww then
        getWord p (j - skip) * 2 ^ s % 2 ^ ww |||
          getWord p (j - skip - 1) / 2 ^ (ww - s)
      else getWord p (j - skip) * 2 ^ s % 2 ^ ww) % (wordMask n j + 1)
      = getWord q j := by
    intro j hj1 hj2
    have hqj : getWord q j = getWord (p * 2 ^ k) j % (wordMask n j + 1) := by
      rw [hq]; exact getWord_mod_pow _ n j
    have hmulword : getWord (p * 2 ^ k) j = getWord (p * 2 ^ s) (j - skip) := by
      have e : p * 2 ^ k = p * 2 ^ s * 2 ^ (ww * skip) := by
        rw [hkfac]; ring
      have base := getWord_mul_word_pow (p * 2 ^ s) skip (j - skip)
      have e2 : j - skip + skip = j := by omega
      rw [e2] at base
      rw [e, base]
    by_cases hcs : ww - s < ww
    · have hs0 : 0 < s := by omega
      rw [if_pos hcs]
      obtain ⟨t, ht⟩ : ∃ t, j - skip = t + 1 := ⟨j - skip - 1, by omega⟩
      have hor : getWord p (j - skip) * 2 ^ s % 2 ^ ww |||
          getWord p (j - skip - 1) / 2 ^ (ww - s)
          = getWord (p * 2 ^ s) (j - skip) := by
        have hmm : getWord p (j - skip) * 2 ^ s % 2 ^ ww
            = getWord p (j - skip) % 2 ^ (ww - s) * 2 ^ s := by
          have efac : (2 : Nat) ^ ww = 2 ^ (ww - s) * 2 ^ s := by
            rw [← Nat.pow_add]; congr 1; omega
          rw [efac, Nat.mul_mod_mul_right]
        have hlt : getWord p (j - skip - 1) / 2 ^ (ww - s) < 2 ^ s := by
          rw [Nat.div_lt_iff_lt_mul (Nat.two_pow_pos _), ← Nat.pow_add]
          have e : s + (ww - s) = ww := by omega
          rw [e]; exact getWord_lt _ _
        have e5 : j - skip - 1 = t := by omega
        rw [hmm, e5, ht, getWord_mul_shift p s t hs0 hs]
        have hlt' : getWord p t / 2 ^ (ww - s) < 2 ^ s := by
          rw [← e5]; exact hlt
        calc getWord p (t + 1) % 2 ^ (ww - s) * 2 ^ s |||
              getWord p t / 2 ^ (ww - s)
            = 2 ^ s * (getWord p (t + 1) % 2 ^ (ww - s)) |||
              getWord p t / 2 ^ (ww - s) := by rw [Nat.mul_comm]
          _ = 2 ^ s * (getWord p (t + 1) % 2 ^ (ww - s)) +
              getWord p t / 2 ^ (ww - s) :=
            (Nat.mul_add_lt_is_or hlt' _).symm
          _ = _ := by ring
      rw [hor, ← hmulword, ← hqj]
    · have hs0 : s = 0 := by omega
      rw [if_neg hcs, hqj, hmulword, hs0]
      have e : getWord p (j - skip) * 2 ^ 0 % 2 ^ ww = getWord (p * 2 ^ 0) (j - skip) := by
        rw [Nat.pow_zero, Nat.mul_one, Nat.mul_one]
        exact Nat.mod_eq_of_lt (getWord_lt _ _)
      rw [e]
  have hsum : ∑ j ∈ Finset.Ico (skip + 1) (wordCount n),
      (if ww - s < ww then
        getWord p (j - skip) * 2 ^ s % 2 ^ ww |||
          getWord p (j - skip - 1) / 2 ^ (ww - s)
      else getWord p (j - skip) * 2 ^ s % 2 ^ ww) % (wordMask n j + 1) * 2 ^ (ww * j)
      = ∑ j ∈ Finset.Ico (skip + 1) (wordCount n), getWord q j * 2 ^ (ww * j) := by
    apply Finset.sum_congr rfl
    intro j hj
    rw [Finset.mem_Ico] at hj
    rw [hterm j hj.1 hj.2]
  rw [hsum]
  have hprep : setWord n
      (∑ j ∈ Finset.Ico (skip + 1) (wordCount n), getWord q j * 2 ^ (ww * j))
      skip (getWord p 0 * 2 ^ s % 2 ^ ww)
      = (getWord p 0 * 2 ^ s % 2 ^ ww) % (wordMask n skip + 1) * 2 ^ (ww * skip)
        + ∑ j ∈ Finset.Ico (skip + 1) (wordCount n), getWord q j * 2 ^ (ww * j) := by
    apply setWord_prepend
    apply Finset.dvd_sum
    intro j hj
    rw [Finset.mem_Ico] at hj
    exact dvd_trans (Nat.pow_dvd_pow 2 (Nat.mul_le_mul_left ww (by omega)))
      (Dvd.intro_left _ rfl)
  rw [hprep]
  have hbase : (getWord p 0 * 2 ^ s % 2 ^ ww) % (wordMask n skip + 1)
      = getWord q skip := by
    have h1 : getWord q skip = getWord (p * 2 ^ k) skip % (wordMask n skip + 1) := by
      rw [hq]; exact getWord_mod_pow _ n skip
    have h2 : getWord (p * 2 ^ k) skip = getWord (p * 2 ^ s) 0 := by
      have e : p * 2 ^ k = p * 2 ^ s * 2 ^ (ww * skip) := by
        rw [hkfac]; ring
      have := getWord_mul_word_pow (p * 2 ^ s) skip 0
      rw [Nat.zero_add] at this
      rw [e, this]
    have h3 : getWord (p * 2 ^ s) 0 = getWord p 0 * 2 ^ s % 2 ^ ww := by
      unfold getWord
      rw [Nat.mul_zero, Nat.pow_zero, Nat.div_one, Nat.div_one]
      conv_lhs => rw [Nat.mul_mod]
      rw [Nat.mod_eq_of_lt ((Nat.pow_lt_pow_iff_right (by norm_num)).mpr hs)]
    rw [h1, h2, h3]
  rw [hbase]
  have hqwc2 : q % 2 ^ (ww * wordCount n) = q :=
    Nat.mod_eq_of_lt (lt_of_lt_of_le hqn (Nat.pow_le_pow_right (by decide) hwc))
  conv_rhs => rw [← hqwc2, ← sum_getWord q (wordCount n)]
  rw [Finset.range_eq_Ico,
    ← Finset.sum_Ico_consecutive _ (show (0 : Nat) ≤ skip + 1 by omega)
      (show skip + 1 ≤ wordCount n by omega)]
  have hz : ∑ j ∈ Finset.range skip, getWord q j * 2 ^ (ww * j) = 0 :=
    Finset.sum_eq_zero (fun j hj => by
      rw [Finset.mem_range] at hj
      rw [getWord_zero_of_dvd q skip j hqdvd hj, Nat.zero_mul])
  have hfirst : ∑ j ∈ Finset.Ico 0 (skip + 1), getWord q j * 2 ^ (ww * j)
      = getWord q skip * 2 ^ (ww * skip) := by
    rw [← Finset.range_eq_Ico, Finset.sum_range_succ, hz, Nat.zero_add]
  rw [hfirst]

theorem ww_mul_lt_of_lt_wordCount (m i : Nat) (h : i < wordCount m) :
    ww * i < m := by
  have hww : ww = 64 := rfl
  unfold wordCount at h
  rw [hww] at h ⊢
  omega

/-- The per-word carry formula of the ripple adders computes the carry of
`wa + wb + c`. -/
theorem carry_step (wa wb c : Nat) (hwa : wa < 2 ^ ww) (hwb : wb < 2 ^ ww)
    (hc : c ≤ 1) :
    (if (if (wa + wb) % 2 ^ ww < wa ∨ (wa + wb) % 2 ^ ww < wb then (1 : Nat)
          else 0) = 1
        ∨ ((wa + wb) % 2 ^ ww + c) % 2 ^ ww < wa
        ∨ ((wa + wb) % 2 ^ ww + c) % 2 ^ ww < wb then (1 : Nat) else 0)
      = (wa + wb + c) / 2 ^ ww := by
  have hpow : (2 : Nat) ^ ww = 18446744073709551616 := by decide
  rw [hpow] at hwa hwb ⊢
  by_cases hnc : (wa + wb) % 18446744073709551616 < wa
      ∨ (wa + wb) % 18446744073709551616 < wb
  · rw [if_pos hnc, if_pos (Or.inl rfl)]
    rcases hnc with h | h <;> omega
  · rw [if_neg hnc]
    have h1 : ¬ (wa + wb) % 18446744073709551616 < wa := fun h => hnc (Or.inl h)
    have h2 : ¬ (wa + wb) % 18446744073709551616 < wb := fun h => hnc (Or.inr h)
    by_cases hp : ((wa + wb) % 18446744073709551616 + c) % 18446744073709551616 < wa
        ∨ ((wa + wb) % 18446744073709551616 + c) % 18446744073709551616 < wb
    · rw [if_pos (Or.inr hp)]
      rcases hp with h | h <;> omega
    · have h4 : ¬ ((wa + wb) % 18446744073709551616 + c) % 18446744073709551616 < wa :=
        fun h => hp (Or.inl h)
      have h5 : ¬ ((wa + wb) % 18446744073709551616 + c) % 18446744073709551616 < wb :=
        fun h => hp (Or.inr h)
      have hcond : ¬ ((0 : Nat) = 1
          ∨ ((wa + wb) % 18446744073709551616 + c) % 18446744073709551616 < wa
          ∨ ((wa + wb) % 18446744073709551616 + c) % 18446744073709551616 < wb) := by
        rintro (h0 | hab)
        · exact absurd h0 (by omega)
        · exact hp hab
      rw [if_neg hcond]
      omega

/-- The per-word sum formula of the ripple adders computes
`(wa + wb + c) mod 2^64`. -/
theorem sum_step (wa wb c : Nat) :
    ((wa + wb) % 2 ^ ww + c) % 2 ^ ww = (wa + wb + c) % 2 ^ ww :=
  Nat.mod_add_mod (wa + wb) (2 ^ ww) c

/-- Invariant of the word-wise ripple-add loop shared by `expanding_add`
and `fun_add_expand`: after `m` words the sum pattern holds the low
`64m` bits of `A + B + c0` (truncated to the result width) and the state
carry is the carry out of those bits. -/
theorem ripple_loop_eq (res A B c0 : Nat) (hc : c0 ≤ 1) (m : Nat)
    (hm : m ≤ wordCount res) :
    loopUp (fun i st =>
      (setWord res st.1 i (((getWord A i + getWord B i) % 2 ^ ww + st.2) % 2 ^ ww),
       if (if (getWord A i + getWord B i) % 2 ^ ww < getWord A i
             ∨ (getWord A i + getWord B i) % 2 ^ ww < getWord B i then (1 : Nat)
           else 0) = 1
          ∨ ((getWord A i + getWord B i) % 2 ^ ww + st.2) % 2 ^ ww < getWord A i
          ∨ ((getWord A i + getWord B i) % 2 ^ ww + st.2) % 2 ^ ww < getWord B i
        then (1 : Nat) else 0)) m ((0 : Nat), c0)
    = ((A % 2 ^ (ww * m) + B % 2 ^ (ww * m) + c0) % 2 ^ (ww * m) % 2 ^ res,
       (A % 2 ^ (ww * m) + B % 2 ^ (ww * m) + c0) / 2 ^ (ww * m)) := by
  induction m with
  | zero =>
    show ((0 : Nat), c0) = _
    rw [Nat.mul_zero, Nat.pow_zero]
    simp [Nat.mod_one]
  | succ m ih =>
    have hm' : m ≤ wordCount res := by omega
    have hwi : ww * m < res := ww_mul_lt_of_lt_wordCount res m (by omega)
    show (fun i (st : Nat × Nat) =>
      (setWord res st.1 i (((getWord A i + getWord B i) % 2 ^ ww + st.2) % 2 ^ ww),
       if (if (getWord A i + getWord B i) % 2 ^ ww < getWord A i
             ∨ (getWord A i + getWord B i) % 2 ^ ww < getWord B i then (1 : Nat)
           else 0) = 1
          ∨ ((getWord A i + getWord B i) % 2 ^ ww + st.2) % 2 ^ ww < getWord A i
          ∨ ((getWord A i + getWord B i) % 2 ^ ww + st.2) % 2 ^ ww < getWord B i
        then (1 : Nat) else 0)) m (loopUp _ m ((0 : Nat), c0)) = _
    rw [ih hm']
    dsimp only
    -- abbreviations for this step
    obtain ⟨X, hX⟩ : ∃ v : Nat, v = 2 ^ (ww * m) := ⟨_, rfl⟩
    obtain ⟨wa, hwa⟩ : ∃ v : Nat, v = getWord A m := ⟨_, rfl⟩
    obtain ⟨wb, hwb⟩ : ∃ v : Nat, v = getWord B m := ⟨_, rfl⟩
    rw [← hX, ← hwa, ← hwb]
    obtain ⟨SI, hSI⟩ : ∃ v : Nat, v = A % X + B % X + c0 := ⟨_, rfl⟩
    rw [← hSI]
    have hwalt : wa < 2 ^ ww := hwa ▸ getWord_lt A m
    have hwblt : wb < 2 ^ ww := hwb ▸ getWord_lt B m
    have hXpos : 0 < X := hX ▸ Nat.two_pow_pos _
    have hXres : X ≤ 2 ^ res :=
      hX ▸ Nat.pow_le_pow_right (by decide) (le_of_lt hwi)
    have hcarry : SI / X ≤ 1 := by
      have h1 : A % X < X := Nat.mod_lt _ hXpos
      have h2 : B % X < X := Nat.mod_lt _ hXpos
      have h3 : SI < 2 * X := by omega
      have h4 := (Nat.div_lt_iff_lt_mul (k := X) (x := SI) (y := 2) hXpos).mpr
        (by omega)
      omega
    have hXX : 2 ^ (ww * (m + 1)) = X * 2 ^ ww := by
      rw [hX, ← Nat.pow_add, Nat.mul_succ]
    have hAsplit : A % 2 ^ (ww * (m + 1)) = A % X + wa * X := by
      rw [hXX, hX, Nat.mod_mul, hwa]
      unfold getWord
      ring
    have hBsplit : B % 2 ^ (ww * (m + 1)) = B % X + wb * X := by
      rw [hXX, hX, Nat.mod_mul, hwb]
      unfold getWord
      ring
    have hSIsplit : A % 2 ^ (ww * (m + 1)) + B % 2 ^ (ww * (m + 1)) + c0
        = SI % X + X * (wa + wb + SI / X) := by
      rw [hAsplit, hBsplit]
      have hdm : X * (SI / X) + SI % X = SI := Nat.div_add_mod SI X
      have e : SI % X + X * (wa + wb + SI / X)
          = (X * (SI / X) + SI % X) + wa * X + wb * X := by ring
      rw [e, hdm, hSI]
      ring
    have hSImodlt : SI % X < X := Nat.mod_lt _ hXpos
    have hmodres : SI % X % 2 ^ res = SI % X :=
      Nat.mod_eq_of_lt (lt_of_lt_of_le hSImodlt hXres)
    rw [Prod.mk.injEq]
    refine ⟨?_, ?_⟩
    · -- the sum pattern
      rw [hmodres, hSIsplit,
        setWord_append res (SI % X) m _
          (lt_of_lt_of_le hSImodlt (le_of_eq hX)),
        sum_step, hXX, add_mul_mod_mul _ _ _ _ hSImodlt]
      rcases le_or_lt (ww * (m + 1)) res with hfull | hpart
      · have hmask := wordMask_full res m hfull
        have hlt2 : ((wa + wb + SI / X) % 2 ^ ww) < wordMask res m + 1 := by
          rw [hmask]; exact Nat.mod_lt _ (Nat.two_pow_pos ww)
        rw [Nat.mod_eq_of_lt hlt2]
        have hsumlt : SI % X + X * ((wa + wb + SI / X) % 2 ^ ww) < 2 ^ res := by
          have h1 : (wa + wb + SI / X) % 2 ^ ww < 2 ^ ww :=
            Nat.mod_lt _ (Nat.two_pow_pos ww)
          have h2 : SI % X + X * ((wa + wb + SI / X) % 2 ^ ww)
              < X * 2 ^ ww := by
            have h3 : X * ((wa + wb + SI / X) % 2 ^ ww) + X ≤ X * 2 ^ ww := by
              have := Nat.mul_le_mul_left X h1
              have e : X * ((wa + wb + SI / X) % 2 ^ ww + 1)
                  = X * ((wa + wb + SI / X) % 2 ^ ww) + X := by ring
              have h4 := Nat.mul_le_mul_left X
                (Nat.succ_le_of_lt h1)
              rw [e] at h4
              exact h4
            omega
          have h5 : X * 2 ^ ww ≤ 2 ^ res := by
            rw [← hXX]
            exact Nat.pow_le_pow_right (by decide) hfull
          omega
        rw [Nat.mod_eq_of_lt hsumlt, hX]
        exact congrArg (SI % 2 ^ (ww * m) + ·) (Nat.mul_comm _ _)
      · have hlemin : res - ww * m ≤ ww := by
          have h : res < ww * (m + 1) := hpart
          rw [show ww = 64 from rfl] at h ⊢
          omega
        have hmask : wordMask res m + 1 = 2 ^ (res - ww * m) := by
          rw [wordMask_add_one, min_eq_right hlemin]
        have hexp : ww * m + (res - ww * m) = res := by omega
        have hressplit : (2 : Nat) ^ res = X * 2 ^ (res - ww * m) := by
          rw [hX, ← Nat.pow_add, hexp]
        rw [hressplit, add_mul_mod_mul _ _ _ _ hSImodlt, hmask,
          Nat.mod_mod_of_dvd _ (Nat.pow_dvd_pow 2 (by omega)), ← hX]
        exact congrArg (SI % X + ·) (Nat.mul_comm _ _)
    · -- the carry
      clear ih
      rw [carry_step wa wb (SI / X) hwalt hwblt hcarry]
      rw [hSIsplit]
      rw [hXX]
      rw [← Nat.div_div_eq_div_mul]
      have hinner : (SI % X + X * (wa + wb + SI / X)) / X = wa + wb + SI / X := by
        rw [Nat.add_mul_div_left _ _ hXpos, Nat.div_eq_of_lt hSImodlt,
          Nat.zero_add]
      rw [hinner]

theorem loopUp_congr_lt (f g : Nat → α → α) (m : Nat)
    (h : ∀ i, i < m → ∀ s, f i s = g i s) (s : α) :
    loopUp f m s = loopUp g m s := by
  induction m with
  | zero => rfl
  | succ m ih =>
    show f m _ = g m _
    rw [ih (fun i hi s => h i (Nat.lt_succ_of_lt hi) s), h m (Nat.lt_succ_self m)]

theorem swidthCast_lt (src dst p : Nat) (hp : p < 2 ^ src) :
    swidthCast src dst p < 2 ^ dst := by
  unfold swidthCast
  split
  · exact Nat.mod_lt _ (Nat.two_pow_pos _)
  · have hlt : src < dst := by omega
    have hle : 2 ^ src ≤ 2 ^ dst :=
      Nat.pow_le_pow_right (by decide) (le_of_lt hlt)
    split <;> omega

theorem uwidthCast_lt (src dst p : Nat) (hp : p < 2 ^ src) :
    uwidthCast src dst p < 2 ^ dst := by
  unfold uwidthCast
  split
  · exact Nat.mod_lt _ (Nat.two_pow_pos _)
  · have hlt : src < dst := by omega
    exact lt_of_lt_of_le hp (Nat.pow_le_pow_right (by decide) (le_of_lt hlt))

/-- The signed `expanding_add` computes the plain sum of the width-cast
operands and the carry-in, reduced modulo `2^(max(W,V)+1)`. -/
theorem expandingAddS_eq (W V a b : Nat) (c : Bool) (ha : a < 2 ^ W)
    (hb : b < 2 ^ V) :
    expandingAddS W V a b c
      = (swidthCast W (max W V + 1) a + swidthCast V (max W V + 1) b
          + (if c then (1 : Nat) else 0)) % 2 ^ (max W V + 1) := by
  have hc : (if c then (1 : Nat) else 0) ≤ 1 := by cases c <;> simp
  have h := congrArg Prod.fst
    (ripple_loop_eq (max W V + 1) (swidthCast W (max W V + 1) a)
      (swidthCast V (max W V + 1) b) (if c then (1 : Nat) else 0) hc
      (wordCount (max W V + 1)) (le_refl _))
  have hres : max W V + 1 ≤ ww * wordCount (max W V + 1) :=
    le_ww_mul_wordCount _
  have hA : swidthCast W (max W V + 1) a < 2 ^ (ww * wordCount (max W V + 1)) :=
    lt_of_lt_of_le (swidthCast_lt _ _ _ ha)
      (Nat.pow_le_pow_right (by decide) hres)
  have hB : swidthCast V (max W V + 1) b < 2 ^ (ww * wordCount (max W V + 1)) :=
    lt_of_lt_of_le (swidthCast_lt _ _ _ hb)
      (Nat.pow_le_pow_right (by decide) hres)
  rw [Nat.mod_eq_of_lt hA, Nat.mod_eq_of_lt hB,
    Nat.mod_mod_of_dvd _ (Nat.pow_dvd_pow 2 hres)] at h
  exact h

/-- The unsigned `expanding_add` computes the plain sum of the width-cast
operands and the carry-in, reduced modulo `2^(max(W,V)+1)`. -/
theorem expandingAddU_eq (W V a b : Nat) (c : Bool) (ha : a < 2 ^ W)
    (hb : b < 2 ^ V) :
    expandingAddU W V a b c
      = (uwidthCast W (max W V + 1) a + uwidthCast V (max W V + 1) b
          + (if c then (1 : Nat) else 0)) % 2 ^ (max W V + 1) := by
  have hc : (if c then (1 : Nat) else 0) ≤ 1 := by cases c <;> simp
  have h := congrArg Prod.fst
    (ripple_loop_eq (max W V + 1) (uwidthCast W (max W V + 1) a)
      (uwidthCast V (max W V + 1) b) (if c then (1 : Nat) else 0) hc
      (wordCount (max W V + 1)) (le_refl _))
  have hres : max W V + 1 ≤ ww * wordCount (max W V + 1) :=
    le_ww_mul_wordCount _
  have hA : uwidthCast W (max W V + 1) a < 2 ^ (ww * wordCount (max W V + 1)) :=
    lt_of_lt_of_le (uwidthCast_lt _ _ _ ha)
      (Nat.pow_le_pow_right (by decide) hres)
  have hB : uwidthCast V (max W V + 1) b < 2 ^ (ww * wordCount (max W V + 1)) :=
    lt_of_lt_of_le (uwidthCast_lt _ _ _ hb)
      (Nat.pow_le_pow_right (by decide) hres)
  rw [Nat.mod_eq_of_lt hA, Nat.mod_eq_of_lt hB,
    Nat.mod_mod_of_dvd _ (Nat.pow_dvd_pow 2 hres)] at h
  exact h

/-- Same-width unsigned `width_cast` is reduction modulo `2^n`. -/
theorem uwidthCast_self (n p : Nat) : uwidthCast n n p = p % 2 ^ n := by
  unfold uwidthCast
  rw [if_pos (le_refl n)]

/-- `fun_add_expand` agrees with `expanding_add` (signed): the `zip_with`
carry lambda performs the identical word recurrence, and the final
same-width `width_cast` is the identity on the reduced result. -/
theorem funAddExpandS_eq (W V a b : Nat) (c : Bool) (ha : a < 2 ^ W)
    (hb : b < 2 ^ V) :
    funAddExpandS W V a b c = expandingAddS W V a b c := by
  have he := expandingAddS_eq W V a b c ha hb
  show uwidthCast (max W V + 1) (max W V + 1) (expandingAddS W V a b c)
    = expandingAddS W V a b c
  rw [uwidthCast_self, he, Nat.mod_mod_of_dvd _ (dvd_refl _)]

/-- `fun_add_expand` agrees with `expanding_add` (unsigned). -/
theorem funAddExpandU_eq (W V a b : Nat) (c : Bool) (ha : a < 2 ^ W)
    (hb : b < 2 ^ V) :
    funAddExpandU W V a b c = expandingAddU W V a b c := by
  have he := expandingAddU_eq W V a b c ha hb
  show uwidthCast (max W V + 1) (max W V + 1) (expandingAddU W V a b c)
    = expandingAddU W V a b c
  rw [uwidthCast_self, he, Nat.mod_mod_of_dvd _ (dvd_refl _)]

/-- `add` on width-`W` signed integers is addition modulo `2^W`. -/
theorem addS_eq (W a b : Nat) (ha : a < 2 ^ W) (hb : b < 2 ^ W) :
    addS W a b = (a + b) % 2 ^ W := by
  unfold addS
  rw [expandingAddS_eq W W a b false ha hb]
  have hdle : W ≤ max W W + 1 := by omega
  have houter : ∀ X, swidthCast (max W W + 1) W X = X % 2 ^ W := by
    intro X
    unfold swidthCast
    rw [if_pos hdle]
  rw [houter, Nat.mod_mod_of_dvd _ (Nat.pow_dvd_pow 2 hdle)]
  have hcast : ∀ p : Nat, swidthCast W (max W W + 1) p % 2 ^ W = p % 2 ^ W := by
    intro p
    unfold swidthCast
    rw [if_neg (by omega)]
    split
    · have h2 : 2 ^ (max W W + 1) - 2 ^ W = 2 ^ W := by
        rw [Nat.max_self, pow_succ]
        have := Nat.two_pow_pos W
        omega
      rw [h2, Nat.add_mod_right]
    · rfl
  have hz : (if false = true then (1 : Nat) else 0) = 0 := rfl
  rw [hz, Nat.add_zero, Nat.add_mod, hcast, hcast, ← Nat.add_mod]

/-- Bitwise NOT of an in-range pattern is subtraction from all-ones. -/
theorem wnot_eq (n p : Nat) (hp : p < 2 ^ n) :
    wnot n p = 2 ^ n - 1 - p := by
  unfold wnot
  rw [loopUp_congr_lt _
    (fun i acc => if i < wordCount n
      then setWord n acc i (2 ^ ww - 1 - getWord p i) else acc)
    (wordCount n) (fun i hi s => by dsimp only; rw [if_pos hi]) 0]
  rw [buildUpT_eq, min_self]
  have hglt : ∀ i, getWord p i < wordMask n i + 1 := by
    intro i
    have h1 := getWord_mask_eq n p i hp
    have h2 : getWord p i % (wordMask n i + 1) < wordMask n i + 1 :=
      Nat.mod_lt _ (by omega)
    omega
  have hterm : ∀ i, i < wordCount n →
      (2 ^ ww - 1 - getWord p i) % (wordMask n i + 1)
        = wordMask n i - getWord p i := by
    intro i _
    obtain ⟨t, ht⟩ : ∃ v : Nat, v = min ww (n - ww * i) := ⟨_, rfl⟩
    have hmaskt : wordMask n i + 1 = 2 ^ t := by
      rw [wordMask_add_one, ht]
    have htle : t ≤ ww := by rw [ht]; exact Nat.min_le_left _ _
    have hexp : t + (ww - t) = ww := by omega
    have hpows : 2 ^ t * 2 ^ (ww - t) = 2 ^ ww := by
      rw [← Nat.pow_add, hexp]
    have hdist : 2 ^ t * (2 ^ (ww - t) - 1) = 2 ^ ww - 2 ^ t := by
      rw [Nat.mul_sub, Nat.mul_one, hpows]
    have hg := hglt i
    have h2t := Nat.two_pow_pos t
    have h2w := Nat.two_pow_pos ww
    have h2le : 2 ^ t ≤ 2 ^ ww := Nat.pow_le_pow_right (by decide) htle
    have e : 2 ^ ww - 1 - getWord p i
        = (2 ^ t - 1 - getWord p i) + 2 ^ t * (2 ^ (ww - t) - 1) := by
      rw [hdist]
      omega
    rw [hmaskt, e, Nat.add_mul_mod_self_left,
      Nat.mod_eq_of_lt (by omega)]
    omega
  have hsum1 : ∑ i ∈ Finset.range (wordCount n),
        (2 ^ ww - 1 - getWord p i) % (wordMask n i + 1) * 2 ^ (ww * i)
      = ∑ i ∈ Finset.range (wordCount n),
        (wordMask n i - getWord p i) * 2 ^ (ww * i) :=
    Finset.sum_congr rfl (fun i hi => by
      rw [hterm i (Finset.mem_range.mp hi)])
  rw [hsum1]
  have hnle : 2 ^ n ≤ 2 ^ (ww * wordCount n) :=
    Nat.pow_le_pow_right (by decide) (le_ww_mul_wordCount n)
  have h2n := Nat.two_pow_pos n
  have hmask_sum : ∑ i ∈ Finset.range (wordCount n),
      wordMask n i * 2 ^ (ww * i) = 2 ^ n - 1 := by
    rw [Finset.sum_congr rfl
      (fun i _ => by rw [← getWord_all_ones n i]), sum_getWord]
    exact Nat.mod_eq_of_lt (by omega)
  have hp_sum : ∑ i ∈ Finset.range (wordCount n),
      getWord p i * 2 ^ (ww * i) = p := by
    rw [sum_getWord]
    exact Nat.mod_eq_of_lt (by omega)
  have hsplit : (∑ i ∈ Finset.range (wordCount n),
        (wordMask n i - getWord p i) * 2 ^ (ww * i))
      + (∑ i ∈ Finset.range (wordCount n), getWord p i * 2 ^ (ww * i))
      = ∑ i ∈ Finset.range (wordCount n), wordMask n i * 2 ^ (ww * i) := by
    rw [← Finset.sum_add_distrib]
    exact Finset.sum_congr rfl (fun i _ => by
      rw [← Nat.add_mul, Nat.sub_add_cancel (by have := hglt i; omega)])
  omega

/-- Unary negation on width-`W` signed integers is negation modulo `2^W`. -/
theorem negS_eq (W n : Nat) (hW : 0 < W) (hn : n < 2 ^ W) :
    negS W n = (2 ^ W - n) % 2 ^ W := by
  unfold negS
  have h2W := Nat.two_pow_pos W
  rw [wnot_eq W n hn,
    addS_eq W _ 1 (by omega) (Nat.one_lt_two_pow_iff.mpr (by omega))]
  have e : 2 ^ W - 1 - n + 1 = 2 ^ W - n := by omega
  rw [e]

/-- C10: the higher-order `fun_add_expand` agrees with the loop-based
`expanding_add` for signed and for unsigned operands of arbitrary widths
and every initial carry, and the width-cast `fun_add` agrees with the
width-cast of `expanding_add`, hence `fun_add(a, b) = add(a, b)`. -/
theorem claim_C10 (W V a b : Nat) (c : Bool) (ha : a < 2 ^ W)
    (hb : b < 2 ^ V) :
    funAddExpandS W V a b c = expandingAddS W V a b c
    ∧ funAddExpandU W V a b c = expandingAddU W V a b c
    ∧ ∀ b', b' < 2 ^ W →
        funAddS W a b' c = swidthCast (max W W + 1) W (expandingAddS W W a b' c)
        ∧ funAddU W a b' c = uwidthCast (max W W + 1) W (expandingAddU W W a b' c)
        ∧ funAddS W a b' false = addS W a b' := by
  refine ⟨funAddExpandS_eq W V a b c ha hb, funAddExpandU_eq W V a b c ha hb, ?_⟩
  intro b' hb'
  refine ⟨?_, ?_, ?_⟩
  · unfold funAddS
    rw [funAddExpandS_eq W W a b' c ha hb']
  · unfold funAddU
    rw [funAddExpandU_eq W W a b' c ha hb']
  · unfold funAddS addS
    rw [funAddExpandS_eq W W a b' false ha hb']

/-- Witness for C10 at concrete operands: widths 8 and 4, operands 200
and 77 with carry, and the same-width pair (200, 100). -/
theorem claim_C10_witness :
    (200 : Nat) < 2 ^ 8 ∧ (7 : Nat) < 2 ^ 4 ∧ (100 : Nat) < 2 ^ 8
    ∧ funAddExpandS 8 4 200 7 true = expandingAddS 8 4 200 7 true
    ∧ funAddS 8 200 100 false = addS 8 200 100 :=
  ⟨by decide, by decide, by decide,
    (claim_C10 8 4 200 7 true (by decide) (by decide)).1,
    ((claim_C10 8 8 200 100 false (by decide) (by decide)).2.2 100
      (by decide)).2.2⟩

set_option maxRecDepth 40000 in
/-- C1: the signed restoring division violates the division-remainder
law: for the width-8 inputs `n = -7` (pattern 249) and `d = 2` it returns
quotient `-3` (pattern 253) and remainder `+1` (pattern 1); the remainder
does not carry the numerator's sign, and `q*d + r = -5 ≠ -7`. -/
theorem claim_C1_bug :
    restoringDivisionS 8 8 249 2 = Except.ok (253, 1)
    ∧ toInt 8 249 = -7 ∧ toInt 8 2 = 2 ∧ toInt 8 253 = -3 ∧ toInt 8 1 = 1
    ∧ addS 8 (mulS 8 253 2) 1 = 251 ∧ toInt 8 251 = -5
    ∧ ((-3 : Int) * 2 + 1 ≠ -7) :=
  by decide

/-- C6: `valid::operator==` compares `end` against `other.start`; it is
not component-wise and not even reflexive as soon as the two tiles
differ. -/
theorem claim_C6_bug :
    validEq ⟨⟨0, false⟩, ⟨1, false⟩⟩ ⟨⟨0, false⟩, ⟨1, false⟩⟩ = false
    ∧ validEq ⟨⟨0, false⟩, ⟨0, false⟩⟩ ⟨⟨0, false⟩, ⟨0, false⟩⟩ = true := by
  decide

/-- C8: the arithmetic right shift does not keep zero non-negative: at
width 65, shifting the zero pattern right by 64 yields the pattern
`2^64`, whose sign bit is set (value `-2^64`), because the implementation
initialises the result with `all_ones` when the input is zero. -/
theorem claim_C8_bug :
    sintShr 65 0 64 = 2 ^ 64
    ∧ isNeg 65 0 = false
    ∧ isNeg 65 (2 ^ 64) = true
    ∧ toInt 65 (2 ^ 64) = -(2 ^ 64) := by decide

/-! ### Two's-complement semantics of patterns -/

theorem getWord_zero (i : Nat) : getWord 0 i = 0 := by
  unfold getWord
  simp

theorem setWord_zero (n i : Nat) : setWord n 0 i 0 = 0 := by
  unfold setWord
  simp

theorem isNeg_zero (n : Nat) : isNeg n 0 = false := by
  unfold isNeg getBit
  simp

theorem two_pow_cast (k : Nat) : ((2 ^ k : Nat) : Int) = (2 : Int) ^ k := by
  push_cast
  ring

/-- The sign bit of an in-range pattern is set exactly when the pattern is
at least `2^(n-1)`. -/
theorem isNeg_iff (n p : Nat) (hn : 0 < n) (hp : p < 2 ^ n) :
    isNeg n p = true ↔ 2 ^ (n - 1) ≤ p := by
  unfold isNeg getBit
  rw [decide_eq_true_eq]
  have hpow : 2 ^ n = 2 ^ (n - 1) * 2 := by
    rw [← pow_succ]
    congr 1
    omega
  have hq : p / 2 ^ (n - 1) < 2 := by
    rw [Nat.div_lt_iff_lt_mul (Nat.two_pow_pos _)]
    omega
  constructor
  · intro h
    obtain ⟨x, hx⟩ : ∃ v : Nat, v = p / 2 ^ (n - 1) := ⟨_, rfl⟩
    rw [← hx] at h hq
    have hd1 : p / 2 ^ (n - 1) = 1 := by rw [← hx]; omega
    have hdm := Nat.div_add_mod p (2 ^ (n - 1))
    rw [hd1, Nat.mul_one] at hdm
    omega
  · intro h
    have hd1 : 1 ≤ p / 2 ^ (n - 1) :=
      (Nat.one_le_div_iff (Nat.two_pow_pos _)).mpr h
    obtain ⟨x, hx⟩ : ∃ v : Nat, v = p / 2 ^ (n - 1) := ⟨_, rfl⟩
    rw [← hx] at hd1 hq ⊢
    omega

/-- The two's-complement value of a width-`n` pattern lies in
`[-2^(n-1), 2^(n-1))`. -/
theorem toInt_bounds (n p : Nat) (hn : 0 < n) (hp : p < 2 ^ n) :
    -(2 ^ (n - 1) : Int) ≤ toInt n p ∧ toInt n p < 2 ^ (n - 1) := by
  have hpow : (2 : Nat) ^ n = 2 ^ (n - 1) * 2 := by
    rw [← pow_succ]
    congr 1
    omega
  have hc1 := two_pow_cast n
  have hc2 := two_pow_cast (n - 1)
  have hc3 : ((2 ^ n : Nat) : Int) = ((2 ^ (n - 1) : Nat) : Int) * 2 := by
    exact_mod_cast hpow
  unfold toInt
  by_cases h : isNeg n p = true
  · rw [if_pos h]
    have h1 := (isNeg_iff n p hn hp).mp h
    have h1' : ((2 ^ (n - 1) : Nat) : Int) ≤ (p : Int) := by exact_mod_cast h1
    have hp' : (p : Int) < ((2 ^ n : Nat) : Int) := by exact_mod_cast hp
    omega
  · rw [if_neg h]
    have h1 : ¬ 2 ^ (n - 1) ≤ p := fun hc => h ((isNeg_iff n p hn hp).mpr hc)
    have h1' : (p : Int) < ((2 ^ (n - 1) : Nat) : Int) := by
      exact_mod_cast Nat.lt_of_not_le h1
    have hp0 : (0 : Int) ≤ (p : Int) := Int.natCast_nonneg p
    omega

/-- A pattern differs from its two's-complement value by a multiple of
`2^n` (in fact by `0` or `2^n`). -/
theorem toInt_decomp (n p : Nat) :
    ∃ k : Int, (p : Int) = toInt n p + 2 ^ n * k := by
  unfold toInt
  by_cases h : isNeg n p = true
  · rw [if_pos h]
    exact ⟨1, by ring⟩
  · rw [if_neg h]
    exact ⟨0, by ring⟩

/-- An integer in the representable window that is congruent to the
pattern modulo `2^n` is its two's-complement value. -/
theorem toInt_unique (n p : Nat) (hn : 0 < n) (hp : p < 2 ^ n) (v : Int)
    (h1 : -(2 ^ (n - 1) : Int) ≤ v) (h2 : v < 2 ^ (n - 1))
    (h3 : ∃ k : Int, (p : Int) = v + 2 ^ n * k) :
    toInt n p = v := by
  obtain ⟨k, hk⟩ := h3
  obtain ⟨j, hj⟩ := toInt_decomp n p
  obtain ⟨hb1, hb2⟩ := toInt_bounds n p hn hp
  have hd : toInt n p - v = 2 ^ n * (k - j) := by linear_combination hk - hj
  have hc3 : (2 : Int) ^ n = 2 ^ (n - 1) * 2 := by
    rw [← pow_succ]
    congr 1
    omega
  have hpos : (0 : Int) < 2 ^ (n - 1) := by positivity
  have habs : -((2 : Int) ^ n) < 2 ^ n * (k - j) ∧ 2 ^ n * (k - j) < 2 ^ n := by
    rw [← hd]
    constructor <;> omega
  have hkj : k - j = 0 := by
    by_contra hne
    have hy : (0 : Int) < 2 ^ n := by positivity
    rcases lt_or_gt_of_ne hne with hlt | hgt
    · have hle : k - j ≤ -1 := by omega
      have hmul : 2 ^ n * (k - j) ≤ 2 ^ n * (-1) :=
        mul_le_mul_of_nonneg_left hle (le_of_lt hy)
      have e : (2 : Int) ^ n * (-1) = -(2 ^ n) := by ring
      omega
    · have hle : 1 ≤ k - j := by omega
      have hmul : 2 ^ n * 1 ≤ 2 ^ n * (k - j) :=
        mul_le_mul_of_nonneg_left hle (le_of_lt hy)
      have e : (2 : Int) ^ n * 1 = 2 ^ n := by ring
      omega
  rw [hkj, mul_zero] at hd
  omega

/-- The low bits of a pattern are the low bits of its two's-complement
value (as a non-negative Euclidean remainder). -/
theorem pattern_mod_of_toInt (n P : Nat) (v : Int) (h : toInt n P = v)
    (d : Nat) (hdn : d ≤ n) :
    ((P % 2 ^ d : Nat) : Int) = v % 2 ^ d := by
  obtain ⟨k, hk⟩ := toInt_decomp n P
  rw [h] at hk
  have hsplit : (2 : Int) ^ n = 2 ^ d * 2 ^ (n - d) := by
    rw [← pow_add]
    congr 1
    omega
  have hcast : ((P % 2 ^ d : Nat) : Int) = (P : Int) % ((2 ^ d : Nat) : Int) := by
    push_cast
    ring
  rw [hcast, two_pow_cast d, hk, hsplit]
  have e : v + 2 ^ d * 2 ^ (n - d) * k = v + 2 ^ d * (2 ^ (n - d) * k) := by
    ring
  rw [e, Int.add_mul_emod_self_left]

theorem mod_two_pow_succ (r t : Nat) :
    r % 2 ^ (t + 1) = r % 2 ^ t + 2 ^ t * (r / 2 ^ t % 2) := by
  rw [pow_succ, Nat.mod_mul]

/-- The sign bit of `r mod 2^n` is bit `n-1` of `r`. -/
theorem isNeg_mod_pow (n r : Nat) (hn : 0 < n) :
    isNeg n (r % 2 ^ n) = decide (r / 2 ^ (n - 1) % 2 = 1) := by
  unfold isNeg getBit
  rw [decide_eq_decide, mod_pow_div r n (n - 1) (by omega)]
  have e : n - (n - 1) = 1 := by omega
  rw [e, pow_one, Nat.mod_mod_of_dvd _ (dvd_refl 2)]

/-- Sign extension preserves the two's-complement value. -/
theorem swidthCast_toInt (src dst p : Nat) (h0 : 0 < src) (hsd : src ≤ dst)
    (hp : p < 2 ^ src) :
    toInt dst (swidthCast src dst p) = toInt src p := by
  rcases eq_or_lt_of_le hsd with heq | hlt
  · subst heq
    unfold swidthCast
    rw [if_pos (le_refl _), Nat.mod_eq_of_lt hp]
  · have hsrcle : (2 : Nat) ^ src ≤ 2 ^ dst :=
      Nat.pow_le_pow_right (by decide) hsd
    have hsH : (2 : Nat) ^ (src - 1) * 2 = 2 ^ src := by
      rw [← pow_succ]
      congr 1
      omega
    have hdH : (2 : Nat) ^ (dst - 1) * 2 = 2 ^ dst := by
      rw [← pow_succ]
      congr 1
      omega
    have hsd1 : (2 : Nat) ^ (src - 1) ≤ 2 ^ (dst - 1) :=
      Nat.pow_le_pow_right (by decide) (by omega)
    unfold swidthCast
    rw [if_neg (by omega)]
    by_cases hneg : isNeg src p = true
    · rw [if_pos hneg]
      have h1 := (isNeg_iff src p h0 hp).mp hneg
      have hq : p + (2 ^ dst - 2 ^ src) < 2 ^ dst := by omega
      have hqneg : isNeg dst (p + (2 ^ dst - 2 ^ src)) = true := by
        rw [isNeg_iff dst _ (by omega) hq]
        omega
      unfold toInt
      rw [if_pos hqneg, if_pos hneg]
      have e : ((p + (2 ^ dst - 2 ^ src) : Nat) : Int)
          = (p : Int) + ((2 ^ dst : Nat) : Int) - ((2 ^ src : Nat) : Int) := by
        push_cast [Nat.cast_sub hsrcle]
        ring
      rw [e, two_pow_cast dst, two_pow_cast src]
      ring
    · rw [if_neg hneg]
      have h1 : ¬ 2 ^ (src - 1) ≤ p := fun hc =>
        hneg ((isNeg_iff src p h0 hp).mpr hc)
      have hdanneg : ¬ isNeg dst p = true := fun hc => by
        have h2 := (isNeg_iff dst p (by omega) (by omega)).mp hc
        omega
      unfold toInt
      rw [if_neg hdanneg, if_neg hneg]

/-- Booth digit recurrence: extending the two's-complement reading of the
low bits of `r` by one bit adds `2^t` times the Booth digit, read off the
bits `t` and `t+1` of the doubled multiplier `2r`. -/
theorem toInt_low_succ (r t : Nat) :
    toInt (t + 1) (r % 2 ^ (t + 1))
      = toInt t (r % 2 ^ t)
        + 2 ^ t * (((2 * r / 2 ^ t % 2 : Nat) : Int)
            - ((2 * r / 2 ^ t / 2 % 2 : Nat) : Int)) := by
  cases t with
  | zero =>
    have e1 : 2 * r / 2 ^ 0 % 2 = 0 := by
      rw [pow_zero, Nat.div_one, Nat.mul_mod_right]
    have e2 : 2 * r / 2 ^ 0 / 2 % 2 = r % 2 := by
      rw [pow_zero, Nat.div_one, Nat.mul_div_cancel_left r (by decide)]
    rw [e1, e2]
    have e3 : r % 2 ^ 0 = 0 := by rw [pow_zero, Nat.mod_one]
    rw [e3]
    have h00 : toInt 0 0 = 0 := by decide
    rw [h00]
    rcases Nat.mod_two_eq_zero_or_one r with h | h
    · rw [h]
      have e4 : r % 2 ^ (0 + 1) = 0 := by rw [pow_one]; exact h
      rw [e4]
      have e5 : toInt 1 0 = 0 := by decide
      rw [e5]
      norm_num
    · rw [h]
      have e4 : r % 2 ^ (0 + 1) = 1 := by rw [pow_one]; exact h
      rw [e4]
      have e5 : toInt 1 1 = -1 := by decide
      rw [e5]
      norm_num
  | succ s =>
    have hts : 2 * r / 2 ^ (s + 1) = r / 2 ^ s := by
      rw [pow_succ']
      exact Nat.mul_div_mul_left r (2 ^ s) (by decide)
    have hb_last : 2 * r / 2 ^ (s + 1) % 2 = r / 2 ^ s % 2 := by rw [hts]
    have hb_snd : 2 * r / 2 ^ (s + 1) / 2 % 2 = r / 2 ^ (s + 1) % 2 := by
      rw [hts, Nat.div_div_eq_div_mul, ← pow_succ]
    have hn2 : isNeg (s + 2) (r % 2 ^ (s + 2))
        = decide (r / 2 ^ (s + 1) % 2 = 1) := by
      have h := isNeg_mod_pow (s + 2) r (by omega)
      have e : s + 2 - 1 = s + 1 := by omega
      rw [e] at h
      exact h
    have hn1 : isNeg (s + 1) (r % 2 ^ (s + 1))
        = decide (r / 2 ^ s % 2 = 1) := by
      have h := isNeg_mod_pow (s + 1) r (by omega)
      have e : s + 1 - 1 = s := by omega
      rw [e] at h
      exact h
    have h1 : r % 2 ^ (s + 2) = r % 2 ^ (s + 1) + 2 ^ (s + 1) * (r / 2 ^ (s + 1) % 2) :=
      mod_two_pow_succ r (s + 1)
    have hc1 := two_pow_cast (s + 1)
    have hc2 := two_pow_cast (s + 2)
    have hcp : (2 : Int) ^ (s + 2) = 2 ^ (s + 1) * 2 := by
      rw [← pow_succ]
    unfold toInt
    rw [hb_last, hb_snd, hn2, hn1]
    rcases Nat.mod_two_eq_zero_or_one (r / 2 ^ (s + 1)) with hbt | hbt <;>
      rcases Nat.mod_two_eq_zero_or_one (r / 2 ^ s) with hbs | hbs
    · rw [hbt] at h1
      rw [hbt, hbs, if_neg (by decide : ¬ (decide ((0 : Nat) = 1) = true)),
        if_neg (by decide : ¬ (decide ((0 : Nat) = 1) = true)),
        show s + 1 + 1 = s + 2 from rfl]
      simp only [Nat.cast_zero]
      omega
    · rw [hbt] at h1
      rw [hbt, hbs, if_neg (by decide : ¬ (decide ((0 : Nat) = 1) = true)),
        if_pos (by decide : decide ((1 : Nat) = 1) = true),
        show s + 1 + 1 = s + 2 from rfl]
      simp only [Nat.cast_zero, Nat.cast_one]
      omega
    · rw [hbt] at h1
      rw [hbt, hbs, if_pos (by decide : decide ((1 : Nat) = 1) = true),
        if_neg (by decide : ¬ (decide ((0 : Nat) = 1) = true)),
        show s + 1 + 1 = s + 2 from rfl]
      simp only [Nat.cast_zero, Nat.cast_one]
      omega
    · rw [hbt] at h1
      rw [hbt, hbs, if_pos (by decide : decide ((1 : Nat) = 1) = true),
        if_pos (by decide : decide ((1 : Nat) = 1) = true),
        show s + 1 + 1 = s + 2 from rfl]
      simp only [Nat.cast_one]
      omega

/-- A loop that stores `0` into every word in turn clears the low words,
keeping only the part above the last word written. -/
theorem loopUp_setZero (n m acc0 : Nat) :
    loopUp (fun c acc => setWord n acc c 0) m acc0
      = acc0 / 2 ^ (ww * m) * 2 ^ (ww * m) := by
  induction m with
  | zero => simp [loopUp]
  | succ m ih =>
    show setWord n (loopUp _ m acc0) m 0 = _
    rw [ih]
    unfold setWord
    have hXX : 2 ^ (ww * (m + 1)) = 2 ^ (ww * m) * 2 ^ ww := by
      rw [← Nat.pow_add, Nat.mul_succ]
    rw [Nat.mul_mod_left, Nat.zero_mod, Nat.zero_mul]
    have hdiv : acc0 / 2 ^ (ww * m) * 2 ^ (ww * m) / 2 ^ (ww * (m + 1))
        = acc0 / 2 ^ (ww * (m + 1)) := by
      rw [hXX, Nat.mul_comm (acc0 / 2 ^ (ww * m)) (2 ^ (ww * m)),
        Nat.mul_div_mul_left _ _ (Nat.two_pow_pos _), Nat.div_div_eq_div_mul]
    rw [hdiv]
    omega

theorem sintShr_zero (Width rhs : Nat) (h1 : 0 < rhs) (h2 : rhs < ww)
    (h3 : rhs < Width) : sintShr Width 0 rhs = 0 := by
  have hskip : rhs / ww = 0 := Nat.div_eq_of_lt h2
  unfold sintShr
  rw [if_neg (by omega), if_neg (by omega), if_pos rfl]
  dsimp only
  rw [hskip]
  rw [isNeg_zero, if_neg Bool.false_ne_true]
  have hcore : loopUp
      (fun c acc =>
        if c + 0 < wordCount Width then
          setWord Width acc (c + 0 - 0)
            (if ww - (rhs - 0 * ww) < ww ∧ c + 0 + 1 < wordCount Width then
              getWord 0 (c + 0) / 2 ^ (rhs - 0 * ww) |||
                getWord 0 (c + 0 + 1) * 2 ^ (ww - (rhs - 0 * ww)) % 2 ^ ww
            else getWord 0 (c + 0) / 2 ^ (rhs - 0 * ww))
        else acc)
      (wordCount Width) (2 ^ Width - 1)
      = loopUp (fun c acc => setWord Width acc c 0)
          (wordCount Width) (2 ^ Width - 1) := by
    apply loopUp_congr_lt
    intro i hi s
    dsimp only
    rw [if_pos (by omega : i + 0 < wordCount Width)]
    simp only [getWord_zero, Nat.zero_div, Nat.zero_mul, Nat.zero_mod,
      Nat.zero_or, ite_self, Nat.add_zero, Nat.sub_zero]
  rw [hcore, loopUp_setZero]
  have hwle : (2 : Nat) ^ Width ≤ 2 ^ (ww * wordCount Width) :=
    Nat.pow_le_pow_right (by decide) (le_ww_mul_wordCount Width)
  have h2p := Nat.two_pow_pos Width
  have hz : (2 ^ Width - 1) / 2 ^ (ww * wordCount Width) = 0 :=
    Nat.div_eq_of_lt (by omega)
  rw [hz, Nat.zero_mul, getWord_zero, Nat.zero_div, setWord_zero]

/-- On a nonzero operand the arithmetic right shift is the logical shift
followed by the sign fill. -/
theorem sintShr_ne_zero (Width lp rhs : Nat) (h0 : lp ≠ 0) (h1 : rhs ≠ 0)
    (h2 : rhs < Width) :
    sintShr Width lp rhs
      = if isNeg Width lp = true then
          loopUp (fun j acc => setBitOne acc (Width - 1 - j)) rhs
            (wshr Width lp rhs)
        else wshr Width lp rhs := by
  unfold sintShr wshr
  simp only [if_neg (show ¬ rhs ≥ Width from by omega), if_neg h1, if_neg h0]

/-- The arithmetic shift by one halves the pattern and re-fills the top
bit from the sign. -/
theorem sintShr_one_eq (Width lp : Nat) (hW : 1 < Width) (hlp : lp < 2 ^ Width) :
    sintShr Width lp 1
      = lp / 2 + (if isNeg Width lp = true then 2 ^ (Width - 1) else 0) := by
  have hpow : (2 : Nat) ^ (Width - 1) * 2 = 2 ^ Width := by
    rw [← pow_succ]
    congr 1
    omega
  by_cases h0 : lp = 0
  · subst h0
    rw [sintShr_zero Width 1 (by decide) (by decide) (by omega), isNeg_zero]
    simp
  · rw [sintShr_ne_zero Width lp 1 h0 (by decide) (by omega),
      wshr_eq Width lp 1 hlp (by omega)]
    by_cases hn : isNeg Width lp = true
    · rw [if_pos hn, if_pos hn]
      show setBitOne (lp / 2 ^ 1) (Width - 1 - 0) = lp / 2 + 2 ^ (Width - 1)
      unfold setBitOne
      rw [pow_one, Nat.sub_zero]
      have hlt : lp / 2 < 2 ^ (Width - 1) := by omega
      have hor := Nat.mul_add_lt_is_or hlt 1
      rw [Nat.mul_one] at hor
      rw [Nat.lor_comm, ← hor, Nat.add_comm]
    · rw [if_neg hn, if_neg hn, pow_one, Nat.add_zero]

/-- Halving relation between the arithmetic shift by one and the
two's-complement value: `2 * asr1(Q) + (Q mod 2) = value(Q)`. -/
theorem sintShr_one_toInt (K Q : Nat) (hK : 1 < K) (hQ : Q < 2 ^ K) :
    sintShr K Q 1 < 2 ^ K
    ∧ 2 * toInt K (sintShr K Q 1) + ((Q % 2 : Nat) : Int) = toInt K Q := by
  rw [sintShr_one_eq K Q hK hQ]
  have hpow : (2 : Nat) ^ (K - 1) * 2 = 2 ^ K := by
    rw [← pow_succ]
    congr 1
    omega
  have hpow' : (2 : Int) ^ (K - 1) * 2 = (2 : Int) ^ K := by
    rw [← pow_succ]
    congr 1
    omega
  have hq2 : Q / 2 < 2 ^ (K - 1) := by omega
  by_cases hn : isNeg K Q = true
  · rw [if_pos hn]
    have hge := (isNeg_iff K Q (by omega) hQ).mp hn
    have hR : Q / 2 + 2 ^ (K - 1) < 2 ^ K := by omega
    have hRneg : isNeg K (Q / 2 + 2 ^ (K - 1)) = true := by
      rw [isNeg_iff K _ (by omega) hR]
      omega
    refine ⟨hR, ?_⟩
    unfold toInt
    rw [if_pos hRneg, if_pos hn]
    push_cast
    omega
  · rw [if_neg hn, Nat.add_zero]
    have hlt : ¬ 2 ^ (K - 1) ≤ Q := fun hc => hn ((isNeg_iff K Q (by omega) hQ).mpr hc)
    have hRnneg : ¬ isNeg K (Q / 2) = true := fun hc => by
      have := (isNeg_iff K (Q / 2) (by omega) (by omega)).mp hc
      omega
    refine ⟨by omega, ?_⟩
    unfold toInt
    rw [if_neg hRnneg, if_neg hn]
    push_cast
    omega

/-- `add` computes any integer congruent to the sum of the operand values
that lies in the representable window. -/
theorem addS_toInt (K P X : Nat) (hK : 0 < K) (hP : P < 2 ^ K) (hX : X < 2 ^ K)
    (v : Int) (h1 : -(2 ^ (K - 1) : Int) ≤ v) (h2 : v < 2 ^ (K - 1))
    (h3 : ∃ k : Int, (P : Int) + (X : Int) = v + 2 ^ K * k) :
    addS K P X < 2 ^ K ∧ toInt K (addS K P X) = v := by
  rw [addS_eq K P X hP hX]
  refine ⟨Nat.mod_lt _ (Nat.two_pow_pos _), ?_⟩
  apply toInt_unique K _ hK (Nat.mod_lt _ (Nat.two_pow_pos _)) v h1 h2
  obtain ⟨k, hk⟩ := h3
  refine ⟨k - (((P + X) / 2 ^ K : Nat) : Int), ?_⟩
  have hdm := Nat.div_add_mod (P + X) (2 ^ K)
  have hdm' : ((2 ^ K : Nat) : Int) * (((P + X) / 2 ^ K : Nat) : Int)
      + (((P + X) % 2 ^ K : Nat) : Int) = (P : Int) + (X : Int) := by
    exact_mod_cast hdm
  rw [two_pow_cast K] at hdm'
  linear_combination hk + hdm'

/-- The shifted multiplicand `A` of the Booth loop is congruent to
`value(m) * 2^(V+1)` modulo `2^K` (and fits in `K` bits). -/
theorem booth_A_congr (W V m : Nat) (hW : 0 < W) (hm : m < 2 ^ W) :
    wshl (W + V + 2) (swidthCast W (W + 1) m) (V + 1) < 2 ^ (W + V + 2)
    ∧ ∃ kA : Int,
        ((wshl (W + V + 2) (swidthCast W (W + 1) m) (V + 1) : Nat) : Int)
          = toInt W m * 2 ^ (V + 1) + 2 ^ (W + V + 2) * kA := by
  have hA0lt : swidthCast W (W + 1) m < 2 ^ (W + 1) := swidthCast_lt _ _ _ hm
  have hA0K : swidthCast W (W + 1) m < 2 ^ (W + V + 2) :=
    lt_of_lt_of_le hA0lt (Nat.pow_le_pow_right (by decide) (by omega))
  have htoA0 : toInt (W + 1) (swidthCast W (W + 1) m) = toInt W m :=
    swidthCast_toInt W (W + 1) m hW (by omega) hm
  obtain ⟨e, he⟩ := toInt_decomp (W + 1) (swidthCast W (W + 1) m)
  rw [htoA0] at he
  have hmul : swidthCast W (W + 1) m * 2 ^ (V + 1) < 2 ^ (W + V + 2) := by
    have h1 : swidthCast W (W + 1) m * 2 ^ (V + 1) < 2 ^ (W + 1) * 2 ^ (V + 1) :=
      (Nat.mul_lt_mul_right (Nat.two_pow_pos _)).mpr hA0lt
    have h2 : (2 : Nat) ^ (W + 1) * 2 ^ (V + 1) = 2 ^ (W + V + 2) := by
      rw [← Nat.pow_add]
      congr 1
      omega
    omega
  have hAeq : wshl (W + V + 2) (swidthCast W (W + 1) m) (V + 1)
      = swidthCast W (W + 1) m * 2 ^ (V + 1) := by
    rw [wshl_eq _ _ _ hA0K, Nat.mod_eq_of_lt hmul]
  constructor
  · rw [hAeq]
    exact hmul
  · refine ⟨e, ?_⟩
    rw [hAeq]
    have hcast : ((swidthCast W (W + 1) m * 2 ^ (V + 1) : Nat) : Int)
        = ((swidthCast W (W + 1) m : Nat) : Int) * 2 ^ (V + 1) := by
      push_cast
      ring
    rw [hcast, he]
    have hpows : (2 : Int) ^ (W + 1) * 2 ^ (V + 1) = 2 ^ (W + V + 2) := by
      rw [← pow_add]
      congr 1
      omega
    linear_combination (2 : Int) ^ (V + 1) * e * hpows.symm

/-- The shifted negated multiplicand `S` of the Booth loop is congruent
to `-value(m) * 2^(V+1)` modulo `2^K` (and fits in `K` bits). -/
theorem booth_S_congr (W V m : Nat) (hW : 0 < W) (hm : m < 2 ^ W) :
    wshl (W + V + 2) (negS (W + V + 2) (swidthCast W (W + 1) m)) (V + 1)
        < 2 ^ (W + V + 2)
    ∧ ∃ kS : Int,
        ((wshl (W + V + 2) (negS (W + V + 2) (swidthCast W (W + 1) m)) (V + 1)
            : Nat) : Int)
          = -(toInt W m * 2 ^ (V + 1)) + 2 ^ (W + V + 2) * kS := by
  have hA0lt : swidthCast W (W + 1) m < 2 ^ (W + 1) := swidthCast_lt _ _ _ hm
  have hA0K : swidthCast W (W + 1) m < 2 ^ (W + V + 2) :=
    lt_of_lt_of_le hA0lt (Nat.pow_le_pow_right (by decide) (by omega))
  have htoA0 : toInt (W + 1) (swidthCast W (W + 1) m) = toInt W m :=
    swidthCast_toInt W (W + 1) m hW (by omega) hm
  obtain ⟨e, he⟩ := toInt_decomp (W + 1) (swidthCast W (W + 1) m)
  rw [htoA0] at he
  have hS0eq : negS (W + V + 2) (swidthCast W (W + 1) m)
      = (2 ^ (W + V + 2) - swidthCast W (W + 1) m) % 2 ^ (W + V + 2) :=
    negS_eq _ _ (by omega) hA0K
  have hS0lt : negS (W + V + 2) (swidthCast W (W + 1) m) < 2 ^ (W + V + 2) := by
    rw [hS0eq]
    exact Nat.mod_lt _ (Nat.two_pow_pos _)
  obtain ⟨c, hc⟩ : ∃ c : Nat,
      2 ^ (W + V + 2) - swidthCast W (W + 1) m
        = negS (W + V + 2) (swidthCast W (W + 1) m) + 2 ^ (W + V + 2) * c := by
    refine ⟨(2 ^ (W + V + 2) - swidthCast W (W + 1) m) / 2 ^ (W + V + 2), ?_⟩
    rw [hS0eq]
    have := Nat.div_add_mod (2 ^ (W + V + 2) - swidthCast W (W + 1) m)
      (2 ^ (W + V + 2))
    omega
  have hSmod : wshl (W + V + 2) (negS (W + V + 2) (swidthCast W (W + 1) m)) (V + 1)
      = negS (W + V + 2) (swidthCast W (W + 1) m) * 2 ^ (V + 1)
          % 2 ^ (W + V + 2) :=
    wshl_eq _ _ _ hS0lt
  constructor
  · rw [hSmod]
    exact Nat.mod_lt _ (Nat.two_pow_pos _)
  · obtain ⟨d, hd⟩ : ∃ d : Nat,
        negS (W + V + 2) (swidthCast W (W + 1) m) * 2 ^ (V + 1)
          = wshl (W + V + 2) (negS (W + V + 2) (swidthCast W (W + 1) m)) (V + 1)
            + 2 ^ (W + V + 2) * d := by
      refine ⟨negS (W + V + 2) (swidthCast W (W + 1) m) * 2 ^ (V + 1)
        / 2 ^ (W + V + 2), ?_⟩
      rw [hSmod]
      have := Nat.div_add_mod
        (negS (W + V + 2) (swidthCast W (W + 1) m) * 2 ^ (V + 1))
        (2 ^ (W + V + 2))
      omega
    refine ⟨(2 : Int) ^ (V + 1) - e - (c : Int) * 2 ^ (V + 1) - (d : Int), ?_⟩
    have hle : swidthCast W (W + 1) m ≤ 2 ^ (W + V + 2) := le_of_lt hA0K
    have hc' : ((2 ^ (W + V + 2) : Nat) : Int) - ((swidthCast W (W + 1) m : Nat) : Int)
        = ((negS (W + V + 2) (swidthCast W (W + 1) m) : Nat) : Int)
          + ((2 ^ (W + V + 2) : Nat) : Int) * (c : Int) := by
      have := hc
      zify [hle] at this
      exact_mod_cast this
    have hd' : ((negS (W + V + 2) (swidthCast W (W + 1) m) : Nat) : Int)
          * ((2 ^ (V + 1) : Nat) : Int)
        = ((wshl (W + V + 2) (negS (W + V + 2) (swidthCast W (W + 1) m)) (V + 1)
            : Nat) : Int)
          + ((2 ^ (W + V + 2) : Nat) : Int) * (d : Int) := by
      exact_mod_cast hd
    rw [two_pow_cast] at hc' hd'
    rw [two_pow_cast] at hd'
    have hpows : (2 : Int) ^ (W + 1) * 2 ^ (V + 1) = 2 ^ (W + V + 2) := by
      rw [← pow_add]
      congr 1
      omega
    linear_combination -hd' - (2 : Int) ^ (V + 1) * hc'
      - (2 : Int) ^ (V + 1) * he - e * hpows

/-- The common ending of a Booth iteration: arithmetic shift by one drops
the consumed multiplier bit. -/
theorem booth_tail (K Q : Nat) (hK : 1 < K) (hQ : Q < 2 ^ K) (c : Int) (b : Nat)
    (hb : b < 2) (hu : toInt K Q = 2 * c + (b : Int)) :
    sintShr K Q 1 < 2 ^ K ∧ toInt K (sintShr K Q 1) = c := by
  obtain ⟨hlt, heq⟩ := sintShr_one_toInt K Q hK hQ
  refine ⟨hlt, ?_⟩
  have h := pattern_mod_of_toInt K Q _ hu 1 (by omega)
  rw [pow_one, pow_one] at h
  have h2 : (2 * c + (b : Int)) % 2 = (b : Int) := by
    rw [Int.add_comm, Int.add_mul_emod_self_left,
      Int.emod_eq_of_lt (by positivity) (by exact_mod_cast hb)]
  rw [h2] at h
  rw [h] at heq
  omega

/-- The Booth loop invariant: after `t` of the `V` iterations the
register holds (as a `K = W+V+2`-bit two's-complement value) the partial
product `value(m) * value(low t bits of r) * 2^(V+1-t)` plus the
remaining multiplier bits `2r / 2^t`. -/
theorem booth_invariant (W V m r : Nat) (hW : 0 < W) (hV : 0 < V)
    (hm : m < 2 ^ W) (hr : r < 2 ^ V) :
    ∀ t, t ≤ V →
      loopUp (boothBody W V m) t (wshl (W + V + 2) r 1) < 2 ^ (W + V + 2)
      ∧ toInt (W + V + 2) (loopUp (boothBody W V m) t (wshl (W + V + 2) r 1))
          = toInt W m * toInt t (r % 2 ^ t) * 2 ^ (V + 1 - t)
            + ((2 * r / 2 ^ t : Nat) : Int) := by
  have hrK : r < 2 ^ (W + V + 2) :=
    lt_of_lt_of_le hr (Nat.pow_le_pow_right (by decide) (by omega))
  have h2r : 2 * r < 2 ^ (V + 1) := by
    rw [pow_succ]
    omega
  have h2rK : 2 * r < 2 ^ (W + V + 2) :=
    lt_of_lt_of_le h2r (Nat.pow_le_pow_right (by decide) (by omega))
  have hP0 : wshl (W + V + 2) r 1 = 2 * r := by
    rw [wshl_eq _ _ _ hrK, pow_one,
      Nat.mod_eq_of_lt (by omega : r * 2 < 2 ^ (W + V + 2))]
    exact Nat.mul_comm r 2
  intro t
  induction t with
  | zero =>
    intro _
    constructor
    · show wshl (W + V + 2) r 1 < 2 ^ (W + V + 2)
      rw [hP0]
      exact h2rK
    · show toInt (W + V + 2) (wshl (W + V + 2) r 1) = _
      rw [hP0]
      have hD0 : toInt 0 (r % 2 ^ 0) = 0 := by
        rw [pow_zero, Nat.mod_one]
        decide
      rw [hD0, mul_zero, zero_mul, zero_add]
      have hdiv : 2 * r / 2 ^ 0 = 2 * r := by rw [pow_zero, Nat.div_one]
      rw [hdiv]
      have hhalf : (2 : Nat) ^ (W + V + 2 - 1) = 2 ^ (W + V + 1) := by
        congr 1
      have hnn : ¬ isNeg (W + V + 2) (2 * r) = true := fun hc => by
        have h1 := (isNeg_iff _ _ (by omega) h2rK).mp hc
        have h2 : (2 : Nat) ^ (V + 1) ≤ 2 ^ (W + V + 1) :=
          Nat.pow_le_pow_right (by decide) (by omega)
        rw [hhalf] at h1
        omega
      unfold toInt
      rw [if_neg hnn]
  | succ t ih =>
    intro hle
    obtain ⟨hPlt, hPv⟩ := ih (by omega)
    obtain ⟨P, hPdef⟩ : ∃ v : Nat,
        v = loopUp (boothBody W V m) t (wshl (W + V + 2) r 1) := ⟨_, rfl⟩
    rw [← hPdef] at hPlt hPv
    have hstep : loopUp (boothBody W V m) (t + 1) (wshl (W + V + 2) r 1)
        = boothBody W V m t P := by
      rw [hPdef]
      rfl
    rw [hstep]
    have hbody : boothBody W V m t P
        = sintShr (W + V + 2)
            (if ¬ getBit P 1 ∧ getBit P 0
             then addS (W + V + 2)
               (if getBit P 1 ∧ ¬ getBit P 0
                then addS (W + V + 2) P
                  (wshl (W + V + 2)
                    (negS (W + V + 2) (swidthCast W (W + 1) m)) (V + 1))
                else P)
               (wshl (W + V + 2) (swidthCast W (W + 1) m) (V + 1))
             else
               (if getBit P 1 ∧ ¬ getBit P 0
                then addS (W + V + 2) P
                  (wshl (W + V + 2)
                    (negS (W + V + 2) (swidthCast W (W + 1) m)) (V + 1))
                else P)) 1 := rfl
    rw [hbody]
    obtain ⟨w, hw⟩ : ∃ v : Nat, v = 2 * r / 2 ^ t := ⟨_, rfl⟩
    rw [← hw] at hPv
    have hwlt : w < 2 ^ (V + 1 - t) := by
      rw [hw, Nat.div_lt_iff_lt_mul (Nat.two_pow_pos _), ← Nat.pow_add]
      have he : V + 1 - t + t = V + 1 := by omega
      rw [he]
      exact h2r
    have hmod4 := pattern_mod_of_toInt (W + V + 2) P _ hPv 2 (by omega)
    have hsplit4 : (2 : Int) ^ (V + 1 - t) = 2 ^ 2 * 2 ^ (V - 1 - t) := by
      rw [← pow_add]
      congr 1
      omega
    have hrhs4 : (toInt W m * toInt t (r % 2 ^ t) * 2 ^ (V + 1 - t) + (w : Int))
        % 2 ^ 2 = (w : Int) % 2 ^ 2 := by
      rw [hsplit4]
      have e : toInt W m * toInt t (r % 2 ^ t) * (2 ^ 2 * 2 ^ (V - 1 - t))
            + (w : Int)
          = (w : Int)
            + 2 ^ 2 * (toInt W m * toInt t (r % 2 ^ t) * 2 ^ (V - 1 - t)) := by
        ring
      rw [e, Int.add_mul_emod_self_left]
    rw [hrhs4] at hmod4
    have hbit0 : P % 2 = w % 2 := by omega
    have hbit1 : P / 2 % 2 = w / 2 % 2 := by omega
    have hb0 : getBit P 0 = decide (w % 2 = 1) := by
      unfold getBit
      rw [pow_zero, Nat.div_one, hbit0]
    have hb1 : getBit P 1 = decide (w / 2 % 2 = 1) := by
      unfold getBit
      rw [pow_one, hbit1]
    have hrec := toInt_low_succ r t
    rw [← hw] at hrec
    obtain ⟨ha1, ha2⟩ := toInt_bounds W m hW hm
    have hrm : r % 2 ^ (t + 1) < 2 ^ (t + 1) := Nat.mod_lt _ (Nat.two_pow_pos _)
    obtain ⟨hd1, hd2b⟩ := toInt_bounds (t + 1) (r % 2 ^ (t + 1)) (by omega) hrm
    simp only [Nat.add_sub_cancel] at hd1 hd2b
    have habs_a : |toInt W m| ≤ 2 ^ (W - 1) := abs_le.mpr ⟨ha1, le_of_lt ha2⟩
    have habs_d : |toInt (t + 1) (r % 2 ^ (t + 1))| ≤ 2 ^ t :=
      abs_le.mpr ⟨hd1, le_of_lt hd2b⟩
    have habs : |toInt W m * toInt (t + 1) (r % 2 ^ (t + 1))|
        ≤ 2 ^ (W - 1) * 2 ^ t := by
      rw [abs_mul]
      exact mul_le_mul habs_a habs_d (abs_nonneg _) (by positivity)
    obtain ⟨hpr1, hpr2⟩ := abs_le.mp habs
    have hcombine : (2 : Int) ^ (W - 1) * 2 ^ t * 2 ^ (V + 1 - t) = 2 ^ (W + V) := by
      rw [← pow_add, ← pow_add]
      congr 1
      omega
    have h2pos : (0 : Int) ≤ (2 : Int) ^ (V + 1 - t) := by positivity
    have hub1 : -((2 : Int) ^ (W + V))
        ≤ toInt W m * toInt (t + 1) (r % 2 ^ (t + 1)) * 2 ^ (V + 1 - t) := by
      have h := mul_le_mul_of_nonneg_right hpr1 h2pos
      calc -((2 : Int) ^ (W + V))
          = -((2 : Int) ^ (W - 1) * 2 ^ t) * 2 ^ (V + 1 - t) := by
            rw [neg_mul, hcombine]
      _ ≤ _ := h
    have hub2 : toInt W m * toInt (t + 1) (r % 2 ^ (t + 1)) * 2 ^ (V + 1 - t)
        ≤ (2 : Int) ^ (W + V) := by
      have h := mul_le_mul_of_nonneg_right hpr2 h2pos
      calc toInt W m * toInt (t + 1) (r % 2 ^ (t + 1)) * 2 ^ (V + 1 - t)
          ≤ (2 : Int) ^ (W - 1) * 2 ^ t * 2 ^ (V + 1 - t) := h
      _ = 2 ^ (W + V) := hcombine
    have hwlt' : (w : Int) < 2 ^ (V + 1 - t) := by exact_mod_cast hwlt
    have hsmallpow : (2 : Int) ^ (V + 1 - t) ≤ 2 ^ (W + V) :=
      pow_le_pow_right₀ (by norm_num) (by omega)
    have hKm1 : (2 : Int) ^ (W + V + 2 - 1) = 2 ^ (W + V) * 2 := by
      rw [← pow_succ]
      congr 1
    have hw0 : (0 : Int) ≤ (w : Int) := Int.natCast_nonneg w
    obtain ⟨cT, hcT⟩ : ∃ v : Int,
        v = toInt W m * toInt (t + 1) (r % 2 ^ (t + 1)) * 2 ^ (V - t)
          + ((w / 2 : Nat) : Int) := ⟨_, rfl⟩
    have hpow2 : (2 : Int) ^ (V + 1 - t) = 2 * 2 ^ (V - t) := by
      rw [← pow_succ']
      congr 1
      omega
    have hw2 : (w : Int) = 2 * ((w / 2 : Nat) : Int) + ((w % 2 : Nat) : Int) := by
      exact_mod_cast (Nat.div_add_mod w 2).symm
    have hu2c : toInt W m * toInt (t + 1) (r % 2 ^ (t + 1)) * 2 ^ (V + 1 - t)
          + (w : Int)
        = 2 * cT + ((w % 2 : Nat) : Int) := by
      rw [hcT, hpow2, hw2]
      ring
    have hurange1 : -((2 : Int) ^ (W + V + 2 - 1))
        ≤ toInt W m * toInt (t + 1) (r % 2 ^ (t + 1)) * 2 ^ (V + 1 - t)
          + (w : Int) := by
      rw [hKm1]
      omega
    have hurange2 : toInt W m * toInt (t + 1) (r % 2 ^ (t + 1)) * 2 ^ (V + 1 - t)
          + (w : Int) < 2 ^ (W + V + 2 - 1) := by
      rw [hKm1]
      omega
    have hVt : V + 1 - (t + 1) = V - t := by omega
    have hdiv2 : 2 * r / 2 ^ (t + 1) = w / 2 := by
      rw [hw, Nat.div_div_eq_div_mul, ← pow_succ]
    have hpowt : (2 : Int) ^ t * 2 ^ (V + 1 - t) = 2 ^ (V + 1) := by
      rw [← pow_add]
      congr 1
      omega
    obtain ⟨j, hj⟩ := toInt_decomp (W + V + 2) P
    rw [hPv] at hj
    rcases Nat.mod_two_eq_zero_or_one w with hw0b | hw0b <;>
      rcases Nat.mod_two_eq_zero_or_one (w / 2) with hw1b | hw1b
    · -- bits (0, 0): no add
      have hgb0 : getBit P 0 = false := by rw [hb0, hw0b]; rfl
      have hgb1 : getBit P 1 = false := by rw [hb1, hw1b]; rfl
      rw [if_neg (fun hcc => absurd (hgb0 ▸ hcc.2) Bool.false_ne_true),
        if_neg (fun hcc => absurd (hgb1 ▸ hcc.1) Bool.false_ne_true)]
      have hDD : toInt (t + 1) (r % 2 ^ (t + 1)) = toInt t (r % 2 ^ t) := by
        rw [hrec, hw0b, hw1b]
        norm_num
      have hu : toInt (W + V + 2) P = 2 * cT + ((w % 2 : Nat) : Int) := by
        rw [hPv, ← hu2c, hDD]
      obtain ⟨hlt2, htoInt2⟩ :=
        booth_tail (W + V + 2) P (by omega) hPlt cT (w % 2) (by omega) hu
      refine ⟨hlt2, ?_⟩
      rw [htoInt2, hcT, hVt, hdiv2]
    · -- bits (0, 1): second-last set, last clear -> add S
      have hgb0 : getBit P 0 = false := by rw [hb0, hw0b]; rfl
      have hgb1 : getBit P 1 = true := by rw [hb1, hw1b]; rfl
      rw [if_pos (⟨hgb1, fun hcc => absurd (hgb0 ▸ hcc) Bool.false_ne_true⟩ :
            getBit P 1 = true ∧ ¬ getBit P 0 = true),
        if_neg (fun hcc => absurd (hgb0 ▸ hcc.2) Bool.false_ne_true)]
      obtain ⟨hSlt, kS, hkS⟩ := booth_S_congr W V m hW hm
      have hDD : toInt (t + 1) (r % 2 ^ (t + 1))
          = toInt t (r % 2 ^ t) + 2 ^ t * (0 - 1) := by
        rw [hrec, hw0b, hw1b]
        norm_num
      have hmodsum : ∃ k : Int, (P : Int)
            + ((wshl (W + V + 2) (negS (W + V + 2) (swidthCast W (W + 1) m))
                (V + 1) : Nat) : Int)
          = (toInt W m * toInt (t + 1) (r % 2 ^ (t + 1)) * 2 ^ (V + 1 - t)
              + (w : Int)) + 2 ^ (W + V + 2) * k := by
        refine ⟨j + kS, ?_⟩
        rw [hj, hkS, hDD]
        linear_combination (toInt W m) * hpowt
      obtain ⟨hlt2, htoInt2⟩ := addS_toInt (W + V + 2) P _ (by omega) hPlt hSlt
        _ hurange1 hurange2 hmodsum
      have hu : toInt (W + V + 2)
            (addS (W + V + 2) P
              (wshl (W + V + 2) (negS (W + V + 2) (swidthCast W (W + 1) m))
                (V + 1)))
          = 2 * cT + ((w % 2 : Nat) : Int) := by
        rw [htoInt2, hu2c]
      obtain ⟨hlt3, htoInt3⟩ := booth_tail (W + V + 2) _ (by omega) hlt2 cT
        (w % 2) (by omega) hu
      refine ⟨hlt3, ?_⟩
      rw [htoInt3, hcT, hVt, hdiv2]
    · -- bits (1, 0): last set, second-last clear -> add A
      have hgb0 : getBit P 0 = true := by rw [hb0, hw0b]; rfl
      have hgb1 : getBit P 1 = false := by rw [hb1, hw1b]; rfl
      rw [if_pos (⟨fun hcc => absurd (hgb1 ▸ hcc) Bool.false_ne_true, hgb0⟩ :
            ¬ getBit P 1 = true ∧ getBit P 0 = true),
        if_neg (fun hcc => absurd (hgb1 ▸ hcc.1) Bool.false_ne_true)]
      obtain ⟨hAlt, kA, hkA⟩ := booth_A_congr W V m hW hm
      have hDD : toInt (t + 1) (r % 2 ^ (t + 1))
          = toInt t (r % 2 ^ t) + 2 ^ t * (1 - 0) := by
        rw [hrec, hw0b, hw1b]
        norm_num
      have hmodsum : ∃ k : Int, (P : Int)
            + ((wshl (W + V + 2) (swidthCast W (W + 1) m) (V + 1) : Nat) : Int)
          = (toInt W m * toInt (t + 1) (r % 2 ^ (t + 1)) * 2 ^ (V + 1 - t)
              + (w : Int)) + 2 ^ (W + V + 2) * k := by
        refine ⟨j + kA, ?_⟩
        rw [hj, hkA, hDD]
        linear_combination -(toInt W m) * hpowt
      obtain ⟨hlt2, htoInt2⟩ := addS_toInt (W + V + 2) P _ (by omega) hPlt hAlt
        _ hurange1 hurange2 hmodsum
      have hu : toInt (W + V + 2)
            (addS (W + V + 2) P
              (wshl (W + V + 2) (swidthCast W (W + 1) m) (V + 1)))
          = 2 * cT + ((w % 2 : Nat) : Int) := by
        rw [htoInt2, hu2c]
      obtain ⟨hlt3, htoInt3⟩ := booth_tail (W + V + 2) _ (by omega) hlt2 cT
        (w % 2) (by omega) hu
      refine ⟨hlt3, ?_⟩
      rw [htoInt3, hcT, hVt, hdiv2]
    · -- bits (1, 1): no add
      have hgb0 : getBit P 0 = true := by rw [hb0, hw0b]; rfl
      have hgb1 : getBit P 1 = true := by rw [hb1, hw1b]; rfl
      rw [if_neg (fun hcc => hcc.1 hgb1),
        if_neg (fun hcc => hcc.2 hgb0)]
      have hDD : toInt (t + 1) (r % 2 ^ (t + 1)) = toInt t (r % 2 ^ t) := by
        rw [hrec, hw0b, hw1b]
        norm_num
      have hu : toInt (W + V + 2) P = 2 * cT + ((w % 2 : Nat) : Int) := by
        rw [hPv, ← hu2c, hDD]
      obtain ⟨hlt2, htoInt2⟩ :=
        booth_tail (W + V + 2) P (by omega) hPlt cT (w % 2) (by omega) hu
      refine ⟨hlt2, ?_⟩
      rw [htoInt2, hcT, hVt, hdiv2]

set_option maxRecDepth 100000 in
/-- C2: `expanding_mul` computes the exact two's-complement product in
`W+V` bits for all well-formed signed operands, including the
most-negative values; in particular `mul(i8 -128, i8 -1) = i8 -128` and
`expanding_mul(i8 -128, i8 -1) = i16 128`. -/
theorem claim_C2 (W V m r : Nat) (hW : 0 < W) (hV : 0 < V)
    (hm : m < 2 ^ W) (hr : r < 2 ^ V) :
    toInt (W + V) (expandingMulS W V m r) = toInt W m * toInt V r
    ∧ expandingMulS 8 8 128 255 = 128
    ∧ mulS 8 128 255 = 128
    ∧ toInt 8 128 = -128 ∧ toInt 8 255 = -1 ∧ toInt 16 128 = 128 := by
  refine ⟨?_, by decide, by decide, by decide, by decide, by decide⟩
  obtain ⟨hPVlt, hPVv⟩ := booth_invariant W V m r hW hV hm hr V (le_refl V)
  obtain ⟨PV, hPVdef⟩ : ∃ v : Nat,
      v = loopUp (boothBody W V m) V (wshl (W + V + 2) r 1) := ⟨_, rfl⟩
  rw [← hPVdef] at hPVlt hPVv
  have hfin : expandingMulS W V m r
      = swidthCast (W + V + 2) (W + V) (sintShr (W + V + 2) PV 1) := by
    rw [hPVdef]
    rfl
  rw [hfin]
  have hDV : toInt V (r % 2 ^ V) = toInt V r := by rw [Nat.mod_eq_of_lt hr]
  rw [hDV] at hPVv
  have hVV : V + 1 - V = 1 := by omega
  rw [hVV, pow_one] at hPVv
  have hpV : (2 : Nat) ^ V = 2 * 2 ^ (V - 1) := by
    rw [← pow_succ']
    congr 1
    omega
  have hwV : 2 * r / 2 ^ V = r / 2 ^ (V - 1) := by
    rw [hpV, Nat.mul_div_mul_left r (2 ^ (V - 1)) (by decide)]
  have hbV : r / 2 ^ (V - 1) < 2 := by
    rw [Nat.div_lt_iff_lt_mul (Nat.two_pow_pos _)]
    omega
  rw [hwV] at hPVv
  have hPVv' : toInt (W + V + 2) PV
      = 2 * (toInt W m * toInt V r) + ((r / 2 ^ (V - 1) : Nat) : Int) := by
    rw [hPVv]
    ring
  obtain ⟨hFlt, hFv⟩ := booth_tail (W + V + 2) PV (by omega) hPVlt
    (toInt W m * toInt V r) (r / 2 ^ (V - 1)) hbV hPVv'
  have hcast : swidthCast (W + V + 2) (W + V) (sintShr (W + V + 2) PV 1)
      = sintShr (W + V + 2) PV 1 % 2 ^ (W + V) := by
    unfold swidthCast
    rw [if_pos (by omega)]
  rw [hcast]
  obtain ⟨ha1, ha2⟩ := toInt_bounds W m hW hm
  obtain ⟨hb1, hb2⟩ := toInt_bounds V r hV hr
  have habs : |toInt W m * toInt V r| ≤ 2 ^ (W - 1) * 2 ^ (V - 1) := by
    rw [abs_mul]
    exact mul_le_mul (abs_le.mpr ⟨ha1, le_of_lt ha2⟩)
      (abs_le.mpr ⟨hb1, le_of_lt hb2⟩) (abs_nonneg _) (by positivity)
  obtain ⟨hab1, hab2⟩ := abs_le.mp habs
  have hpp : (2 : Int) ^ (W - 1) * 2 ^ (V - 1) = 2 ^ (W + V - 2) := by
    rw [← pow_add]
    congr 1
    omega
  have hlink : (2 : Int) ^ (W + V - 1) = 2 ^ (W + V - 2) * 2 := by
    rw [← pow_succ]
    congr 1
    omega
  rw [hpp] at hab1 hab2
  obtain ⟨ab, hab⟩ : ∃ v : Int, v = toInt W m * toInt V r := ⟨_, rfl⟩
  rw [← hab] at hab1 hab2 hFv ⊢
  have hXpos : (0 : Int) < 2 ^ (W + V - 2) := by positivity
  apply toInt_unique (W + V) _ (by omega) (Nat.mod_lt _ (Nat.two_pow_pos _))
  · omega
  · omega
  · obtain ⟨j, hj⟩ := toInt_decomp (W + V + 2) (sintShr (W + V + 2) PV 1)
    rw [hFv] at hj
    refine ⟨2 ^ 2 * j - ((sintShr (W + V + 2) PV 1 / 2 ^ (W + V) : Nat) : Int), ?_⟩
    have hdm := Nat.div_add_mod (sintShr (W + V + 2) PV 1) (2 ^ (W + V))
    have hdm' : ((2 ^ (W + V) : Nat) : Int)
          * ((sintShr (W + V + 2) PV 1 / 2 ^ (W + V) : Nat) : Int)
        + ((sintShr (W + V + 2) PV 1 % 2 ^ (W + V) : Nat) : Int)
        = ((sintShr (W + V + 2) PV 1 : Nat) : Int) := by
      exact_mod_cast hdm
    rw [two_pow_cast] at hdm'
    have hKsplit : (2 : Int) ^ (W + V + 2) = 2 ^ (W + V) * 2 ^ 2 := by
      rw [← pow_add]
    linear_combination hdm' + hj - (2 : Int) ^ 2 * j * hKsplit

/-- Witness for C2 at width 8 operands `3` and `250` (value −6). -/
theorem claim_C2_witness :
    (0 : Nat) < 8 ∧ (3 : Nat) < 2 ^ 8 ∧ (250 : Nat) < 2 ^ 8
    ∧ toInt 16 (expandingMulS 8 8 3 250) = toInt 8 3 * toInt 8 250 :=
  ⟨by decide, by decide, by decide,
    (claim_C2 8 8 3 250 (by decide) (by decide) (by decide) (by decide)).1⟩

/-! ### `first_set_bit` -/

/-- The counting loop of `first_set_bit`: starting at `k`, it returns `k`
itself when no bit at or above position `k` is set, and otherwise one
more than the position of the highest set bit. -/
theorem firstSetBitAux_spec (Width p : Nat) (hp : p < 2 ^ Width) :
    ∀ d k, Width - k ≤ d →
      (p / 2 ^ k = 0 → firstSetBitAux Width p k = k)
      ∧ (p / 2 ^ k ≠ 0 →
          2 ^ (firstSetBitAux Width p k - 1) ≤ p
          ∧ p < 2 ^ firstSetBitAux Width p k
          ∧ k < firstSetBitAux Width p k) := by
  intro d
  induction d with
  | zero =>
    intro k hk
    have hWk : Width ≤ k := by omega
    have hz : p / 2 ^ k = 0 :=
      Nat.div_eq_of_lt (lt_of_lt_of_le hp (Nat.pow_le_pow_right (by decide) hWk))
    have haux : firstSetBitAux Width p k = k := by
      rw [firstSetBitAux]
      rw [dif_neg (by
        intro hne
        exact hne (by unfold wshr; rw [if_pos (by omega)]))]
    exact ⟨fun _ => haux, fun hne => absurd hz hne⟩
  | succ d ihd =>
    intro k hk
    constructor
    · intro hz
      have hsz : wshr Width p k = 0 := by
        rcases lt_or_ge k Width with hlt | hge
        · rcases Nat.eq_zero_or_pos k with hk0 | hk0
          · subst hk0
            unfold wshr
            rw [if_neg (by omega), if_pos rfl]
            rw [pow_zero, Nat.div_one] at hz
            exact hz
          · rw [wshr_eq Width p k hp hlt]
            exact hz
        · unfold wshr
          rw [if_pos (by omega)]
      rw [firstSetBitAux, dif_neg (fun hne => hne hsz)]
    · intro hne
      have hle : 2 ^ k ≤ p := by
        by_contra hgt
        exact hne (Nat.div_eq_of_lt (by omega))
      have hkW : k < Width := by
        by_contra hge
        have : (2 : Nat) ^ Width ≤ 2 ^ k :=
          Nat.pow_le_pow_right (by decide) (by omega)
        omega
      have hsne : wshr Width p k ≠ 0 := by
        rcases Nat.eq_zero_or_pos k with hk0 | hk0
        · subst hk0
          unfold wshr
          rw [if_neg (by omega), if_pos rfl]
          rw [pow_zero, Nat.div_one] at hne
          exact hne
        · rw [wshr_eq Width p k hp hkW]
          exact hne
      have hstep : firstSetBitAux Width p k = firstSetBitAux Width p (k + 1) := by
        rw [firstSetBitAux, dif_pos hsne]
      obtain ⟨ih1, ih2⟩ := ihd (k + 1) (by omega)
      by_cases hz1 : p / 2 ^ (k + 1) = 0
      · have h1 := ih1 hz1
        rw [hstep, h1]
        have hplt : p < 2 ^ (k + 1) := by
          by_contra hge
          have h1d : 1 ≤ p / 2 ^ (k + 1) :=
            (Nat.one_le_div_iff (Nat.two_pow_pos _)).mpr (by omega)
          omega
        exact ⟨by simpa using hle, hplt, by omega⟩
      · obtain ⟨h1, h2, h3⟩ := ih2 hz1
        rw [hstep]
        exact ⟨h1, h2, by omega⟩

/-- C7 (amended): `first_set_bit` returns a plain index, not an optional:
it is `0` exactly when the array is zero, and otherwise `1` more than the
position of the highest set bit (so `2^(n-1) ≤ w < 2^n` for result `n`). -/
theorem claim_C7 (Width p : Nat) (hp : p < 2 ^ Width) :
    (firstSetBit Width p = 0 ↔ p = 0)
    ∧ (0 < p →
        2 ^ (firstSetBit Width p - 1) ≤ p
        ∧ p < 2 ^ firstSetBit Width p
        ∧ 0 < firstSetBit Width p) := by
  have h := firstSetBitAux_spec Width p hp (Width - 0) 0 (le_refl _)
  constructor
  · constructor
    · intro h0
      by_contra hne
      have hstep := (h.2 (by
        rw [pow_zero, Nat.div_one]
        exact hne)).2.2
      unfold firstSetBit at h0
      omega
    · intro h0
      subst h0
      exact h.1 (by rw [pow_zero, Nat.div_one])
  · intro h0
    have hq := h.2 (by rw [pow_zero, Nat.div_one]; omega)
    exact ⟨hq.1, hq.2.1, hq.2.2⟩

/-- C7 (counterexample to the frozen wording): on the word array with the
single bit 0 set, `first_set_bit` returns `1`, not the highest-set-bit
index `0`, and it returns a plain `0` (not an empty optional) on zero. -/
theorem claim_C7_counterexample :
    firstSetBit 8 1 = 1 ∧ (1 : Nat) ≠ 0 ∧ firstSetBit 8 0 = 0 := by
  have h := firstSetBitAux_spec 8 1 (by decide) 8 0 (by decide)
  have h2 := (h.2 (by decide)).1
  have h3 := (h.2 (by decide)).2.1
  have h4 := (h.2 (by decide)).2.2
  have hz := firstSetBitAux_spec 8 0 (by decide) 8 0 (by decide)
  refine ⟨?_, by decide, hz.1 (by decide)⟩
  unfold firstSetBit
  obtain ⟨f, hf⟩ : ∃ v : Nat, v = firstSetBitAux 8 1 0 := ⟨_, rfl⟩
  rw [← hf] at h2 h3 h4 ⊢
  rcases Nat.lt_or_ge f 2 with hlt | hge
  · omega
  · exfalso
    have : (2 : Nat) ^ 1 ≤ 2 ^ (f - 1) :=
      Nat.pow_le_pow_right (by decide) (by omega)
    omega

/-! ### Signed comparison -/

/-- The big-endian word comparison loop over `k` words orders the low
`64k` bits of the two patterns numerically. -/
theorem cmpLoop_eq (k a b : Nat) :
    cmpLoop a b k
      = (if a % 2 ^ (ww * k) < b % 2 ^ (ww * k) then Ordering.lt
         else if b % 2 ^ (ww * k) < a % 2 ^ (ww * k) then Ordering.gt
         else Ordering.eq) := by
  induction k with
  | zero =>
    show Ordering.eq = _
    rw [Nat.mul_zero, Nat.pow_zero, Nat.mod_one, Nat.mod_one]
    simp
  | succ k ih =>
    have hXX : 2 ^ (ww * (k + 1)) = 2 ^ (ww * k) * 2 ^ ww := by
      rw [← Nat.pow_add, Nat.mul_succ]
    have hA : a % 2 ^ (ww * (k + 1))
        = a % 2 ^ (ww * k) + getWord a k * 2 ^ (ww * k) := by
      rw [hXX, Nat.mod_mul]
      unfold getWord
      ring
    have hB : b % 2 ^ (ww * (k + 1))
        = b % 2 ^ (ww * k) + getWord b k * 2 ^ (ww * k) := by
      rw [hXX, Nat.mod_mul]
      unfold getWord
      ring
    have hal : a % 2 ^ (ww * k) < 2 ^ (ww * k) := Nat.mod_lt _ (Nat.two_pow_pos _)
    have hbl : b % 2 ^ (ww * k) < 2 ^ (ww * k) := Nat.mod_lt _ (Nat.two_pow_pos _)
    show (if getWord a k < getWord b k then Ordering.lt
        else if getWord a k > getWord b k then Ordering.gt
        else cmpLoop a b k) = _
    obtain ⟨wa, hwa⟩ : ∃ v : Nat, v = getWord a k := ⟨_, rfl⟩
    obtain ⟨wb, hwb⟩ : ∃ v : Nat, v = getWord b k := ⟨_, rfl⟩
    obtain ⟨al, hal'⟩ : ∃ v : Nat, v = a % 2 ^ (ww * k) := ⟨_, rfl⟩
    obtain ⟨bl, hbl'⟩ : ∃ v : Nat, v = b % 2 ^ (ww * k) := ⟨_, rfl⟩
    obtain ⟨X, hX⟩ : ∃ v : Nat, v = 2 ^ (ww * k) := ⟨_, rfl⟩
    rw [← hwa, ← hwb]
    rw [← hwa, ← hal', ← hX] at hA
    rw [← hwb, ← hbl', ← hX] at hB
    rw [← hal', ← hX] at hal
    rw [← hbl', ← hX] at hbl
    rw [hA, hB, ih, ← hal', ← hbl']
    rcases Nat.lt_trichotomy wa wb with hw | hw | hw
    · rw [if_pos hw, if_pos (by nlinarith)]
    · rw [if_neg (by omega), if_neg (by omega), hw]
      rcases Nat.lt_trichotomy al bl with hl | hl | hl
      · rw [if_pos hl, if_pos (by omega)]
      · rw [if_neg (by omega), if_neg (by omega), if_neg (by omega),
          if_neg (by omega)]
      · rw [if_neg (by omega), if_pos hl, if_neg (by omega), if_pos (by omega)]
    · rw [if_neg (by omega), if_pos hw, if_neg (by nlinarith), if_pos (by nlinarith)]

/-- C4 (amended): at equal widths, the signed `<` decides correctly when
the sign bits differ or both operands are non-negative, but compares
REVERSED when both operands are negative (it returns `!both_positive` on
a larger word). -/
theorem claim_C4 (W a b : Nat) (hW : 0 < W) (ha : a < 2 ^ W) (hb : b < 2 ^ W) :
    sintLt W W a b
      = if isNeg W a = true ∧ isNeg W b = false then true
        else if isNeg W a = false ∧ isNeg W b = true then false
        else if isNeg W a = true then decide (toInt W b < toInt W a)
        else decide (toInt W a < toInt W b) := by
  have hka : a < 2 ^ (ww * wordCount W) :=
    lt_of_lt_of_le ha (Nat.pow_le_pow_right (by decide) (le_ww_mul_wordCount W))
  have hkb : b < 2 ^ (ww * wordCount W) :=
    lt_of_lt_of_le hb (Nat.pow_le_pow_right (by decide) (le_ww_mul_wordCount W))
  have hcmp : cmpLoop a b (wordCount W)
      = (if a < b then Ordering.lt
         else if b < a then Ordering.gt
         else Ordering.eq) := by
    rw [cmpLoop_eq, Nat.mod_eq_of_lt hka, Nat.mod_eq_of_lt hkb]
  unfold sintLt
  rw [if_pos (rfl : wordCount W = wordCount W), hcmp]
  by_cases hna : isNeg W a = true <;> by_cases hnb : isNeg W b = true
  · -- both negative: reversed order
    rw [hna, hnb]
    rw [if_neg (by simp), if_neg (by simp), if_pos rfl]
    have h2a := (isNeg_iff W a hW ha).mp hna
    have h2b := (isNeg_iff W b hW hb).mp hnb
    unfold toInt
    rw [if_pos hna, if_pos hnb]
    rcases Nat.lt_trichotomy a b with h | h | h
    · rw [if_pos h]
      show false = _
      have : ¬ ((b : Int) - 2 ^ W < (a : Int) - 2 ^ W) := by
        have h' : (a : Int) < (b : Int) := by exact_mod_cast h
        omega
      simp [this]
    · subst h
      rw [if_neg (by omega), if_neg (by omega)]
      show false = _
      simp
    · rw [if_neg (by omega), if_pos h]
      show true = _
      have : (b : Int) - 2 ^ W < (a : Int) - 2 ^ W := by
        have h' : (b : Int) < (a : Int) := by exact_mod_cast h
        omega
      simp [this]
  · -- a negative, b non-negative
    have hnb' : isNeg W b = false := by
      cases hx : isNeg W b
      · rfl
      · exact absurd hx hnb
    rw [hna, hnb']
    rw [if_pos (by simp)]
    rw [if_pos ⟨rfl, rfl⟩]
  · -- a non-negative, b negative
    have hna' : isNeg W a = false := by
      cases hx : isNeg W a
      · rfl
      · exact absurd hx hna
    rw [hna', hnb]
    rw [if_neg (by simp), if_pos (by simp)]
    rw [if_neg (by simp), if_pos ⟨rfl, rfl⟩]
  · -- both non-negative: correct order
    have hna' : isNeg W a = false := by
      cases hx : isNeg W a
      · rfl
      · exact absurd hx hna
    have hnb' : isNeg W b = false := by
      cases hx : isNeg W b
      · rfl
      · exact absurd hx hnb
    have hta : toInt W a = (a : Int) := by
      unfold toInt
      rw [if_neg (by rw [hna']; exact Bool.false_ne_true)]
    have htb : toInt W b = (b : Int) := by
      unfold toInt
      rw [if_neg (by rw [hnb']; exact Bool.false_ne_true)]
    rw [hna', hnb', hta, htb]
    rcases Nat.lt_trichotomy a b with h | h | h
    · rw [if_pos h]
      have h' : (a : Int) < (b : Int) := by exact_mod_cast h
      simp [h']
    · subst h
      rw [if_neg (lt_irrefl a), if_neg (lt_irrefl a)]
      simp
    · have hnab : ¬ a < b := by omega
      rw [if_neg hnab, if_pos h]
      have h' : ¬ ((a : Int) < (b : Int)) := by
        have h2 : (b : Int) < (a : Int) := by exact_mod_cast h
        omega
      simp [h']

/-- Witness for C4 at width 8, patterns 3 and 250. -/
theorem claim_C4_witness :
    (0 : Nat) < 8 ∧ (3 : Nat) < 2 ^ 8 ∧ (250 : Nat) < 2 ^ 8
    ∧ sintLt 8 8 3 250
        = if isNeg 8 3 = true ∧ isNeg 8 250 = false then true
          else if isNeg 8 3 = false ∧ isNeg 8 250 = true then false
          else if isNeg 8 3 = true then decide (toInt 8 250 < toInt 8 3)
          else decide (toInt 8 3 < toInt 8 250) :=
  ⟨by decide, by decide, by decide,
    claim_C4 8 3 250 (by decide) (by decide) (by decide)⟩

/-- C4 (counterexample to the frozen wording): at width 8 the patterns
255 (value −1) and 254 (value −2) compare as `255 < 254 = true` although
`−1 < −2` is false. -/
theorem claim_C4_counterexample :
    sintLt 8 8 255 254 = true
    ∧ toInt 8 255 = -1 ∧ toInt 8 254 = -2
    ∧ ¬ ((-1 : Int) < -2) := by decide

/-- Witness for C7 at width 8 and pattern 5. -/
theorem claim_C7_witness :
    (5 : Nat) < 2 ^ 8
    ∧ ((firstSetBit 8 5 = 0 ↔ (5 : Nat) = 0)
       ∧ (0 < 5 →
           2 ^ (firstSetBit 8 5 - 1) ≤ 5
           ∧ 5 < 2 ^ firstSetBit 8 5
           ∧ 0 < firstSetBit 8 5)) :=
  ⟨by decide, claim_C7 8 5 (by decide)⟩

/-- C5: `positparams::operator+` returns `*this` whenever either operand
is NaR, so `zero + NaR` evaluates to zero instead of NaR — NaR is not
absorbing on the right. -/
theorem claim_C5_bug :
    ppAdd 8 ppZero ppNar = ppZero
    ∧ ppZero.is_nar = false
    ∧ ppNar.is_nar = true
    ∧ ppZero ≠ ppNar := by decide

/-- Setting bit `j` on a pattern whose set bits all lie strictly above
`j` is addition of `2^j`. -/
theorem setBitOne_fresh (bits j : Nat) (h : 2 ^ (j + 1) ∣ bits) :
    setBitOne bits j = bits + 2 ^ j := by
  obtain ⟨c, hc⟩ := h
  subst hc
  unfold setBitOne
  have hlt : (2 : Nat) ^ j < 2 ^ (j + 1) :=
    Nat.pow_lt_pow_right (by norm_num) (Nat.lt_succ_self j)
  exact (Nat.mul_add_lt_is_or hlt c).symm


/-- The regime loop with enough room writes `regimeVal` left-aligned at
the start index and moves the index past the written bits. -/
theorem encRegimeLoop_spec (frb : Bool) :
    ∀ n j bits : Nat, n ≤ j + 1 → 2 ^ (j + 1) ∣ bits →
      encRegimeLoop frb n bits (j : Int) =
        (bits + regimeVal frb n * 2 ^ (j + 1 - n), (j : Int) - n) := by
  intro n
  induction n with
  | zero =>
    intro j bits hn hd
    cases frb <;> simp [encRegimeLoop, regimeVal]
  | succ n ih =>
    intro j bits hn hd
    have hj0 : (0 : Int) ≤ (j : Int) := Int.natCast_nonneg j
    have hdj : 2 ^ j ∣ bits :=
      dvd_trans (pow_dvd_pow 2 (Nat.le_succ j)) hd
    simp only [encRegimeLoop, ge_iff_le, hj0, if_true, Int.toNat_natCast]
    cases hn0 : n with
    | zero =>
      cases hfrb : frb with
      | true =>
        simp [encRegimeLoop, regimeVal]
      | false =>
        rw [show (if (if 0 = 0 then ¬false = true else false = true) then
            setBitOne bits j else bits) = setBitOne bits j by norm_num]
        rw [setBitOne_fresh bits j hd]
        simp [encRegimeLoop, regimeVal]
    | succ n' =>
      rw [show (if (if n' + 1 = 0 then ¬frb = true else frb = true) then
          setBitOne bits j else bits) =
          (if frb = true then setBitOne bits j else bits) by norm_num]
      have hj1 : 1 ≤ j := by omega
      have hcast : (j : Int) - 1 = ((j - 1 : Nat) : Int) := by
        push_cast [hj1]; ring
      rw [hcast]
      cases hfrb : frb with
      | true =>
        rw [hn0, hfrb] at ih
        rw [if_pos rfl]
        rw [setBitOne_fresh bits j hd]
        have hd' : 2 ^ (j - 1 + 1) ∣ bits + 2 ^ j := by
          rw [show j - 1 + 1 = j from by omega]
          exact Nat.dvd_add hdj (dvd_refl _)
        rw [ih (j - 1) (bits + 2 ^ j) (by omega) hd']
        have hfst : bits + 2 ^ j + regimeVal true (n' + 1) * 2 ^ (j - 1 + 1 - (n' + 1))
            = bits + regimeVal true (n' + 1 + 1) * 2 ^ (j + 1 - (n' + 1 + 1)) := by
          simp only [regimeVal, eq_self_iff_true, if_true]
          have he1 : j - 1 + 1 - (n' + 1) = j - n' - 1 := by omega
          have he2 : j + 1 - (n' + 1 + 1) = j - n' - 1 := by omega
          rw [he1, he2]
          have hsplit : (2 : Nat) ^ j = 2 ^ (n' + 1) * 2 ^ (j - n' - 1) := by
            rw [← pow_add]; congr 1; omega
          have hsm1 : (2 ^ (n' + 1) - 2) * 2 ^ (j - n' - 1)
              = 2 ^ (n' + 1) * 2 ^ (j - n' - 1) - 2 * 2 ^ (j - n' - 1) :=
            Nat.sub_mul _ _ _
          have hsm2 : (2 ^ (n' + 1 + 1) - 2) * 2 ^ (j - n' - 1)
              = 2 ^ (n' + 1 + 1) * 2 ^ (j - n' - 1) - 2 * 2 ^ (j - n' - 1) :=
            Nat.sub_mul _ _ _
          have hpow2 : (2 : Nat) ^ (n' + 1 + 1) * 2 ^ (j - n' - 1)
              = 2 * (2 ^ (n' + 1) * 2 ^ (j - n' - 1)) := by ring
          have hge : 2 * 2 ^ (j - n' - 1) ≤ 2 ^ (n' + 1) * 2 ^ (j - n' - 1) := by
            apply Nat.mul_le_mul_right
            have h21 : (2 : Nat) ^ 1 ≤ 2 ^ (n' + 1) :=
              Nat.pow_le_pow_right (by norm_num) (by omega)
            simpa using h21
          omega
        rw [hfst]
        have hsnd : ((j - 1 : Nat) : Int) - ((n' + 1 : Nat) : Int)
            = (j : Int) - ((n' + 1 + 1 : Nat) : Int) := by
          push_cast [hj1]; ring
        rw [hsnd]
      | false =>
        rw [hn0, hfrb] at ih
        rw [if_neg (by simp)]
        rw [ih (j - 1) bits (by omega)
          (by rw [show j - 1 + 1 = j from by omega]; exact hdj)]
        have hfst : regimeVal false (n' + 1) * 2 ^ (j - 1 + 1 - (n' + 1))
            = regimeVal false (n' + 1 + 1) * 2 ^ (j + 1 - (n' + 1 + 1)) := by
          simp only [regimeVal]
          norm_num
          rw [show j - 1 + 1 - (n' + 1) = j + 1 - (n' + 1 + 1) from by omega]
        rw [hfst]
        have hsnd : ((j - 1 : Nat) : Int) - ((n' + 1 : Nat) : Int)
            = (j : Int) - ((n' + 1 + 1 : Nat) : Int) := by
          push_cast [hj1]; ring
        rw [hsnd]

/-- The exponent loop with enough room adds the low `n` bits of `e`
left-aligned at the start index. -/
theorem encExpLoop_spec (e : Nat) :
    ∀ n j bits : Nat, n ≤ j + 1 → 2 ^ (j + 1) ∣ bits →
      encExpLoop e n bits (j : Int) =
        (bits + e % 2 ^ n * 2 ^ (j + 1 - n), (j : Int) - n) := by
  intro n
  induction n with
  | zero =>
    intro j bits hn hd
    simp [encExpLoop, Nat.mod_one]
  | succ n ih =>
    intro j bits hn hd
    have hj0 : (0 : Int) ≤ (j : Int) := Int.natCast_nonneg j
    have hdj : 2 ^ j ∣ bits :=
      dvd_trans (pow_dvd_pow 2 (Nat.le_succ j)) hd
    simp only [encExpLoop, ge_iff_le, hj0, if_true, Int.toNat_natCast]
    have hbit : e / 2 ^ n % 2 = 0 ∨ e / 2 ^ n % 2 = 1 := by omega
    have hmod : e % 2 ^ (n + 1) = e % 2 ^ n + 2 ^ n * (e / 2 ^ n % 2) :=
      mod_two_pow_succ e n
    have hmlt : e % 2 ^ n < 2 ^ n := Nat.mod_lt _ (Nat.two_pow_pos n)
    cases hn0 : n with
    | zero =>
      have hend : ∀ b : Nat, encExpLoop e 0 b ((j : Int) - 1) = (b, (j : Int) - 1) :=
        fun b => rfl
      cases hgb : getBit e 0 with
      | true =>
        rw [if_pos rfl, hend, setBitOne_fresh bits j hd]
        unfold getBit at hgb
        rw [decide_eq_true_eq] at hgb
        simp only [pow_zero, Nat.div_one] at hgb
        rw [Prod.mk.injEq]
        constructor
        · rw [show j + 1 - (0 + 1) = j from by omega,
            show (2 : Nat) ^ (0 + 1) = 2 from by norm_num, hgb, Nat.one_mul]
        · push_cast; ring
      | false =>
        rw [if_neg (by simp)]
        rw [hend]
        unfold getBit at hgb
        rw [decide_eq_false_iff_not] at hgb
        simp only [pow_zero, Nat.div_one] at hgb
        rw [Prod.mk.injEq]
        constructor
        · rw [show j + 1 - (0 + 1) = j from by omega,
            show (2 : Nat) ^ (0 + 1) = 2 from by norm_num,
            show e % 2 = 0 from by omega, Nat.zero_mul, Nat.add_zero]
        · push_cast; ring
    | succ n' =>
      rw [hn0] at ih hmod hmlt
      have hj1 : 1 ≤ j := by omega
      have hcast : (j : Int) - 1 = ((j - 1 : Nat) : Int) := by
        push_cast [hj1]; ring
      rw [hcast]
      have hsplit : (2 : Nat) ^ j = 2 ^ (n' + 1) * 2 ^ (j - n' - 1) := by
        rw [← pow_add]; congr 1; omega
      have he1 : j - 1 + 1 - (n' + 1) = j - n' - 1 := by omega
      have he2 : j + 1 - (n' + 1 + 1) = j - n' - 1 := by omega
      cases hgb : getBit e (n' + 1) with
      | true =>
        rw [if_pos rfl, setBitOne_fresh bits j hd]
        have hd' : 2 ^ (j - 1 + 1) ∣ bits + 2 ^ j := by
          rw [show j - 1 + 1 = j from by omega]
          exact Nat.dvd_add hdj (dvd_refl _)
        rw [ih (j - 1) (bits + 2 ^ j) (by omega) hd']
        unfold getBit at hgb
        rw [decide_eq_true_eq] at hgb
        rw [hgb, Nat.mul_one] at hmod
        rw [Prod.mk.injEq]
        constructor
        · rw [he1, he2, hmod, Nat.add_mul, hsplit]
          ring
        · push_cast [hj1]; ring
      | false =>
        rw [if_neg (by simp)]
        rw [ih (j - 1) bits (by omega)
          (by rw [show j - 1 + 1 = j from by omega]; exact hdj)]
        unfold getBit at hgb
        rw [decide_eq_false_iff_not] at hgb
        have hgb0 : e / 2 ^ (n' + 1) % 2 = 0 := by omega
        rw [hgb0, Nat.mul_zero, Nat.add_zero] at hmod
        rw [Prod.mk.injEq]
        constructor
        · rw [he1, he2, hmod]
          ring
        · push_cast [hj1]; ring

/-- A fraction loop started below index zero writes nothing. -/
theorem encFracLoop_neg (fb : Nat) : ∀ (n bits : Nat) (i : Int), i < 0 →
    encFracLoop fb n bits i = (bits, i) := by
  intro n bits i hi
  cases n with
  | zero => rfl
  | succ n => rw [encFracLoop, if_neg (by omega)]

/-- The fraction loop with enough room adds the low `n` bits of `fb`
left-aligned at the start index. -/
theorem encFracLoop_spec (fb : Nat) :
    ∀ n j bits : Nat, n ≤ j + 1 → 2 ^ (j + 1) ∣ bits →
      encFracLoop fb n bits (j : Int) =
        (bits + fb % 2 ^ n * 2 ^ (j + 1 - n), (j : Int) - n) := by
  intro n
  induction n with
  | zero =>
    intro j bits hn hd
    simp [encFracLoop, Nat.mod_one]
  | succ n ih =>
    intro j bits hn hd
    have hj0 : (0 : Int) ≤ (j : Int) := Int.natCast_nonneg j
    have hdj : 2 ^ j ∣ bits :=
      dvd_trans (pow_dvd_pow 2 (Nat.le_succ j)) hd
    simp only [encFracLoop, ge_iff_le, hj0, if_true, Int.toNat_natCast]
    have hmod : fb % 2 ^ (n + 1) = fb % 2 ^ n + 2 ^ n * (fb / 2 ^ n % 2) :=
      mod_two_pow_succ fb n
    have hmlt : fb % 2 ^ n < 2 ^ n := Nat.mod_lt _ (Nat.two_pow_pos n)
    cases hn0 : n with
    | zero =>
      have hend : ∀ b : Nat, encFracLoop fb 0 b ((j : Int) - 1) = (b, (j : Int) - 1) :=
        fun b => rfl
      cases hgb : getBit fb 0 with
      | true =>
        rw [if_pos rfl, hend, setBitOne_fresh bits j hd]
        unfold getBit at hgb
        rw [decide_eq_true_eq] at hgb
        simp only [pow_zero, Nat.div_one] at hgb
        rw [Prod.mk.injEq]
        constructor
        · rw [show j + 1 - (0 + 1) = j from by omega,
            show (2 : Nat) ^ (0 + 1) = 2 from by norm_num, hgb, Nat.one_mul]
        · push_cast; ring
      | false =>
        rw [if_neg (by simp)]
        rw [hend]
        unfold getBit at hgb
        rw [decide_eq_false_iff_not] at hgb
        simp only [pow_zero, Nat.div_one] at hgb
        rw [Prod.mk.injEq]
        constructor
        · rw [show j + 1 - (0 + 1) = j from by omega,
            show (2 : Nat) ^ (0 + 1) = 2 from by norm_num,
            show fb % 2 = 0 from by omega, Nat.zero_mul, Nat.add_zero]
        · push_cast; ring
    | succ n' =>
      rw [hn0] at ih hmod hmlt
      have hj1 : 1 ≤ j := by omega
      have hcast : (j : Int) - 1 = ((j - 1 : Nat) : Int) := by
        push_cast [hj1]; ring
      rw [hcast]
      have hsplit : (2 : Nat) ^ j = 2 ^ (n' + 1) * 2 ^ (j - n' - 1) := by
        rw [← pow_add]; congr 1; omega
      have he1 : j - 1 + 1 - (n' + 1) = j - n' - 1 := by omega
      have he2 : j + 1 - (n' + 1 + 1) = j - n' - 1 := by omega
      cases hgb : getBit fb (n' + 1) with
      | true =>
        rw [if_pos rfl, setBitOne_fresh bits j hd]
        have hd' : 2 ^ (j - 1 + 1) ∣ bits + 2 ^ j := by
          rw [show j - 1 + 1 = j from by omega]
          exact Nat.dvd_add hdj (dvd_refl _)
        rw [ih (j - 1) (bits + 2 ^ j) (by omega) hd']
        unfold getBit at hgb
        rw [decide_eq_true_eq] at hgb
        rw [hgb, Nat.mul_one] at hmod
        rw [Prod.mk.injEq]
        constructor
        · rw [he1, he2, hmod, Nat.add_mul, hsplit]
          ring
        · push_cast [hj1]; ring
      | false =>
        rw [if_neg (by simp)]
        rw [ih (j - 1) bits (by omega)
          (by rw [show j - 1 + 1 = j from by omega]; exact hdj)]
        unfold getBit at hgb
        rw [decide_eq_false_iff_not] at hgb
        have hgb0 : fb / 2 ^ (n' + 1) % 2 = 0 := by omega
        rw [hgb0, Nat.mul_zero, Nat.add_zero] at hmod
        rw [Prod.mk.injEq]
        constructor
        · rw [he1, he2, hmod]
          ring
        · push_cast [hj1]; ring

/-- The fraction loop with too little room writes the high bits of `fb`
down to index zero and drops the rest. -/
theorem encFracLoop_trunc (fb : Nat) :
    ∀ j n bits : Nat, j + 1 ≤ n → 2 ^ (j + 1) ∣ bits →
      (encFracLoop fb n bits (j : Int)).1 =
        bits + fb % 2 ^ n / 2 ^ (n - (j + 1)) := by
  intro j
  induction j with
  | zero =>
    intro n bits hn hd
    obtain ⟨n', rfl⟩ : ∃ n', n = n' + 1 := ⟨n - 1, by omega⟩
    have hj0 : (0 : Int) ≤ ((0 : Nat) : Int) := le_refl _
    simp only [encFracLoop, ge_iff_le, hj0, if_true, Int.toNat_natCast]
    rw [show ((0 : Nat) : Int) - 1 = (-1 : Int) from by norm_num]
    rw [encFracLoop_neg fb n' _ (-1) (by norm_num)]
    have hmod : fb % 2 ^ (n' + 1) = fb % 2 ^ n' + 2 ^ n' * (fb / 2 ^ n' % 2) :=
      mod_two_pow_succ fb n'
    have hmlt : fb % 2 ^ n' < 2 ^ n' := Nat.mod_lt _ (Nat.two_pow_pos n')
    have hdivq : fb % 2 ^ (n' + 1) / 2 ^ (n' + 1 - (0 + 1)) = fb / 2 ^ n' % 2 := by
      rw [show n' + 1 - (0 + 1) = n' from by omega, hmod, Nat.mul_comm,
        Nat.add_mul_div_right _ _ (Nat.two_pow_pos n'),
        Nat.div_eq_of_lt hmlt, Nat.zero_add]
    rw [hdivq]
    cases hgb : getBit fb n' with
    | true =>
      unfold getBit at hgb
      rw [decide_eq_true_eq] at hgb
      rw [setBitOne_fresh bits 0 (by simpa using hd), hgb]
      norm_num
    | false =>
      unfold getBit at hgb
      rw [decide_eq_false_iff_not] at hgb
      have hgb0 : fb / 2 ^ n' % 2 = 0 := by omega
      rw [hgb0]
      norm_num
  | succ j ih =>
    intro n bits hn hd
    obtain ⟨n', rfl⟩ : ∃ n', n = n' + 1 := ⟨n - 1, by omega⟩
    have hj0 : (0 : Int) ≤ ((j + 1 : Nat) : Int) := Int.natCast_nonneg _
    simp only [encFracLoop, ge_iff_le, hj0, if_true, Int.toNat_natCast]
    have hcast : ((j + 1 : Nat) : Int) - 1 = ((j : Nat) : Int) := by push_cast; ring
    rw [hcast]
    have hdj : 2 ^ (j + 1) ∣ bits :=
      dvd_trans (pow_dvd_pow 2 (Nat.le_succ (j + 1))) hd
    have hmod : fb % 2 ^ (n' + 1) = fb % 2 ^ n' + 2 ^ n' * (fb / 2 ^ n' % 2) :=
      mod_two_pow_succ fb n'
    have hmlt : fb % 2 ^ n' < 2 ^ n' := Nat.mod_lt _ (Nat.two_pow_pos n')
    have hsplit : (2 : Nat) ^ n' = 2 ^ (n' - (j + 1)) * 2 ^ (j + 1) := by
      rw [← pow_add]; congr 1; omega
    have hdivs : fb % 2 ^ (n' + 1) / 2 ^ (n' + 1 - (j + 1 + 1)) =
        fb % 2 ^ n' / 2 ^ (n' - (j + 1)) + fb / 2 ^ n' % 2 * 2 ^ (j + 1) := by
      rw [show n' + 1 - (j + 1 + 1) = n' - (j + 1) from by omega, hmod]
      rw [show 2 ^ n' * (fb / 2 ^ n' % 2)
          = fb / 2 ^ n' % 2 * 2 ^ (j + 1) * 2 ^ (n' - (j + 1)) from by
        rw [hsplit]; ring]
      rw [Nat.add_mul_div_right _ _ (Nat.two_pow_pos (n' - (j + 1)))]
    rw [hdivs]
    cases hgb : getBit fb n' with
    | true =>
      unfold getBit at hgb
      rw [decide_eq_true_eq] at hgb
      rw [setBitOne_fresh bits (j + 1) hd]
      rw [if_pos rfl]
      rw [ih n' (bits + 2 ^ (j + 1)) (by omega)
        (Nat.dvd_add hdj (dvd_refl _))]
      rw [hgb, Nat.one_mul]
      ring
    | false =>
      unfold getBit at hgb
      rw [decide_eq_false_iff_not] at hgb
      have hgb0 : fb / 2 ^ n' % 2 = 0 := by omega
      rw [if_neg (by simp)]
      rw [ih n' bits (by omega) hdj, hgb0, Nat.zero_mul]
      ring


/-- The first regime-run step always counts, because the run is seeded
with the bit it starts at. -/
theorem regimeRunAux_self (q pos : Nat) :
    regimeRunAux q (getBit q pos) (pos + 1)
      = 1 + regimeRunAux q (getBit q pos) pos := by
  rw [regimeRunAux, if_pos rfl]

/-- A run of ones starting below `fuel`: the value below `fuel` consists
of `r` leading ones, then (when the run stops early) a zero bit. -/
theorem regimeRunAux_true_spec (q : Nat) : ∀ fuel : Nat,
    regimeRunAux q true fuel ≤ fuel ∧
    (2 ^ regimeRunAux q true fuel - 1) *
        2 ^ (fuel - regimeRunAux q true fuel) ≤ q % 2 ^ fuel ∧
    q % 2 ^ fuel < (2 ^ regimeRunAux q true fuel - 1) *
        2 ^ (fuel - regimeRunAux q true fuel) +
        2 ^ (fuel - regimeRunAux q true fuel - 1) := by
  intro fuel
  induction fuel with
  | zero =>
    simp [regimeRunAux, Nat.mod_one]
  | succ fuel ih =>
    obtain ⟨ihr, ihlo, ihhi⟩ := ih
    have hmod : q % 2 ^ (fuel + 1) = q % 2 ^ fuel + 2 ^ fuel * (q / 2 ^ fuel % 2) :=
      mod_two_pow_succ q fuel
    have hmlt : q % 2 ^ fuel < 2 ^ fuel := Nat.mod_lt _ (Nat.two_pow_pos fuel)
    rw [regimeRunAux]
    cases hgb : getBit q fuel with
    | true =>
      rw [if_pos rfl]
      unfold getBit at hgb
      rw [decide_eq_true_eq] at hgb
      rw [hgb, Nat.mul_one] at hmod
      set r := regimeRunAux q true fuel with hr
      refine ⟨by omega, ?_, ?_⟩
      · rw [show fuel + 1 - (1 + r) = fuel - r from by omega]
        have h1 : (2 : Nat) ^ (1 + r) = 2 * 2 ^ r := by
          rw [pow_add]; ring
        have h2 : (2 : Nat) ^ fuel = 2 ^ r * 2 ^ (fuel - r) := by
          rw [← pow_add]; congr 1; omega
        have h3 : (2 ^ (1 + r) - 1) * 2 ^ (fuel - r)
            = 2 * (2 ^ r * 2 ^ (fuel - r)) - 2 ^ (fuel - r) := by
          rw [h1, Nat.sub_mul]; ring_nf
        have h4 : (2 ^ r - 1) * 2 ^ (fuel - r)
            = 2 ^ r * 2 ^ (fuel - r) - 2 ^ (fuel - r) := by
          rw [Nat.sub_mul]; ring_nf
        have h5 : (2 : Nat) ^ (fuel - r) ≤ 2 ^ r * 2 ^ (fuel - r) :=
          Nat.le_mul_of_pos_left _ (Nat.two_pow_pos r)
        omega
      · rw [show fuel + 1 - (1 + r) = fuel - r from by omega]
        have h1 : (2 : Nat) ^ (1 + r) = 2 * 2 ^ r := by
          rw [pow_add]; ring
        have h2 : (2 : Nat) ^ fuel = 2 ^ r * 2 ^ (fuel - r) := by
          rw [← pow_add]; congr 1; omega
        have h3 : (2 ^ (1 + r) - 1) * 2 ^ (fuel - r)
            = 2 * (2 ^ r * 2 ^ (fuel - r)) - 2 ^ (fuel - r) := by
          rw [h1, Nat.sub_mul]; ring_nf
        have h4 : (2 ^ r - 1) * 2 ^ (fuel - r)
            = 2 ^ r * 2 ^ (fuel - r) - 2 ^ (fuel - r) := by
          rw [Nat.sub_mul]; ring_nf
        have h5 : (2 : Nat) ^ (fuel - r) ≤ 2 ^ r * 2 ^ (fuel - r) :=
          Nat.le_mul_of_pos_left _ (Nat.two_pow_pos r)
        omega
    | false =>
      rw [if_neg (by simp)]
      unfold getBit at hgb
      rw [decide_eq_false_iff_not] at hgb
      have hgb0 : q / 2 ^ fuel % 2 = 0 := by omega
      rw [hgb0, Nat.mul_zero, Nat.add_zero] at hmod
      refine ⟨by omega, by simp, ?_⟩
      rw [show fuel + 1 - 0 - 1 = fuel from by omega]
      simp only [pow_zero]
      omega

/-- A run of zeros starting below `fuel`: the value below `fuel` is
small, and (when the run stops early) its leading bit sits right under
the run. -/
theorem regimeRunAux_false_spec (q : Nat) : ∀ fuel : Nat,
    regimeRunAux q false fuel ≤ fuel ∧
    q % 2 ^ fuel < 2 ^ (fuel - regimeRunAux q false fuel) ∧
    (regimeRunAux q false fuel < fuel →
      2 ^ (fuel - regimeRunAux q false fuel - 1) ≤ q % 2 ^ fuel) := by
  intro fuel
  induction fuel with
  | zero =>
    simp [regimeRunAux, Nat.mod_one]
  | succ fuel ih =>
    obtain ⟨ihr, ihhi, ihlo⟩ := ih
    have hmod : q % 2 ^ (fuel + 1) = q % 2 ^ fuel + 2 ^ fuel * (q / 2 ^ fuel % 2) :=
      mod_two_pow_succ q fuel
    have hmlt : q % 2 ^ fuel < 2 ^ fuel := Nat.mod_lt _ (Nat.two_pow_pos fuel)
    rw [regimeRunAux]
    cases hgb : getBit q fuel with
    | true =>
      rw [if_neg (by simp)]
      unfold getBit at hgb
      rw [decide_eq_true_eq] at hgb
      rw [hgb, Nat.mul_one] at hmod
      refine ⟨by omega, ?_, ?_⟩
      · rw [Nat.sub_zero]
        exact Nat.mod_lt _ (Nat.two_pow_pos _)
      · intro _
        rw [show fuel + 1 - 0 - 1 = fuel from by omega]
        omega
    | false =>
      rw [if_pos rfl]
      unfold getBit at hgb
      rw [decide_eq_false_iff_not] at hgb
      have hgb0 : q / 2 ^ fuel % 2 = 0 := by omega
      rw [hgb0, Nat.mul_zero, Nat.add_zero] at hmod
      set r := regimeRunAux q false fuel with hr
      refine ⟨by omega, ?_, ?_⟩
      · rw [show fuel + 1 - (1 + r) = fuel - r from by omega, hmod]
        exact ihhi
      · intro hrf
        rw [show fuel + 1 - (1 + r) - 1 = fuel - r - 1 from by omega, hmod]
        exact ihlo (by omega)

/-- Floor division recovers the regime from `scale = k * 2^ES + e`. -/
theorem scale_fdiv (ES : Nat) (k : Int) (e : Nat) (he : e < 2 ^ ES) :
    Int.fdiv (k * 2 ^ ES + (e : Int)) (2 ^ ES) = k := by
  rw [Int.fdiv_eq_ediv _ (by positivity)]
  rw [Int.add_comm, Int.add_mul_ediv_right _ _ (by positivity : (2 : Int) ^ ES ≠ 0)]
  rw [Int.ediv_eq_zero_of_lt (Int.natCast_nonneg e) (by exact_mod_cast he)]
  ring

/-- The non-negative remainder recovers the exponent from
`scale = k * 2^ES + e`. -/
theorem scale_emod (ES : Nat) (k : Int) (e : Nat) (he : e < 2 ^ ES) :
    (k * 2 ^ ES + (e : Int)) % 2 ^ ES = e := by
  rw [Int.add_comm, Int.add_mul_emod_self]
  exact Int.emod_eq_of_lt (Int.natCast_nonneg e) (by exact_mod_cast he)

/-- Bit `n` of a value below `2^(n+1)` is its leading bit. -/
theorem getBit_high_iff (p n : Nat) (hp : p < 2 ^ (n + 1)) :
    getBit p n = true ↔ 2 ^ n ≤ p := by
  unfold getBit
  rw [decide_eq_true_eq]
  have hd2 : p / 2 ^ n < 2 := by
    rw [Nat.div_lt_iff_lt_mul (Nat.two_pow_pos n)]
    rw [pow_succ] at hp
    omega
  have h1 : 2 ^ n ≤ p ↔ 1 ≤ p / 2 ^ n :=
    (Nat.one_le_div_iff (Nat.two_pow_pos n)).symm
  rw [h1]
  obtain ⟨d, hd⟩ : ∃ d, d = p / 2 ^ n := ⟨_, rfl⟩
  rw [← hd] at hd2 ⊢
  omega



theorem ppToPosit_exact (N ES FS : Nat) (sign b : Bool) (r e f nf q : Nat)
    (hN : 2 ≤ N)
    (hr1 : 1 ≤ r) (hrN : r ≤ N - 1)
    (he : e < 2 ^ ES) (hfX : f * 2 ^ (FS - nf) < 2 ^ FS)
    (hq : q < 2 ^ (N - 1))
    (hbits : regimeVal b (r + 1) * 2 ^ (N + ES + 1 - r) + e * 2 ^ (N + 1 - r)
        + (if FS ≤ N - r + 1 then f * 2 ^ (FS - nf) * 2 ^ (N - r + 1 - FS)
           else f * 2 ^ (FS - nf) / 2 ^ (FS - (N - r + 1))) = q * 2 ^ (ES + 3)) :
    ppToPosit N ES FS
      { is_nar := false
        is_zero := false
        sign_bit := sign
        scale := (if b = true then (r : Int) - 1 else -(r : Int)) * 2 ^ ES + (e : Nat)
        fraction := 2 ^ FS + f * 2 ^ (FS - nf) }
      = if sign = true then (2 ^ N - q) % 2 ^ N else q := by
  have hqN : q < 2 ^ N :=
    lt_of_lt_of_le hq (Nat.pow_le_pow_right (by norm_num) (by omega))
  unfold ppToPosit
  dsimp only
  simp only [Bool.false_eq_true, if_false]
  cases b with
  | true =>
    rw [if_pos rfl]
    have hS0 : ¬ (((r : Int) - 1) * 2 ^ ES + (e : Int) < 0) := by
      have h1 : (0 : Int) ≤ (r : Int) - 1 := by
        have : (1 : Int) ≤ (r : Int) := by exact_mod_cast hr1
        omega
      have h2 : (0 : Int) ≤ ((r : Int) - 1) * 2 ^ ES := mul_nonneg h1 (by positivity)
      have h3 : (0 : Int) ≤ (e : Int) := Int.natCast_nonneg e
      omega
    rw [if_neg hS0]
    rw [show (decide ¬ (((r : Int) - 1) * 2 ^ ES + (e : Int) < 0)) = true
      from decide_eq_true hS0]
    rw [scale_fdiv ES ((r : Int) - 1) e he]
    rw [scale_emod ES ((r : Int) - 1) e he]
    rw [show ((r : Int) - 1 + 1 + 1) = ((r + 1 : Nat) : Int) from by push_cast; ring]
    rw [Int.toNat_natCast, Int.toNat_natCast]
    rw [show ((N + ES + 3 : Nat) : Int) - 1 - 1 = ((N + ES + 1 : Nat) : Int)
      from by push_cast; ring]
    rw [encRegimeLoop_spec true (r + 1) (N + ES + 1) 0 (by omega) (dvd_zero _)]
    dsimp only
    rw [Nat.zero_add]
    rw [show N + ES + 1 + 1 - (r + 1) = N + ES + 1 - r from by omega]
    rw [show ((N + ES + 1 : Nat) : Int) - ((r + 1 : Nat) : Int)
      = ((N + ES - r : Nat) : Int) from by omega]
    have hdvd1 : 2 ^ (N + ES - r + 1) ∣ regimeVal true (r + 1) * 2 ^ (N + ES + 1 - r) := by
      rw [show N + ES + 1 - r = N + ES - r + 1 from by omega]
      exact dvd_mul_left _ _
    rw [encExpLoop_spec e ES (N + ES - r) _ (by omega) hdvd1]
    dsimp only
    rw [Nat.mod_eq_of_lt he]
    rw [show N + ES - r + 1 - ES = N + 1 - r from by omega]
    rw [show ((N + ES - r : Nat) : Int) - (ES : Int) = ((N - r : Nat) : Int)
      from by omega]
    rw [Nat.add_mod_left, Nat.mod_eq_of_lt hfX]
    have hdvd2 : 2 ^ (N - r + 1) ∣
        (regimeVal true (r + 1) * 2 ^ (N + ES + 1 - r) + e * 2 ^ (N + 1 - r)) := by
      apply Nat.dvd_add
      · rw [show regimeVal true (r + 1) * 2 ^ (N + ES + 1 - r)
            = regimeVal true (r + 1) * 2 ^ ES * 2 ^ (N - r + 1) from by
          rw [show N + ES + 1 - r = ES + (N - r + 1) from by omega, pow_add]; ring]
        exact dvd_mul_left _ _
      · rw [show N + 1 - r = N - r + 1 from by omega]
        exact dvd_mul_left _ _
    by_cases hfull : FS ≤ N - r + 1
    · rw [encFracLoop_spec (f * 2 ^ (FS - nf)) FS (N - r) _ (by omega) hdvd2]
      dsimp only
      rw [Nat.mod_eq_of_lt hfX]
      rw [show regimeVal true (r + 1) * 2 ^ (N + ES + 1 - r) + e * 2 ^ (N + 1 - r)
          + f * 2 ^ (FS - nf) * 2 ^ (N - r + 1 - FS) = q * 2 ^ (ES + 3) from by
        rw [← hbits, if_pos hfull]]
      rw [Nat.mul_div_cancel q (Nat.two_pow_pos (ES + 3))]
      rw [Nat.mod_eq_of_lt hqN]
      rw [Nat.mul_mod_left]
      rw [show getBit 0 (ES + 3 - 1) = false from by simp [getBit]]
      rw [if_neg (show ¬ (getBit q 0 = true ∧ false = true ∨
        false = true ∧ 0 % 2 ^ (ES + 2) ≠ 0) from by simp)]
    · rw [encFracLoop_trunc (f * 2 ^ (FS - nf)) (N - r) FS _ (by omega) hdvd2]
      rw [Nat.mod_eq_of_lt hfX]
      rw [show regimeVal true (r + 1) * 2 ^ (N + ES + 1 - r) + e * 2 ^ (N + 1 - r)
          + f * 2 ^ (FS - nf) / 2 ^ (FS - (N - r + 1)) = q * 2 ^ (ES + 3) from by
        rw [← hbits, if_neg hfull]]
      rw [Nat.mul_div_cancel q (Nat.two_pow_pos (ES + 3))]
      rw [Nat.mod_eq_of_lt hqN]
      rw [Nat.mul_mod_left]
      rw [show getBit 0 (ES + 3 - 1) = false from by simp [getBit]]
      rw [if_neg (show ¬ (getBit q 0 = true ∧ false = true ∨
        false = true ∧ 0 % 2 ^ (ES + 2) ≠ 0) from by simp)]
  | false =>
    rw [if_neg (show ¬ (false = true) from by simp)]
    have hS0 : (-(r : Int)) * 2 ^ ES + (e : Int) < 0 := by
      have h1 : (1 : Int) ≤ (r : Int) := by exact_mod_cast hr1
      have h2 : (2 : Int) ^ ES ≤ (r : Int) * 2 ^ ES :=
        le_mul_of_one_le_left (by positivity) h1
      have h3 : (e : Int) < 2 ^ ES := by exact_mod_cast he
      have h4 : (e : Int) < (r : Int) * 2 ^ ES := lt_of_lt_of_le h3 h2
      linarith
    rw [if_pos hS0]
    rw [show (decide ¬ ((-(r : Int)) * 2 ^ ES + (e : Int) < 0)) = false
      from decide_eq_false (by omega)]
    rw [scale_fdiv ES (-(r : Int)) e he]
    rw [scale_emod ES (-(r : Int)) e he]
    rw [show |(-(r : Int))| + 1 = ((r + 1 : Nat) : Int) from by
      rw [abs_neg, Int.abs_natCast]; push_cast; ring]
    rw [Int.toNat_natCast, Int.toNat_natCast]
    rw [show ((N + ES + 3 : Nat) : Int) - 1 - 1 = ((N + ES + 1 : Nat) : Int)
      from by push_cast; ring]
    rw [encRegimeLoop_spec false (r + 1) (N + ES + 1) 0 (by omega) (dvd_zero _)]
    dsimp only
    rw [Nat.zero_add]
    rw [show N + ES + 1 + 1 - (r + 1) = N + ES + 1 - r from by omega]
    rw [show ((N + ES + 1 : Nat) : Int) - ((r + 1 : Nat) : Int)
      = ((N + ES - r : Nat) : Int) from by omega]
    have hdvd1 : 2 ^ (N + ES - r + 1) ∣ regimeVal false (r + 1) * 2 ^ (N + ES + 1 - r) := by
      rw [show N + ES + 1 - r = N + ES - r + 1 from by omega]
      exact dvd_mul_left _ _
    rw [encExpLoop_spec e ES (N + ES - r) _ (by omega) hdvd1]
    dsimp only
    rw [Nat.mod_eq_of_lt he]
    rw [show N + ES - r + 1 - ES = N + 1 - r from by omega]
    rw [show ((N + ES - r : Nat) : Int) - (ES : Int) = ((N - r : Nat) : Int)
      from by omega]
    rw [Nat.add_mod_left, Nat.mod_eq_of_lt hfX]
    have hdvd2 : 2 ^ (N - r + 1) ∣
        (regimeVal false (r + 1) * 2 ^ (N + ES + 1 - r) + e * 2 ^ (N + 1 - r)) := by
      apply Nat.dvd_add
      · rw [show regimeVal false (r + 1) * 2 ^ (N + ES + 1 - r)
            = regimeVal false (r + 1) * 2 ^ ES * 2 ^ (N - r + 1) from by
          rw [show N + ES + 1 - r = ES + (N - r + 1) from by omega, pow_add]; ring]
        exact dvd_mul_left _ _
      · rw [show N + 1 - r = N - r + 1 from by omega]
        exact dvd_mul_left _ _
    by_cases hfull : FS ≤ N - r + 1
    · rw [encFracLoop_spec (f * 2 ^ (FS - nf)) FS (N - r) _ (by omega) hdvd2]
      dsimp only
      rw [Nat.mod_eq_of_lt hfX]
      rw [show regimeVal false (r + 1) * 2 ^ (N + ES + 1 - r) + e * 2 ^ (N + 1 - r)
          + f * 2 ^ (FS - nf) * 2 ^ (N - r + 1 - FS) = q * 2 ^ (ES + 3) from by
        rw [← hbits, if_pos hfull]]
      rw [Nat.mul_div_cancel q (Nat.two_pow_pos (ES + 3))]
      rw [Nat.mod_eq_of_lt hqN]
      rw [Nat.mul_mod_left]
      rw [show getBit 0 (ES + 3 - 1) = false from by simp [getBit]]
      rw [if_neg (show ¬ (getBit q 0 = true ∧ false = true ∨
        false = true ∧ 0 % 2 ^ (ES + 2) ≠ 0) from by simp)]
    · rw [encFracLoop_trunc (f * 2 ^ (FS - nf)) (N - r) FS _ (by omega) hdvd2]
      rw [Nat.mod_eq_of_lt hfX]
      rw [show regimeVal false (r + 1) * 2 ^ (N + ES + 1 - r) + e * 2 ^ (N + 1 - r)
          + f * 2 ^ (FS - nf) / 2 ^ (FS - (N - r + 1)) = q * 2 ^ (ES + 3) from by
        rw [← hbits, if_neg hfull]]
      rw [Nat.mul_div_cancel q (Nat.two_pow_pos (ES + 3))]
      rw [Nat.mod_eq_of_lt hqN]
      rw [Nat.mul_mod_left]
      rw [show getBit 0 (ES + 3 - 1) = false from by simp [getBit]]
      rw [if_neg (show ¬ (getBit q 0 = true ∧ false = true ∨
        false = true ∧ 0 % 2 ^ (ES + 2) ≠ 0) from by simp)]

/-- The decoded exponent and fraction fields reassemble the remainder
bits: bounds and the weighted-sum identity. -/
theorem ef_spec (ES nrem rem : Nat) (hrem : rem < 2 ^ nrem) :
    (if ES ≤ nrem then rem / 2 ^ (nrem - ES) else rem * 2 ^ (ES - nrem)) < 2 ^ ES ∧
    (if ES ≤ nrem then rem % 2 ^ (nrem - ES) else 0) < 2 ^ (nrem - ES) ∧
    (if ES ≤ nrem then rem / 2 ^ (nrem - ES) else rem * 2 ^ (ES - nrem)) * 2 ^ (nrem + 3)
      + (if ES ≤ nrem then rem % 2 ^ (nrem - ES) else 0) * 2 ^ (ES + 3)
      = rem * 2 ^ (ES + 3) := by
  by_cases hcase : ES ≤ nrem
  · rw [if_pos hcase, if_pos hcase]
    have hs1 : (2 : Nat) ^ nrem = 2 ^ ES * 2 ^ (nrem - ES) := by
      rw [← pow_add]; congr 1; omega
    refine ⟨?_, Nat.mod_lt _ (Nat.two_pow_pos _), ?_⟩
    · rw [Nat.div_lt_iff_lt_mul (Nat.two_pow_pos _)]
      rw [hs1] at hrem
      exact hrem
    · have hs2 : (2 : Nat) ^ (nrem - ES) * 2 ^ (ES + 3) = 2 ^ (nrem + 3) := by
        rw [← pow_add]; congr 1; omega
      have hdm := Nat.div_add_mod rem (2 ^ (nrem - ES))
      calc rem / 2 ^ (nrem - ES) * 2 ^ (nrem + 3)
            + rem % 2 ^ (nrem - ES) * 2 ^ (ES + 3)
          = (2 ^ (nrem - ES) * (rem / 2 ^ (nrem - ES))
              + rem % 2 ^ (nrem - ES)) * 2 ^ (ES + 3) := by
            rw [← hs2]; ring
        _ = rem * 2 ^ (ES + 3) := by rw [hdm]
  · rw [if_neg hcase, if_neg hcase]
    refine ⟨?_, Nat.two_pow_pos _, ?_⟩
    · calc rem * 2 ^ (ES - nrem) < 2 ^ nrem * 2 ^ (ES - nrem) :=
            (Nat.mul_lt_mul_right (Nat.two_pow_pos _)).mpr hrem
        _ = 2 ^ ES := by rw [← pow_add]; congr 1; omega
    · rw [Nat.zero_mul, Nat.add_zero, mul_assoc, ← pow_add]
      congr 2
      omega

/-- The written fraction contribution equals `f` shifted to the residue
base, whether or not the loop ran out of room. -/
theorem contrib_eq (FS nf M f : Nat) (h1 : nf ≤ M) (h2 : nf ≤ FS) :
    (if FS ≤ M then f * 2 ^ (FS - nf) * 2 ^ (M - FS)
     else f * 2 ^ (FS - nf) / 2 ^ (FS - M)) = f * 2 ^ (M - nf) := by
  by_cases hcase : FS ≤ M
  · rw [if_pos hcase, mul_assoc, ← pow_add]
    congr 2
    omega
  · rw [if_neg hcase]
    rw [show FS - nf = M - nf + (FS - M) from by omega]
    rw [pow_add, ← mul_assoc]
    exact Nat.mul_div_cancel _ (Nat.two_pow_pos _)

theorem posit_roundtrip (N ES FS : Nat) (hN : 2 ≤ N) (hFS : N ≤ FS + 3)
    (p : Nat) (hp : p < 2 ^ N) (hp0 : p ≠ 0) (hpn : p ≠ 2 ^ (N - 1)) :
    ppToPosit N ES FS (positToParams N ES FS p) = p := by
  unfold positToParams
  rw [if_neg hpn, if_neg hp0]
  dsimp only
  generalize hsign : getBit p (N - 1) = sign
  generalize hq : (if sign = true then (2 ^ N - p) % 2 ^ N else p) = q
  generalize hb : getBit q (N - 2) = b
  generalize hr : regimeRunAux q b (N - 1) = r
  generalize hnrem : N - 1 - r - 1 = nrem
  generalize hrem : q % 2 ^ nrem = rem
  generalize he : (if ES ≤ nrem then rem / 2 ^ (nrem - ES)
    else rem * 2 ^ (ES - nrem)) = e
  generalize hf : (if ES ≤ nrem then rem % 2 ^ (nrem - ES) else 0) = f
  generalize hnf : nrem - ES = nf
  have h2N : (2 : Nat) ^ N = 2 * 2 ^ (N - 1) := by
    rw [show (2 : Nat) ^ N = 2 ^ (N - 1 + 1) from
      congrArg (2 ^ ·) (by omega : N = N - 1 + 1), pow_succ]
    ring
  have hgh : getBit p (N - 1) = true ↔ 2 ^ (N - 1) ≤ p :=
    getBit_high_iff p (N - 1) (by rw [show N - 1 + 1 = N from by omega]; exact hp)
  have hqfacts : 1 ≤ q ∧ q < 2 ^ (N - 1) ∧
      (if sign = true then (2 ^ N - q) % 2 ^ N else q) = p := by
    cases sign with
    | true =>
      have hple : 2 ^ (N - 1) < p :=
        lt_of_le_of_ne (hgh.mp hsign) (Ne.symm hpn)
      rw [if_pos rfl] at hq ⊢
      have hq' : q = 2 ^ N - p := by
        rw [← hq, Nat.mod_eq_of_lt (by omega)]
      refine ⟨by omega, by omega, ?_⟩
      rw [hq', show 2 ^ N - (2 ^ N - p) = p from by omega, Nat.mod_eq_of_lt hp]
    | false =>
      rw [if_neg (by simp)] at hq ⊢
      have hplt : p < 2 ^ (N - 1) := by
        by_contra hc
        have h1 : getBit p (N - 1) = true := hgh.mpr (by omega)
        rw [hsign] at h1
        exact Bool.noConfusion h1
      exact ⟨by omega, by omega, hq.symm⟩
  obtain ⟨hq1, hqlt, hrecov⟩ := hqfacts
  have hqmod : q % 2 ^ (N - 1) = q := Nat.mod_eq_of_lt hqlt
  have hr1 : 1 ≤ r := by
    have hstep := regimeRunAux_self q (N - 2)
    rw [hb, show N - 2 + 1 = N - 1 from by omega, hr] at hstep
    omega
  suffices hmain : ppToPosit N ES FS
      { is_nar := false
        is_zero := false
        sign_bit := sign
        scale := (if b = true then (r : Int) - 1 else -(r : Int)) * 2 ^ ES + (e : Nat)
        fraction := 2 ^ FS + f * 2 ^ (FS - nf) }
      = if sign = true then (2 ^ N - q) % 2 ^ N else q by
    rw [hmain]
    exact hrecov
  cases b with
  | true =>
    have hspec := regimeRunAux_true_spec q (N - 1)
    rw [hr, hqmod] at hspec
    obtain ⟨hrN, hlo, hhi⟩ := hspec
    by_cases hrtop : r = N - 1
    · subst hrtop
      rw [Nat.sub_self] at hlo hhi
      simp only [pow_zero, Nat.mul_one, Nat.zero_sub] at hlo hhi
      have hq_eq : q = 2 ^ (N - 1) - 1 := by omega
      have hnrem0 : nrem = 0 := by omega
      subst hnrem0
      have hrem0 : rem = 0 := by
        rw [← hrem, pow_zero, Nat.mod_one]
      subst hrem0
      have he0 : e = 0 := by
        rw [← he]
        split <;> simp
      subst he0
      have hf0 : f = 0 := by
        rw [← hf]
        split <;> simp
      subst hf0
      have hnf0 : nf = 0 := by omega
      subst hnf0
      refine ppToPosit_exact N ES FS sign true (N - 1) 0 0 0 q hN (by omega)
        (le_refl _) (Nat.two_pow_pos _) (by simp)
        hqlt ?_
      simp only [Nat.zero_mul, Nat.add_zero, Nat.zero_div, ite_self]
      have hrv : regimeVal true (N - 1 + 1) = 2 ^ (N - 1 + 1) - 2 := rfl
      rw [hrv, hq_eq]
      rw [show N + ES + 1 - (N - 1) = ES + 2 from by omega]
      rw [show N - 1 + 1 = N from by omega]
      have h1 : (2 : Nat) ^ N - 2 = 2 * (2 ^ (N - 1) - 1) := by
        have := Nat.two_pow_pos (N - 1)
        omega
      rw [h1, show (2 : Nat) ^ (ES + 3) = 2 ^ (ES + 2) * 2 from by rw [pow_succ]]
      ring
    · have hrlt : r < N - 1 := by omega
      have hnrem_eq : N - 1 - r = nrem + 1 := by omega
      rw [hnrem_eq] at hlo hhi
      rw [show nrem + 1 - 1 = nrem from by omega] at hhi
      have hbq : (2 ^ r - 1) * 2 * 2 ^ nrem + (q - (2 ^ r - 1) * 2 ^ (nrem + 1)) = q := by
        rw [show (2 ^ r - 1) * 2 * 2 ^ nrem = (2 ^ r - 1) * 2 ^ (nrem + 1) from by
          rw [pow_succ]; ring]
        omega
      have hmodq2 : q % 2 ^ nrem = q - (2 ^ r - 1) * 2 ^ (nrem + 1) := by
        conv_lhs => rw [← hbq]
        rw [Nat.mul_add_mod']
        exact Nat.mod_eq_of_lt (by omega)
      have hqd : q = (2 ^ r - 1) * 2 ^ (nrem + 1) + rem := by
        rw [← hrem, hmodq2]
        omega
      have hremlt : rem < 2 ^ nrem := by
        rw [← hrem, hmodq2]
        omega
      obtain ⟨heB, hfB, hef⟩ := ef_spec ES nrem rem hremlt
      rw [he] at heB
      rw [hf] at hfB
      rw [he, hf] at hef
      refine ppToPosit_exact N ES FS sign true r e f nf q hN hr1 hrN heB ?_ hqlt ?_
      · have hfB' : f < 2 ^ nf := by rw [← hnf]; exact hfB
        calc f * 2 ^ (FS - nf) < 2 ^ nf * 2 ^ (FS - nf) :=
              (Nat.mul_lt_mul_right (Nat.two_pow_pos _)).mpr hfB'
          _ = 2 ^ FS := by rw [← pow_add]; congr 1; omega
      · rw [contrib_eq FS nf (N - r + 1) f (by omega) (by omega)]
        have hrv : regimeVal true (r + 1) = 2 ^ (r + 1) - 2 := rfl
        rw [hrv]
        rw [show N + 1 - r = nrem + 3 from by omega]
        have hsplitReg : (2 ^ (r + 1) - 2) * 2 ^ (N + ES + 1 - r)
            = (2 ^ r - 1) * 2 ^ (nrem + 1) * 2 ^ (ES + 3) := by
          rw [show N + ES + 1 - r = nrem + 1 + (ES + 2) from by omega]
          have h1 : (2 : Nat) ^ (r + 1) - 2 = 2 * (2 ^ r - 1) := by
            have := Nat.two_pow_pos r
            rw [pow_succ]
            omega
          rw [h1, pow_add,
            show (2 : Nat) ^ (ES + 3) = 2 ^ (ES + 2) * 2 from by rw [pow_succ]]
          ring
        rw [hsplitReg]
        by_cases hES : ES ≤ nrem
        · rw [show N - r + 1 - nf = ES + 3 from by omega]
          rw [add_assoc, hef, hqd, Nat.add_mul]
        · have hf0 : f = 0 := by rw [← hf, if_neg hES]
          rw [hf0] at hef ⊢
          simp only [Nat.zero_mul, Nat.add_zero] at hef ⊢
          rw [hef, hqd, Nat.add_mul]
  | false =>
    have hspec := regimeRunAux_false_spec q (N - 1)
    rw [hr, hqmod] at hspec
    obtain ⟨hrN, hhi, hlo⟩ := hspec
    have hrlt : r < N - 1 := by
      by_contra hc
      have hreq : r = N - 1 := by omega
      rw [hreq, Nat.sub_self, pow_zero] at hhi
      omega
    have hlo' := hlo hrlt
    have hnrem_eq : N - 1 - r = nrem + 1 := by omega
    rw [hnrem_eq] at hhi
    rw [show N - 1 - r - 1 = nrem from by omega] at hlo'
    have hpw : (2 : Nat) ^ (nrem + 1) = 2 * 2 ^ nrem := by
      rw [pow_succ]
      ring
    have hmodq2 : q % 2 ^ nrem = q - 2 ^ nrem := by
      conv_lhs => rw [show q = 1 * 2 ^ nrem + (q - 2 ^ nrem) from by omega]
      rw [Nat.mul_add_mod']
      exact Nat.mod_eq_of_lt (by omega)
    have hqd : q = 2 ^ nrem + rem := by
      rw [← hrem, hmodq2]
      omega
    have hremlt : rem < 2 ^ nrem := by
      rw [← hrem, hmodq2]
      omega
    obtain ⟨heB, hfB, hef⟩ := ef_spec ES nrem rem hremlt
    rw [he] at heB
    rw [hf] at hfB
    rw [he, hf] at hef
    refine ppToPosit_exact N ES FS sign false r e f nf q hN hr1 (by omega) heB ?_
      hqlt ?_
    · have hfB' : f < 2 ^ nf := by rw [← hnf]; exact hfB
      calc f * 2 ^ (FS - nf) < 2 ^ nf * 2 ^ (FS - nf) :=
            (Nat.mul_lt_mul_right (Nat.two_pow_pos _)).mpr hfB'
        _ = 2 ^ FS := by rw [← pow_add]; congr 1; omega
    · rw [contrib_eq FS nf (N - r + 1) f (by omega) (by omega)]
      have hrv : regimeVal false (r + 1) = 1 := rfl
      rw [hrv, Nat.one_mul]
      rw [show N + 1 - r = nrem + 3 from by omega]
      rw [show N + ES + 1 - r = nrem + (ES + 3) from by omega, pow_add]
      by_cases hES : ES ≤ nrem
      · rw [show N - r + 1 - nf = ES + 3 from by omega]
        rw [add_assoc, hef, hqd, Nat.add_mul]
      · have hf0 : f = 0 := by rw [← hf, if_neg hES]
        rw [hf0] at hef ⊢
        simp only [Nat.zero_mul, Nat.add_zero] at hef ⊢
        rw [hef, hqd, Nat.add_mul]

/-- The clamped increment stays in range. -/
theorem incrementedReal_lt (N x : Nat) (hN : 1 ≤ N) :
    incrementedReal N x < 2 ^ N := by
  unfold incrementedReal
  dsimp only
  by_cases hc : (x + 1) % 2 ^ N = 2 ^ (N - 1)
  · rw [if_pos hc]
    have := Nat.pow_lt_pow_right (show 1 < 2 by norm_num) (show N - 1 < N by omega)
    omega
  · rw [if_neg hc]
    exact Nat.mod_lt _ (Nat.two_pow_pos N)

/-- A conditional between two in-range values is in range. -/
theorem ite_lt {c : Prop} [Decidable c] {a b n : Nat} (ha : a < n) (hb : b < n) :
    (if c then a else b) < n := by
  split
  · exact ha
  · exact hb

/-- Every encoded posit pattern is in range. -/
theorem ppToPosit_lt (N ES FS : Nat) (hN : 1 ≤ N) (P : PositParams) :
    ppToPosit N ES FS P < 2 ^ N := by
  unfold ppToPosit
  dsimp only
  by_cases h1 : P.is_nar = true
  · rw [if_pos h1]
    exact Nat.pow_lt_pow_right (by norm_num) (by omega)
  · rw [if_neg h1]
    by_cases h2 : P.is_zero = true
    · rw [if_pos h2]
      exact Nat.two_pow_pos N
    · rw [if_neg h2]
      by_cases h3 : P.sign_bit = true
      · rw [if_pos h3]
        exact Nat.mod_lt _ (Nat.two_pow_pos N)
      · rw [if_neg h3]
        exact ite_lt (incrementedReal_lt N _ (by omega))
          (Nat.mod_lt _ (Nat.two_pow_pos N))

/-- Re-encoding after a decode of an encoded value reproduces it: the
encoding is idempotent on all `positparams`. -/
theorem posit_idem (N ES FS : Nat) (hN : 2 ≤ N) (hFS : N ≤ FS + 3)
    (P : PositParams) :
    ppToPosit N ES FS (positToParams N ES FS (ppToPosit N ES FS P)) =
      ppToPosit N ES FS P := by
  by_cases h1 : ppToPosit N ES FS P = 2 ^ (N - 1)
  · rw [h1]
    unfold positToParams
    rw [if_pos rfl]
    rfl
  · by_cases h0 : ppToPosit N ES FS P = 0
    · rw [h0]
      unfold positToParams
      rw [if_neg (by have := Nat.two_pow_pos (N - 1); omega), if_pos rfl]
      rfl
    · exact posit_roundtrip N ES FS hN hFS _ (ppToPosit_lt N ES FS (by omega) P)
        h0 h1

/-- C3: for every posit width `N ≥ 2` and exponent size `ES`, with the
fraction container wide enough for the explicit fraction
(`N ≤ FS + 3`), decoding any non-NaR, non-zero pattern to `positparams`
and re-encoding yields the original pattern; the encoding is idempotent
on every `positparams` value; and the `P<8,0>` pattern `01000000`
decodes to the exact value `1.0` (sign 0, scale 0, significand exactly
one) and re-encodes to the same bits. -/
theorem claim_C3 (N ES FS : Nat) (hN : 2 ≤ N) (hFS : N ≤ FS + 3) :
    (∀ p : Nat, p < 2 ^ N → p ≠ 0 → p ≠ 2 ^ (N - 1) →
        ppToPosit N ES FS (positToParams N ES FS p) = p) ∧
    (∀ P : PositParams,
        ppToPosit N ES FS (positToParams N ES FS (ppToPosit N ES FS P)) =
          ppToPosit N ES FS P) ∧
    positToParams 8 0 8 64 =
      { is_nar := false
        is_zero := false
        sign_bit := false
        scale := 0
        fraction := 2 ^ 8 } ∧
    ppToPosit 8 0 8 (positToParams 8 0 8 64) = 64 :=
  ⟨fun p hp h0 h1 => posit_roundtrip N ES FS hN hFS p hp h0 h1,
   fun P => posit_idem N ES FS hN hFS P,
   by decide, by decide⟩

/-- Witness for C3: the general theorem applied at `P<8,0>` to the
pattern `01000000` and to the encoded zero. -/
theorem claim_C3_witness :
    ppToPosit 8 0 8 (positToParams 8 0 8 64) = 64 ∧
      ppToPosit 8 0 8 (positToParams 8 0 8 (ppToPosit 8 0 8 ppZero)) =
        ppToPosit 8 0 8 ppZero :=
  ⟨(claim_C3 8 0 8 (by norm_num) (by norm_num)).1 64 (by norm_num) (by norm_num)
      (by norm_num),
   (claim_C3 8 0 8 (by norm_num) (by norm_num)).2.1 ppZero⟩

theorem nfAbsLt_asymm (x y : NormFloat) (h : nfAbsLt x y = true) :
    nfAbsLt y x = false := by
  cases hyx : nfAbsLt y x with
  | false => rfl
  | true =>
    exfalso
    simp only [nfAbsLt, Bool.or_eq_true, Bool.and_eq_true,
      decide_eq_true_eq] at h hyx
    omega

theorem nfAbsLt_eq_of_not (x y : NormFloat) (h1 : nfAbsLt x y = false)
    (h2 : nfAbsLt y x = false) :
    x.exponent = y.exponent ∧ x.mantissa = y.mantissa := by
  simp only [nfAbsLt, Bool.or_eq_false_iff, Bool.and_eq_false_iff,
    decide_eq_false_iff_not, decide_eq_true_eq, Nat.not_lt] at h1 h2
  omega

theorem nfAbsLt_flip_right (x y : NormFloat) :
    nfAbsLt x (nfFlipSign y) = nfAbsLt x y := rfl

theorem nfFlipSign_sign (x : NormFloat) : (nfFlipSign x).sign = !x.sign :=
  rfl

theorem nfOpAux_swap_add (E M f : Nat) (l r : NormFloat)
    (h : nfAbsLt l r = true) :
    nfOpAux E M (f + 1) true l r = nfOpAux E M f true r l := by
  simp only [nfOpAux, h, if_true]

theorem nfOpAux_dispatch (E M f : Nat) (isAdd : Bool) (l r : NormFloat)
    (h1 : nfAbsLt l r = false) (h2 : l.sign ≠ r.sign) :
    nfOpAux E M (f + 1) isAdd l r =
      nfOpAux E M f (!isAdd) l (nfFlipSign r) := by
  simp only [nfOpAux, h1, Bool.false_eq_true, if_false]
  rw [if_pos h2]

theorem nfOpAux_body_add (E M f : Nat) (l r : NormFloat)
    (h1 : nfAbsLt l r = false) (h2 : l.sign = r.sign) :
    nfOpAux E M (f + 1) true l r =
      nfNormalize E (M + 1) M l.sign l.exponent
        (uExpandingAdd M l.mantissa
          (r.mantissa / 2 ^ (uSub E l.exponent r.exponent % 2 ^ ww))) := by
  have h2' : ¬l.sign ≠ r.sign := fun hc => hc h2
  simp only [nfOpAux, h1, Bool.false_eq_true, if_false, if_true]
  rw [if_neg h2']

theorem nfOpAux_body_sub (E M f : Nat) (l r : NormFloat)
    (h1 : nfAbsLt l r = false) (h2 : l.sign = r.sign) :
    nfOpAux E M (f + 1) false l r =
      nfNormalize E (M + 1) M l.sign l.exponent
        (uExpandingSub M l.mantissa
          (r.mantissa / 2 ^ (uSub E l.exponent r.exponent % 2 ^ ww))) := by
  have h2' : ¬l.sign ≠ r.sign := fun hc => hc h2
  simp only [nfOpAux, h1, Bool.false_eq_true, if_false]
  rw [if_neg h2']

theorem leadOne_zero (k : Nat) : leadOne k 0 = none := by
  induction k with
  | zero => rfl
  | succ k ih => simp [leadOne, ih]

theorem leadOne_eq (k m p : Nat) (h1 : 2 ^ p ≤ m) (h2 : m < 2 ^ (p + 1)) :
    ∀ _ : p < k, leadOne k m = some p := by
  induction k with
  | zero => intro hk; omega
  | succ k ih =>
    intro hk
    by_cases hp : p = k
    · subst hp
      have hdiv : m / 2 ^ p = 1 := by
        apply Nat.div_eq_of_lt_le
        · simpa using h1
        · rw [pow_succ] at h2; omega
      simp [leadOne, hdiv]
    · have hpk : p < k := by omega
      have hmk : m < 2 ^ k :=
        lt_of_lt_of_le h2 (Nat.pow_le_pow_right (by norm_num) (by omega))
      have hdiv : m / 2 ^ k = 0 := Nat.div_eq_of_lt hmk
      simp [leadOne, hdiv, ih hpk]

theorem nfRound_zero (m : Nat) : nfRound 0 m = m := by
  simp [nfRound, Nat.mod_one, Nat.div_one]

theorem nfNormalize_wf (E MS M : Nat) (s : Bool) (e m : Nat) (hMS : M ≤ MS)
    (he : e < 2 ^ E)
    (hm : (e = 0 ∧ m = 0) ∨ (2 ^ (M - 1) ≤ m ∧ m < 2 ^ M)) :
    nfNormalize E MS M s e m =
      { sign := s, exponent := e, mantissa := m } := by
  rcases hm with ⟨he0, hm0⟩ | ⟨hlo, hhi⟩
  · subst he0; subst hm0
    unfold nfNormalize
    rw [leadOne_zero]
  · have hM : 1 ≤ M := by
      by_contra hMc
      have hM0 : M = 0 := by omega
      subst hM0
      simp only [Nat.zero_sub, pow_zero] at hlo hhi
      omega
    have hlead : leadOne MS m = some (M - 1) := by
      apply leadOne_eq MS m (M - 1) hlo _ (by omega)
      have hMM : M - 1 + 1 = M := by omega
      rw [hMM]; exact hhi
    unfold nfNormalize
    rw [hlead]
    dsimp only
    rw [if_pos (le_refl (M - 1))]
    rw [Nat.sub_self, nfRound_zero]
    rw [if_neg (Nat.ne_of_lt hhi)]
    rw [Nat.add_zero, Nat.mod_eq_of_lt he]

theorem nfAdd_zero (E M : Nat) (x : NormFloat) (hx : nfWf E M x) :
    nfAdd E M x nfZero = x := by
  obtain ⟨he, hm⟩ := hx
  have habs : nfAbsLt x nfZero = false := by
    simp [nfAbsLt, nfZero]
  have hmlt : x.mantissa < 2 ^ (M + 1) := by
    rcases hm with ⟨_, hm0⟩ | ⟨_, hmu⟩
    · rw [hm0]; exact Nat.two_pow_pos _
    · exact lt_of_lt_of_le hmu
        (Nat.pow_le_pow_right (by norm_num) (Nat.le_succ M))
  have hnorm : nfNormalize E (M + 1) M x.sign x.exponent x.mantissa = x :=
    nfNormalize_wf E (M + 1) M x.sign x.exponent x.mantissa
      (Nat.le_succ M) he hm
  cases hs : x.sign with
  | false =>
    show nfOpAux E M 3 true x nfZero = x
    rw [nfOpAux_body_add E M 2 x nfZero habs (by simp [nfZero, hs])]
    rw [show nfZero.mantissa = 0 from rfl, Nat.zero_div]
    have hsum : uExpandingAdd M x.mantissa 0 = x.mantissa := by
      unfold uExpandingAdd
      rw [Nat.add_zero]
      exact Nat.mod_eq_of_lt hmlt
    rw [hsum, hnorm]
  | true =>
    show nfOpAux E M 3 true x nfZero = x
    rw [nfOpAux_dispatch E M 2 true x nfZero habs (by simp [nfZero, hs])]
    show nfOpAux E M 2 false x (nfFlipSign nfZero) = x
    rw [nfOpAux_body_sub E M 1 x (nfFlipSign nfZero)
      (by rw [nfAbsLt_flip_right]; exact habs)
      (by simp [nfFlipSign, nfZero, hs])]
    rw [show (nfFlipSign nfZero).mantissa = 0 from rfl, Nat.zero_div]
    have hsum : uExpandingSub M x.mantissa 0 = x.mantissa := by
      unfold uExpandingSub
      rw [Nat.sub_zero, Nat.add_mod_right]
      exact Nat.mod_eq_of_lt hmlt
    rw [hsum, hnorm]

theorem nfMul_comm (E M : Nat) (a b : NormFloat) :
    nfMul E M a b = nfMul E M b a := by
  unfold nfMul
  rw [Bool.xor_comm, Nat.add_comm a.exponent b.exponent,
    Nat.mul_comm a.mantissa b.mantissa]

theorem nfAdd_comm (E M : Nat) (a b : NormFloat)
    (h : ¬(a.exponent = b.exponent ∧ a.mantissa = b.mantissa ∧
      a.sign ≠ b.sign)) :
    nfAdd E M a b = nfAdd E M b a := by
  cases hab : nfAbsLt a b with
  | true =>
    have hba := nfAbsLt_asymm a b hab
    show nfOpAux E M 3 true a b = nfOpAux E M 3 true b a
    rw [nfOpAux_swap_add E M 2 a b hab]
    by_cases hs : b.sign = a.sign
    · rw [nfOpAux_body_add E M 1 b a hba hs,
        nfOpAux_body_add E M 2 b a hba hs]
    · have hs' : b.sign ≠ a.sign := hs
      rw [nfOpAux_dispatch E M 1 true b a hba hs',
        nfOpAux_dispatch E M 2 true b a hba hs']
      have hfa : nfAbsLt b (nfFlipSign a) = false := by
        rw [nfAbsLt_flip_right]; exact hba
      have hfs : b.sign = (nfFlipSign a).sign := by
        rw [nfFlipSign_sign]
        cases ha : a.sign <;> cases hb : b.sign <;> simp_all
      rw [show (!true) = false from rfl]
      rw [nfOpAux_body_sub E M 0 b (nfFlipSign a) hfa hfs,
        nfOpAux_body_sub E M 1 b (nfFlipSign a) hfa hfs]
  | false =>
    cases hba : nfAbsLt b a with
    | true =>
      show nfOpAux E M 3 true a b = nfOpAux E M 3 true b a
      rw [nfOpAux_swap_add E M 2 b a hba]
      by_cases hs : a.sign = b.sign
      · rw [nfOpAux_body_add E M 2 a b hab hs,
          nfOpAux_body_add E M 1 a b hab hs]
      · have hs' : a.sign ≠ b.sign := hs
        rw [nfOpAux_dispatch E M 2 true a b hab hs',
          nfOpAux_dispatch E M 1 true a b hab hs']
        have hfb : nfAbsLt a (nfFlipSign b) = false := by
          rw [nfAbsLt_flip_right]; exact hab
        have hfs : a.sign = (nfFlipSign b).sign := by
          rw [nfFlipSign_sign]
          cases ha : a.sign <;> cases hb : b.sign <;> simp_all
        rw [show (!true) = false from rfl]
        rw [nfOpAux_body_sub E M 1 a (nfFlipSign b) hfb hfs,
          nfOpAux_body_sub E M 0 a (nfFlipSign b) hfb hfs]
    | false =>
      obtain ⟨hexp, hmant⟩ := nfAbsLt_eq_of_not a b hab hba
      have hs : a.sign = b.sign := by
        by_contra hc; exact h ⟨hexp, hmant, hc⟩
      show nfOpAux E M 3 true a b = nfOpAux E M 3 true b a
      rw [nfOpAux_body_add E M 2 a b hab hs,
        nfOpAux_body_add E M 2 b a hba hs.symm]
      rw [hexp, hmant, hs]

set_option maxRecDepth 4000 in
/-- C9: normfloat `mul` is commutative, `add(x, 0) == x` for well-formed
`x`, and `add` is commutative except on equal-magnitude operands of
opposite sign (see the counterexample: those cancel to zeros whose sign
is the first operand's). -/
theorem claim_C9 (E M : Nat) (a b x : NormFloat) (hx : nfWf E M x) :
    nfMul E M a b = nfMul E M b a ∧
      (¬(a.exponent = b.exponent ∧ a.mantissa = b.mantissa ∧
          a.sign ≠ b.sign) →
        nfAdd E M a b = nfAdd E M b a) ∧
      nfAdd E M x nfZero = x :=
  ⟨nfMul_comm E M a b, fun h => nfAdd_comm E M a b h, nfAdd_zero E M x hx⟩

set_option maxRecDepth 4000 in
theorem claim_C9_witness :
    nfWf 4 5 { sign := true, exponent := 6, mantissa := 19 } ∧
      (nfMul 4 5 { sign := false, exponent := 3, mantissa := 17 }
          { sign := true, exponent := 9, mantissa := 24 } =
        nfMul 4 5 { sign := true, exponent := 9, mantissa := 24 }
          { sign := false, exponent := 3, mantissa := 17 } ∧
        (¬(({ sign := false, exponent := 3, mantissa := 17 } :
              NormFloat).exponent =
            ({ sign := true, exponent := 9, mantissa := 24 } :
              NormFloat).exponent ∧
            ({ sign := false, exponent := 3, mantissa := 17 } :
              NormFloat).mantissa =
            ({ sign := true, exponent := 9, mantissa := 24 } :
              NormFloat).mantissa ∧
            ({ sign := false, exponent := 3, mantissa := 17 } :
              NormFloat).sign ≠
            ({ sign := true, exponent := 9, mantissa := 24 } :
              NormFloat).sign) →
          nfAdd 4 5 { sign := false, exponent := 3, mantissa := 17 }
              { sign := true, exponent := 9, mantissa := 24 } =
            nfAdd 4 5 { sign := true, exponent := 9, mantissa := 24 }
              { sign := false, exponent := 3, mantissa := 17 }) ∧
        nfAdd 4 5 { sign := true, exponent := 6, mantissa := 19 } nfZero =
          { sign := true, exponent := 6, mantissa := 19 }) :=
  ⟨by decide, claim_C9 4 5 _ _ _ (by decide)⟩

set_option maxRecDepth 4000 in
/-- C9 counterexample: two well-formed normfloats of equal magnitude and
opposite sign; `add` cancels them to zero in both orders, but the zero
keeps the sign of the first operand, so the two orders disagree. -/
theorem claim_C9_counterexample :
    nfWf 2 3 { sign := false, exponent := 1, mantissa := 4 } ∧
      nfWf 2 3 { sign := true, exponent := 1, mantissa := 4 } ∧
      nfAdd 2 3 { sign := false, exponent := 1, mantissa := 4 }
          { sign := true, exponent := 1, mantissa := 4 } ≠
        nfAdd 2 3 { sign := true, exponent := 1, mantissa := 4 }
          { sign := false, exponent := 1, mantissa := 4 } := by
  decide

end Aarith
